import Mathlib

/-!
# Verification of the livecoding character CRDT (`src/static/lib/document.js`)

This file gives a shallow embedding of the CRDT replica implemented in
`src/static/lib/document.js` and proves / refutes the frozen claims about it.

Modelling conventions:
* JS strings of characters become `List Char`; a nullable string becomes
  `Option (List Char)`.
* JS numbers used as indices, counters and lengths become `Nat`;
  `lastEditedPosition`, which is initialised to `-1`, stays an `Int`.
* A JS method that mutates `this` and may `throw` becomes a function
  `CRDTDocument → args → CRDTDocument × Option result`: the returned document
  reflects the mutations performed before the `throw`, and `none` marks the
  `throw` itself.
* The `appliedOps` set of strings `"<kind>-<siteId>-<counter>"` becomes a list
  of the structure `OpKey` (the string encoding is injective on its fields).
-/

set_option linter.unusedVariables false
set_option linter.unnecessarySeqFocus false

/-- `GlobalId` from `document.js`: a pair `(counter, siteId)`. -/
structure GlobalId where
  counter : Nat
  siteId : Nat
deriving DecidableEq, Repr

/-- `GlobalId.compare` from `document.js`: lexicographic on `(counter, siteId)`,
returning `-1`, `0` or `1`. -/
def GlobalId.compare (a b : GlobalId) : Int :=
  if a.counter < b.counter then -1
  else if a.counter > b.counter then 1
  else if a.siteId < b.siteId then -1
  else if a.siteId > b.siteId then 1
  else 0

/-- Strict lexicographic order on `GlobalId`, the order decided by
`GlobalId.compare`. -/
def GlobalId.lt (a b : GlobalId) : Prop :=
  a.counter < b.counter ∨ (a.counter = b.counter ∧ a.siteId < b.siteId)

instance : DecidablePred fun p : GlobalId × GlobalId => GlobalId.lt p.1 p.2 :=
  fun p => by unfold GlobalId.lt; infer_instance

instance (a b : GlobalId) : Decidable (GlobalId.lt a b) := by
  unfold GlobalId.lt; infer_instance

theorem GlobalId.compare_pos_iff (a b : GlobalId) :
    GlobalId.compare a b > 0 ↔ GlobalId.lt b a := by
  unfold GlobalId.compare GlobalId.lt
  split_ifs with h1 h2 h3 h4 <;> constructor <;> intro h <;> omega

theorem GlobalId.lt_trichotomy (a b : GlobalId) :
    GlobalId.lt a b ∨ a = b ∨ GlobalId.lt b a := by
  unfold GlobalId.lt
  rcases Nat.lt_trichotomy a.counter b.counter with h | h | h
  · exact Or.inl (Or.inl h)
  · rcases Nat.lt_trichotomy a.siteId b.siteId with h' | h' | h'
    · exact Or.inl (Or.inr ⟨h, h'⟩)
    · refine Or.inr (Or.inl ?_)
      cases a; cases b; simp_all
    · exact Or.inr (Or.inr (Or.inr ⟨h.symm, h'⟩))
  · exact Or.inr (Or.inr (Or.inl h))

theorem GlobalId.lt_asymm {a b : GlobalId} (h : GlobalId.lt a b) :
    ¬ GlobalId.lt b a := by
  unfold GlobalId.lt at *; omega

theorem GlobalId.lt_irrefl (a : GlobalId) : ¬ GlobalId.lt a a := by
  unfold GlobalId.lt; omega

/-- `CharEntry` from `document.js`: one character with its id and a
visibility flag. -/
structure CharEntry where
  c : Char
  gid : GlobalId
  visible : Bool
deriving DecidableEq, Repr

/-- `PlainUpdate` from `document.js`: a positional text change.  (`from` is a
Lean keyword, so the fields are called `fromPos` / `toPos`.) -/
structure PlainUpdate where
  fromPos : Nat
  toPos : Nat
  value : List Char
deriving DecidableEq, Repr

/-- The validity check performed by the `PlainUpdate` constructor
(`if (this.from > this.to) throw new Error("Invalid range")`). -/
def PlainUpdate.rangeValid (u : PlainUpdate) : Prop := u.fromPos ≤ u.toPos

instance (u : PlainUpdate) : Decidable u.rangeValid := by
  unfold PlainUpdate.rangeValid; infer_instance

/-- `PlainUpdate.newTo()` from `document.js`. -/
def PlainUpdate.newTo (u : PlainUpdate) : Nat := u.fromPos + u.value.length

/-- `CRDTEvent` from `document.js`.  `type` is the raw string tag
(`"insert"` / `"delete"`), as in the source. -/
structure CRDTEvent where
  type : String
  gid : GlobalId
  char : Option (List Char)
  afterGid : Option GlobalId
deriving DecidableEq, Repr

/-- The merge of two textually adjacent plain updates performed inside
`compactPlainUpdates`:
`new PlainUpdate(last.from, last.from + last.to - last.from + u.to - u.from,
last.value + u.value)`. -/
def mergeUpd (lastItem update : PlainUpdate) : PlainUpdate :=
  ⟨lastItem.fromPos,
   lastItem.fromPos + lastItem.toPos - lastItem.fromPos + update.toPos - update.fromPos,
   lastItem.value ++ update.value⟩

/-- One iteration of the loop in `compactPlainUpdates`. -/
def compactStep (result : List PlainUpdate) (update : PlainUpdate) :
    List PlainUpdate :=
  match result.getLast? with
  | none => [update]
  | some lastItem =>
    if lastItem.newTo = update.fromPos then
      result.dropLast ++ [mergeUpd lastItem update]
    else
      result ++ [update]

/-- `compactPlainUpdates` from `document.js`: merge consecutive textually
adjacent plain updates. -/
def compactPlainUpdates (updates : List PlainUpdate) : List PlainUpdate :=
  updates.foldl compactStep []

/-- The two operation kinds, the `INSERT_OPERATION` / `DELETE_OPERATION`
string constants of `document.js`. -/
inductive OpKind where
  | ins
  | del
deriving DecidableEq, Repr

/-- An element of the `appliedOps` set: the string
`"<kind>-<siteId>-<counter>"` of `document.js`, split into its fields. -/
structure OpKey where
  kind : OpKind
  siteId : Nat
  counter : Nat
deriving DecidableEq, Repr

/-- The replica state: the fields of class `CRDTDocument`. -/
structure CRDTDocument where
  entries : List CharEntry
  appliedOps : List OpKey
  maxCounter : Nat
  lastEditedPosition : Int
  cachedPosition : Nat
  cachedLength : Nat
deriving DecidableEq, Repr

namespace CRDTDocument

/-- The `CRDTDocument` constructor. -/
def new : CRDTDocument :=
  { entries := []
    appliedOps := []
    maxCounter := 0
    lastEditedPosition := -1
    cachedPosition := 0
    cachedLength := 0 }

/-- `getText()`: the visible characters in sequence order. -/
def getText (d : CRDTDocument) : List Char :=
  (d.entries.filter (·.visible)).map (·.c)

/-- Scan `entries[i]` for `i ∈ [i, stop)` for the first entry whose gid has
the given counter and siteId (the loops inside `findGid`).  The source would
throw on an out-of-range read, which cannot happen at the call sites reached
from a well-formed state; the model just stops the scan. -/
def scanGidAux (l : List CharEntry) (gid : GlobalId) :
    Nat → Nat → Option Nat
  | 0, _ => none
  | fuel + 1, i =>
    match l[i]? with
    | some e => if e.gid = gid then some i else scanGidAux l gid fuel (i + 1)
    | none => none

/-- The wrapper fixing the fuel to the number of loop iterations `stop - i`
(`fuel + 1 > 0` if and only if `i < stop` along the scan). -/
def scanGid (l : List CharEntry) (gid : GlobalId) (i stop : Nat) : Option Nat :=
  scanGidAux l gid (stop - i) i

/-- `findGid` from `document.js`: locate the entry with the given id,
starting the linear scan at the last edited position; returns the updated
document (the `lastEditedPosition` hint) and the found index. -/
def findGid (d : CRDTDocument) (gid : GlobalId) : CRDTDocument × Option Nat :=
  let start := (max (d.lastEditedPosition - 1) 0).toNat
  match scanGid d.entries gid start d.entries.length with
  | some i => ({ d with lastEditedPosition := i }, some i)
  | none =>
    match scanGid d.entries gid 0 start with
    | some i => ({ d with lastEditedPosition := i }, some i)
    | none => (d, none)

/-- The `while` loop of `insert`: starting at candidate position `q`
(one past the `position` variable of the source), skip entries whose gid is
greater than `gid`; returns the index at which the new entry is spliced. -/
def skipWAux (l : List CharEntry) (gid : GlobalId) : Nat → Nat → Nat
  | 0, q => q
  | fuel + 1, q =>
    match l[q]? with
    | some e =>
      if GlobalId.compare e.gid gid > 0 then skipWAux l gid fuel (q + 1) else q
    | none => q

def skipW (l : List CharEntry) (gid : GlobalId) (q : Nat) : Nat :=
  skipWAux l gid (l.length - q) q

/-- `entries.splice(n, 0, e)`: insert `e` at index `n`. -/
def insertAt (l : List CharEntry) (n : Nat) (e : CharEntry) : List CharEntry :=
  match n, l with
  | 0, l => e :: l
  | _ + 1, [] => [e]
  | n + 1, x :: xs => x :: insertAt xs n e

/-- `entries[pos].visible = false`. -/
def setInvisible (l : List CharEntry) (pos : Nat) : List CharEntry :=
  match pos, l with
  | _, [] => []
  | 0, x :: xs => { x with visible := false } :: xs
  | pos + 1, x :: xs => x :: setInvisible xs pos

/-- Count of the visible characters among `entries[i]` for `i ∈ [i0, stop)`
(every entry stores a single character, so `c.length` is `1`). -/
def countVis (l : List CharEntry) : Nat := l.countP (·.visible)

/-- `getPrefixLength(position)` from `document.js`: the visible length of
`entries[0..position)`, computed from the cache when possible; updates the
cache. -/
def getPrefixLength (d : CRDTDocument) (position : Nat) : CRDTDocument × Nat :=
  let pr : Nat × Nat :=
    if d.cachedPosition ≤ position then (d.cachedLength, d.cachedPosition)
    else (0, 0)
  let prefixLength := pr.1 + countVis ((d.entries.drop pr.2).take (position - pr.2))
  ({ d with cachedPosition := position, cachedLength := prefixLength }, prefixLength)

/-- The tail of `insert` after the dedup and single-character checks: splice
the new entry at the position found by the `while` loop, record the applied
operation, fix the cache, and emit the plain update. -/
def insertCore (d1 : CRDTDocument) (c : Char) (gid : GlobalId) (q : Nat) :
    CRDTDocument × Option (List PlainUpdate) :=
  let newItemsPosition := skipW d1.entries gid q
  let d2 :=
    { d1 with
      entries := insertAt d1.entries newItemsPosition ⟨c, gid, true⟩
      appliedOps := (⟨.ins, gid.siteId, gid.counter⟩ : OpKey) :: d1.appliedOps }
  let d3 :=
    if d2.cachedPosition > newItemsPosition then
      { d2 with cachedLength := 0, cachedPosition := 0 }
    else
      d2
  let out := getPrefixLength d3 newItemsPosition
  (out.1, some [⟨out.2, out.2, [c]⟩])

/-- `insert(char, gid, afterGid)` from `document.js`.  `char` is the raw
(possibly null) string payload; the body checks that it is a single
character. -/
def insert (d : CRDTDocument) (char : Option (List Char)) (gid : GlobalId)
    (afterGid : Option GlobalId) : CRDTDocument × Option (List PlainUpdate) :=
  let d0 := { d with maxCounter := max d.maxCounter gid.counter }
  let opStr : OpKey := ⟨.ins, gid.siteId, gid.counter⟩
  if opStr ∈ d0.appliedOps then
    (d0, some [])
  else
    match char with
    | some [c] =>
      match afterGid with
      | none => insertCore d0 c gid 0
      | some a =>
        match findGid d0 a with
        | (d1, some position) => insertCore d1 c gid (position + 1)
        | (d1, none) => (d1, none)
    | _ => (d0, none)

/-- `delete(gid)` from `document.js`. -/
def delete (d : CRDTDocument) (gid : GlobalId) :
    CRDTDocument × Option (List PlainUpdate) :=
  let d0 := { d with maxCounter := max d.maxCounter gid.counter }
  let opStr : OpKey := ⟨.del, gid.siteId, gid.counter⟩
  if opStr ∈ d0.appliedOps then
    (d0, some [])
  else
    match findGid d0 gid with
    | (d1, none) => (d1, none)
    | (d1, some pos) =>
      let d2 :=
        { d1 with
          entries := setInvisible d1.entries pos
          appliedOps := opStr :: d1.appliedOps }
      let d3 :=
        if d2.cachedPosition > pos then
          { d2 with cachedLength := d2.cachedLength - 1 }
        else
          d2
      let out := getPrefixLength d3 pos
      (out.1, some [⟨out.2, out.2 + 1, []⟩])

/-- One dispatch step of the loop in `applyEvents`. -/
def applyEvent (d : CRDTDocument) (e : CRDTEvent) :
    CRDTDocument × Option (List PlainUpdate) :=
  if e.type = "insert" then
    d.insert e.char e.gid e.afterGid
  else if e.type = "delete" then
    d.delete e.gid
  else
    (d, none)

/-- The loop of `applyEvents`, accumulating the raw (uncompacted) updates. -/
def applyEventsGo (d : CRDTDocument) : List CRDTEvent →
    CRDTDocument × Option (List PlainUpdate)
  | [] => (d, some [])
  | e :: rest =>
    match applyEvent d e with
    | (d1, none) => (d1, none)
    | (d1, some out) =>
      match applyEventsGo d1 rest with
      | (d2, none) => (d2, none)
      | (d2, some outs) => (d2, some (out ++ outs))

/-- `applyEvents(events)` from `document.js`: apply a batch of remote
operations in order; the returned plain updates are compacted. -/
def applyEvents (d : CRDTDocument) (events : List CRDTEvent) :
    CRDTDocument × Option (List PlainUpdate) :=
  match applyEventsGo d events with
  | (d1, some updates) => (d1, some (compactPlainUpdates updates))
  | (d1, none) => (d1, none)

/-- `getPosition(prefixLength)`'s scan loop: advance `position` (and the
running visible length) until the requested visible length is reached. -/
def posScanAux (l : List CharEntry) (prefixLength : Nat) :
    Nat → Nat → Nat → Nat × Nat
  | 0, position, length => (position, length)
  | fuel + 1, position, length =>
    if length < prefixLength then
      match l[position]? with
      | some e =>
        posScanAux l prefixLength fuel (position + 1)
          (if e.visible then length + 1 else length)
      | none => (position, length)
    else
      (position, length)

def posScan (l : List CharEntry) (position length prefixLength : Nat) :
    Nat × Nat :=
  posScanAux l prefixLength (l.length - position) position length

/-- `getPosition(prefixLength)` from `document.js`: the entry index holding
the given visible prefix length; throws (`none`) when the text is too
short. -/
def getPosition (d : CRDTDocument) (prefixLength : Nat) :
    CRDTDocument × Option Nat :=
  let st : Nat × Nat :=
    if d.cachedLength ≤ prefixLength then (d.cachedPosition, d.cachedLength)
    else (0, 0)
  let out := posScan d.entries st.1 st.2 prefixLength
  if out.2 ≠ prefixLength then
    (d, none)
  else
    ({ d with cachedPosition := out.1, cachedLength := out.2 }, some out.1)

/-- The first loop of `applyPlainUpdate`: walk the entries from index `i`,
deleting visible entries until `removed` characters have been deleted;
returns the remaining count.  The extra `fuel` argument is the loop bound
`i < entries.length` made structural (`delete` never changes the number of
entries, so the in-loop bounds check below makes `fuel` semantically
irrelevant as long as it is at least `entries.length - i`). -/
def delLoop (d : CRDTDocument) (i removed : Nat) (acc : List CRDTEvent)
    (fuel : Nat) : CRDTDocument × Nat × Option (List CRDTEvent) :=
  match fuel with
  | 0 => (d, removed, some acc)
  | fuel + 1 =>
    if i < d.entries.length ∧ 0 < removed then
      match d.entries[i]? with
      | some e =>
        if e.visible then
          match delete d e.gid with
          | (d1, some _) =>
            delLoop d1 (i + 1) (removed - 1)
              (acc ++ [⟨"delete", e.gid, none, none⟩]) fuel
          | (d1, none) => (d1, removed, none)
        else
          delLoop d (i + 1) removed acc fuel
      | none => (d, removed, none)
    else
      (d, removed, some acc)

/-- The determination of `afterGid` inside the insertion loop of
`applyPlainUpdate`: `null` for index `-1`, else the gid of the entry at the
index; the boolean marks whether the lookup succeeded (the source throws on
an out-of-range index). -/
def entryGidAt (d : CRDTDocument) (idx : Int) : Option GlobalId × Bool :=
  if idx = -1 then (none, true)
  else if idx < 0 then (none, false)
  else
    match d.entries[idx.toNat]? with
    | some e => (some e.gid, true)
    | none => (none, false)

/-- The second loop of `applyPlainUpdate`: insert the characters of `value`
one by one after entry index `idx` (`-1` meaning at the head), allocating
fresh ids `(maxCounter + 1, siteId)`. -/
def insLoop (d : CRDTDocument) (idx : Int) (siteId : Nat)
    (acc : List CRDTEvent) : List Char → CRDTDocument × Option (List CRDTEvent)
  | [] => (d, some acc)
  | ch :: rest =>
    let afterGid : Option GlobalId × Bool := entryGidAt d idx
    if afterGid.2 then
      let gid : GlobalId := ⟨d.maxCounter + 1, siteId⟩
      match insert d (some [ch]) gid afterGid.1 with
      | (d1, some (u :: _)) =>
        insLoop d1 (idx + 1) siteId
          (acc ++ [⟨"insert", gid, some [ch], afterGid.1⟩]) rest
      | (d1, some []) => (d1, none)
      | (d1, none) => (d1, none)
    else
      (d, none)

/-- `applyPlainUpdate(from, to, value, siteId)` from `document.js`: translate
a positional edit into operations, applying them locally as a side effect.
(The subtraction `to - from` is a `Nat` subtraction: when `from > to` the
source computes a negative `removedChars`, and both the source's loop guard
`removedChars > 0` and its final `removedChars > 0` check are then false,
exactly as for `0`.) -/
def applyPlainUpdate (d : CRDTDocument) (f t : Nat) (value : List Char)
    (siteId : Nat) : CRDTDocument × Option (List CRDTEvent) :=
  match getPosition d f with
  | (d0, none) => (d0, none)
  | (d0, some position) =>
    let entriesFrom : Int := (position : Int) - 1
    let removedChars := t - f
    match delLoop d0 position removedChars [] (d0.entries.length - position) with
    | (d1, _, none) => (d1, none)
    | (d1, remaining, some acc) =>
      if 0 < remaining then
        (d1, none)
      else
        insLoop d1 entriesFrom siteId acc value

end CRDTDocument

namespace CRDTDocument

/-! ## Basic facts about the list helpers -/

theorem insertAt_eq (l : List CharEntry) (n : Nat) (e : CharEntry) :
    insertAt l n e = l.take n ++ e :: l.drop n := by
  induction l generalizing n with
  | nil => cases n <;> simp [insertAt]
  | cons x xs ih =>
    cases n with
    | zero => simp [insertAt]
    | succ n => simp [insertAt, ih]

theorem length_setInvisible (l : List CharEntry) (p : Nat) :
    (setInvisible l p).length = l.length := by
  induction l generalizing p with
  | nil => simp [setInvisible]
  | cons x xs ih =>
    cases p with
    | zero => simp [setInvisible]
    | succ p => simp [setInvisible, ih]

theorem map_gid_setInvisible (l : List CharEntry) (p : Nat) :
    (setInvisible l p).map (·.gid) = l.map (·.gid) := by
  induction l generalizing p with
  | nil => simp [setInvisible]
  | cons x xs ih =>
    cases p with
    | zero => simp [setInvisible]
    | succ p => simp [setInvisible, ih]

theorem scanGidAux_sound (l : List CharEntry) (g : GlobalId) (fuel : Nat) :
    ∀ i j : Nat, scanGidAux l g fuel i = some j →
      ∃ e, l[j]? = some e ∧ e.gid = g := by
  induction fuel with
  | zero => intro i j h; cases h
  | succ fuel ih =>
    intro i j h
    rw [scanGidAux] at h
    rcases hget : l[i]? with _ | e <;> simp only [hget] at h
    · cases h
    · by_cases hgid : e.gid = g
      · rw [if_pos hgid] at h
        cases h
        exact ⟨e, hget, hgid⟩
      · rw [if_neg hgid] at h
        exact ih _ _ h

theorem scanGid_sound (l : List CharEntry) (g : GlobalId) (i stop : Nat)
    (j : Nat) (h : scanGid l g i stop = some j) :
    ∃ e, l[j]? = some e ∧ e.gid = g :=
  scanGidAux_sound l g _ _ _ h


theorem scanGidAux_none_of_not_mem (l : List CharEntry) (g : GlobalId)
    (fuel : Nat) (hg : ∀ e ∈ l, e.gid ≠ g) :
    ∀ i : Nat, scanGidAux l g fuel i = none := by
  induction fuel with
  | zero => intro i; rfl
  | succ fuel ih =>
    intro i
    rw [scanGidAux]
    rcases hget : l[i]? with _ | e <;> simp only [hget]
    rw [if_neg (hg e (List.getElem?_mem hget))]
    exact ih _

theorem scanGid_none_of_not_mem (l : List CharEntry) (g : GlobalId)
    (i stop : Nat) (hg : ∀ e ∈ l, e.gid ≠ g) : scanGid l g i stop = none :=
  scanGidAux_none_of_not_mem l g _ hg _

theorem findGid_not_found (d : CRDTDocument) (g : GlobalId)
    (hg : ∀ e ∈ d.entries, e.gid ≠ g) : findGid d g = (d, none) := by
  rw [findGid]
  rw [scanGid_none_of_not_mem d.entries g _ _ hg,
    scanGid_none_of_not_mem d.entries g _ _ hg]

theorem findGid_sound (d : CRDTDocument) (g : GlobalId) (d' : CRDTDocument)
    (j : Nat) (h : findGid d g = (d', some j)) :
    (∃ e, d.entries[j]? = some e ∧ e.gid = g) ∧
      d' = { d with lastEditedPosition := (j : Int) } := by
  rw [findGid] at h
  rcases h1 : scanGid d.entries g ((max (d.lastEditedPosition - 1) 0)).toNat
      d.entries.length with _ | i
  · rcases h2 : scanGid d.entries g 0
        ((max (d.lastEditedPosition - 1) 0)).toNat with _ | i
    · rw [h1, h2] at h
      cases h
    · rw [h1, h2] at h
      cases h
      exact ⟨scanGid_sound _ _ _ _ _ h2, rfl⟩
  · rw [h1] at h
    cases h
    exact ⟨scanGid_sound _ _ _ _ _ h1, rfl⟩

/-- The fields of the result of `getPrefixLength`, other than the caches,
are those of the input. -/
theorem getPrefixLength_fst (d : CRDTDocument) (p : Nat) :
    ((getPrefixLength d p).1).entries = d.entries ∧
    ((getPrefixLength d p).1).appliedOps = d.appliedOps ∧
    ((getPrefixLength d p).1).maxCounter = d.maxCounter ∧
    ((getPrefixLength d p).1).lastEditedPosition = d.lastEditedPosition := by
  rw [getPrefixLength]
  exact ⟨rfl, rfl, rfl, rfl⟩

/-- `findGid` changes at most `lastEditedPosition`. -/
theorem findGid_fst (d : CRDTDocument) (g : GlobalId) :
    ((findGid d g).1).entries = d.entries ∧
    ((findGid d g).1).appliedOps = d.appliedOps ∧
    ((findGid d g).1).maxCounter = d.maxCounter ∧
    ((findGid d g).1).cachedPosition = d.cachedPosition ∧
    ((findGid d g).1).cachedLength = d.cachedLength := by
  rw [findGid]
  rcases scanGid d.entries g ((max (d.lastEditedPosition - 1) 0)).toNat
      d.entries.length with _ | i
  · rcases scanGid d.entries g 0 ((max (d.lastEditedPosition - 1) 0)).toNat
        with _ | i
    · exact ⟨rfl, rfl, rfl, rfl, rfl⟩
    · exact ⟨rfl, rfl, rfl, rfl, rfl⟩
  · exact ⟨rfl, rfl, rfl, rfl, rfl⟩

/-- After any call to `insert` the `maxCounter` is exactly
`max maxCounter gid.counter` — the very first line of the method, on every
path, duplicate, throwing or successful. -/
theorem insertCore_fst_maxCounter (d : CRDTDocument) (c : Char)
    (g : GlobalId) (q : Nat) :
    ((insertCore d c g q).1).maxCounter = d.maxCounter := by
  rw [insertCore]
  rw [(getPrefixLength_fst _ _).2.2.1]
  split <;> rfl

theorem insert_fst_maxCounter (d : CRDTDocument) (ch : Option (List Char))
    (g : GlobalId) (a : Option GlobalId) :
    ((insert d ch g a).1).maxCounter = max d.maxCounter g.counter := by
  have hfind := findGid_fst { d with maxCounter := max d.maxCounter g.counter }
  rcases ch with _ | ⟨_ | ⟨c, _ | ⟨c2, l⟩⟩⟩ <;>
    by_cases hdup : (⟨.ins, g.siteId, g.counter⟩ : OpKey) ∈ d.appliedOps <;>
      simp only [insert, hdup, if_true, if_false, ite_true, ite_false] <;> try rfl
  rcases a with _ | a
  · rw [insertCore_fst_maxCounter]
  · rcases h : findGid { d with maxCounter := max d.maxCounter g.counter } a
      with ⟨d1, _ | p⟩ <;> simp only [h]
    · have := (hfind a).2.2.1
      rw [h] at this
      exact this
    · rw [insertCore_fst_maxCounter]
      have := (hfind a).2.2.1
      rw [h] at this
      exact this

/-- After any call to `delete` the `maxCounter` is exactly
`max maxCounter gid.counter`. -/
theorem delete_fst_maxCounter (d : CRDTDocument) (g : GlobalId) :
    ((delete d g).1).maxCounter = max d.maxCounter g.counter := by
  rw [delete]
  split
  · rfl
  · rcases h : findGid { d with maxCounter := max d.maxCounter g.counter } g
      with ⟨d1, _ | p⟩ <;> simp only [h]
    · have := (findGid_fst { d with maxCounter := max d.maxCounter g.counter } g).2.2.1
      rw [h] at this
      exact this
    · rw [(getPrefixLength_fst _ _).2.2.1]
      have := (findGid_fst { d with maxCounter := max d.maxCounter g.counter } g).2.2.1
      rw [h] at this
      split <;> simpa using this


/-- All ids a replica has seen: ids of its entries and ids recorded in the
applied-operation set. -/
def seenGids (d : CRDTDocument) : List GlobalId :=
  d.entries.map (·.gid) ++ d.appliedOps.map (fun k => ⟨k.counter, k.siteId⟩)

theorem getPosition_fst_maxCounter (d : CRDTDocument) (pl : Nat) :
    ((getPosition d pl).1).maxCounter = d.maxCounter := by
  rw [getPosition]
  split <;> split <;> rfl

theorem delete_snd_shape (d : CRDTDocument) (g : GlobalId)
    (us : List PlainUpdate) (h : (delete d g).2 = some us) :
    us = [] ∨ ∃ n, us = [⟨n, n + 1, []⟩] := by
  rw [delete] at h
  split at h
  · cases h
    exact Or.inl rfl
  · rcases hf : findGid { d with maxCounter := max d.maxCounter g.counter } g
      with ⟨d1, _ | p⟩ <;> simp only [hf] at h
    · cases h
    · cases h
      exact Or.inr ⟨_, rfl⟩

theorem insert_snd_shape (d : CRDTDocument) (ch : Option (List Char))
    (g : GlobalId) (a : Option GlobalId) (us : List PlainUpdate)
    (h : (insert d ch g a).2 = some us) :
    us = [] ∨ ∃ n c, us = [⟨n, n, [c]⟩] := by
  by_cases hdup : (⟨.ins, g.siteId, g.counter⟩ : OpKey) ∈ d.appliedOps <;>
    rcases ch with _ | ⟨_ | ⟨c, _ | ⟨c2, l⟩⟩⟩ <;>
      simp only [insert, hdup, if_true, if_false, ite_true, ite_false] at h <;>
        try cases h
  all_goals try exact Or.inl rfl
  rcases a with _ | a
  · simp only [insertCore] at h
    cases h
    exact Or.inr ⟨_, _, rfl⟩
  · rcases hf : findGid { d with maxCounter := max d.maxCounter g.counter } a
      with ⟨d1, _ | p⟩ <;> simp only [hf] at h
    · cases h
    · simp only [insertCore] at h
      cases h
      exact Or.inr ⟨_, _, rfl⟩

theorem applyEventsGo_updates_valid (evs : List CRDTEvent) :
    ∀ d : CRDTDocument, ∀ u ∈ (((applyEventsGo d evs).2).getD []),
      u.rangeValid := by
  induction evs with
  | nil => intro d u hu; simp [applyEventsGo] at hu
  | cons e rest ih =>
    intro d u hu
    rw [applyEventsGo] at hu
    rcases h1 : applyEvent d e with ⟨d1, _ | out⟩ <;> simp only [h1] at hu
    · simp at hu
    · rcases h2 : applyEventsGo d1 rest with ⟨d2, _ | outs⟩ <;>
        simp only [h2] at hu
      · simp at hu
      · simp only [Option.getD_some, List.mem_append] at hu
        rcases hu with hu | hu
        · rw [applyEvent] at h1
          split at h1
          · rcases insert_snd_shape _ _ _ _ out (by rw [h1]) with rfl | ⟨n, c, rfl⟩
            · simp at hu
            · simp at hu
              subst hu
              exact Nat.le_refl _
          · split at h1
            · rcases delete_snd_shape _ _ out (by rw [h1]) with rfl | ⟨n, rfl⟩
              · simp at hu
              · simp at hu
                subst hu
                exact Nat.le_succ _
            · cases h1
        · have := ih d1 u
          rw [h2] at this
          exact this hu

theorem mergeUpd_valid {u v : PlainUpdate} (hu : u.rangeValid)
    (hv : v.rangeValid) : (mergeUpd u v).rangeValid := by
  unfold PlainUpdate.rangeValid at *
  unfold mergeUpd
  dsimp only
  omega

theorem foldl_compactStep_valid (us : List PlainUpdate) :
    ∀ acc : List PlainUpdate, (∀ u ∈ acc, u.rangeValid) →
      (∀ u ∈ us, u.rangeValid) →
      ∀ u ∈ us.foldl compactStep acc, u.rangeValid := by
  induction us with
  | nil => intro acc hacc _ u hu; exact hacc u hu
  | cons u0 rest ih =>
    intro acc hacc hus u hu
    rw [List.foldl_cons] at hu
    refine ih (compactStep acc u0) ?_ (fun x hx => hus x (List.mem_cons_of_mem _ hx)) u hu
    intro x hx
    rw [compactStep] at hx
    rcases hl : acc.getLast? with _ | lastItem <;> simp only [hl] at hx
    · simp at hx
      subst hx
      exact hus _ (List.mem_cons_self _ _)
    · split at hx
      · rcases List.mem_append.mp hx with hx | hx
        · exact hacc x (List.dropLast_subset acc hx)
        · simp at hx
          subst hx
          exact mergeUpd_valid (hacc _ (List.mem_of_mem_getLast? hl))
            (hus _ (List.mem_cons_self _ _))
      · rcases List.mem_append.mp hx with hx | hx
        · exact hacc x hx
        · simp at hx
          subst hx
          exact hus _ (List.mem_cons_self _ _)

theorem compactPlainUpdates_valid (us : List PlainUpdate)
    (h : ∀ u ∈ us, u.rangeValid) :
    ∀ u ∈ compactPlainUpdates us, u.rangeValid :=
  foldl_compactStep_valid us [] (by intro u hu; cases hu) h


theorem delLoop_fst_maxCounter_mono (fuel : Nat) :
    ∀ (d : CRDTDocument) (i r : Nat) (acc : List CRDTEvent),
      d.maxCounter ≤ ((delLoop d i r acc fuel).1).maxCounter := by
  induction fuel with
  | zero => intro d i r acc; exact Nat.le_refl _
  | succ fuel ih =>
    intro d i r acc
    rw [delLoop]
    split
    · rcases hget : d.entries[i]? with _ | e <;> simp only [hget]
      · exact Nat.le_refl _
      · split
        · rcases hdel : delete d e.gid with ⟨d1, _ | out⟩ <;> simp only [hdel]
          · have : d1.maxCounter = max d.maxCounter e.gid.counter := by
              have := delete_fst_maxCounter d e.gid
              rw [hdel] at this
              exact this
            rw [this]
            exact Nat.le_max_left _ _
          · have h1 : d1.maxCounter = max d.maxCounter e.gid.counter := by
              have := delete_fst_maxCounter d e.gid
              rw [hdel] at this
              exact this
            exact le_trans (le_trans (Nat.le_max_left _ _) h1.ge) (ih d1 _ _ _)
        · exact ih d _ _ _
    · exact Nat.le_refl _

theorem delLoop_events (fuel : Nat) :
    ∀ (d : CRDTDocument) (i r : Nat) (acc : List CRDTEvent),
      ∀ e ∈ (((delLoop d i r acc fuel).2.2).getD []),
        e ∈ acc ∨ e.type = "delete" := by
  induction fuel with
  | zero => intro d i r acc e he; exact Or.inl he
  | succ fuel ih =>
    intro d i r acc e he
    rw [delLoop] at he
    split at he
    · rcases hget : d.entries[i]? with _ | en <;> simp only [hget] at he
      · simp at he
      · split at he
        · rcases hdel : delete d en.gid with ⟨d1, _ | out⟩ <;>
            simp only [hdel] at he
          · simp at he
          · rcases ih d1 (i + 1) (r - 1) _ e he with h | h
            · rcases List.mem_append.mp h with h | h
              · exact Or.inl h
              · simp at h
                subst h
                exact Or.inr rfl
            · exact Or.inr h
        · exact ih d (i + 1) r acc e he
    · exact Or.inl he

theorem insLoop_events (v : List Char) :
    ∀ (d : CRDTDocument) (idx : Int) (s : Nat) (acc : List CRDTEvent),
      ∀ e ∈ (((insLoop d idx s acc v).2).getD []),
        e ∈ acc ∨ (e.type = "insert" ∧ d.maxCounter < e.gid.counter) := by
  induction v with
  | nil => intro d idx s acc e he; exact Or.inl he
  | cons ch rest ih =>
    intro d idx s acc e he
    rcases hag : entryGidAt d idx with ⟨ag, b⟩
    simp only [insLoop, hag] at he
    cases b
    · simp at he
    · simp only [if_true] at he
      rcases hins : insert d (some [ch]) ⟨d.maxCounter + 1, s⟩ ag
        with ⟨d1, _ | ⟨_ | ⟨u, us⟩⟩⟩ <;> simp only [hins] at he
      · simp at he
      · simp at he
      · have hd1 : d1.maxCounter = d.maxCounter + 1 := by
          have := insert_fst_maxCounter d (some [ch]) ⟨d.maxCounter + 1, s⟩ ag
          rw [hins] at this
          simpa using this
        rcases ih d1 (idx + 1) s _ e he with h | h
        · rcases List.mem_append.mp h with h | h
          · exact Or.inl h
          · simp at h
            subst h
            exact Or.inr ⟨rfl, Nat.lt_succ_self _⟩
        · refine Or.inr ⟨h.1, ?_⟩
          have := h.2
          omega


/-! ## Claim C9: single-character precondition of `insert` -/

/-- C9: `insert(char, gid, afterGid)` fails (throws) for every non-duplicate
operation whose `char` is not exactly one character, while a duplicate of an
already-applied Insert is ignored (returning `[]` without error) before the
single-character check is reached. -/
theorem C9_single_char_precondition :
    (∀ (d : CRDTDocument) (ch : Option (List Char)) (g : GlobalId)
        (a : Option GlobalId),
        (⟨.ins, g.siteId, g.counter⟩ : OpKey) ∉ d.appliedOps →
        (∀ c : Char, ch ≠ some [c]) →
        (insert d ch g a).2 = none) ∧
    (∀ (d : CRDTDocument) (ch : Option (List Char)) (g : GlobalId)
        (a : Option GlobalId),
        (⟨.ins, g.siteId, g.counter⟩ : OpKey) ∈ d.appliedOps →
        (insert d ch g a).2 = some []) := by
  constructor
  · intro d ch g a hdup hch
    rcases ch with _ | ⟨_ | ⟨c, _ | ⟨c2, l⟩⟩⟩ <;>
      simp only [insert, hdup, if_false, ite_false] <;> try rfl
    exact absurd rfl (hch c)
  · intro d ch g a hdup
    simp only [insert, hdup, if_true, ite_true]

/-- Witness for C9 at concrete inputs: a two-character insert on a fresh
replica throws, and re-inserting an already applied id is ignored. -/
theorem C9_witness :
    ((⟨.ins, 1, 1⟩ : OpKey) ∉ CRDTDocument.new.appliedOps ∧
      (∀ c : Char, (some ['a', 'b'] : Option (List Char)) ≠ some [c]) ∧
      (CRDTDocument.new.insert (some ['a', 'b']) ⟨1, 1⟩ none).2 = none) ∧
    ((⟨.ins, 1, 1⟩ : OpKey) ∈
        ((CRDTDocument.new.insert (some ['a']) ⟨1, 1⟩ none).1).appliedOps ∧
      (((CRDTDocument.new.insert (some ['a']) ⟨1, 1⟩ none).1).insert
          (some ['a']) ⟨1, 1⟩ none).2 = some []) :=
  ⟨⟨by decide, by intro c h; simp at h,
      C9_single_char_precondition.1 _ _ _ _ (by decide)
        (by intro c h; simp at h)⟩,
    ⟨by decide, C9_single_char_precondition.2 _ _ _ _ (by decide)⟩⟩

/-! ## Claim C4: idempotence of already-applied operations -/

/-- C4: if the key of an Insert or Delete is already in the applied set of a
replica (whose applied keys are bounded by `maxCounter`, as in every
reachable state), re-applying the operation leaves the whole state — entries,
visibility flags, applied set, `maxCounter`, caches and hence `getText()` —
unchanged and emits no plain updates. -/
theorem C4_idempotence (d : CRDTDocument)
    (hinv : ∀ k ∈ d.appliedOps, k.counter ≤ d.maxCounter) :
    (∀ (ch : Option (List Char)) (g : GlobalId) (a : Option GlobalId),
        (⟨.ins, g.siteId, g.counter⟩ : OpKey) ∈ d.appliedOps →
        insert d ch g a = (d, some [])) ∧
    (∀ g : GlobalId, (⟨.del, g.siteId, g.counter⟩ : OpKey) ∈ d.appliedOps →
        delete d g = (d, some [])) := by
  constructor
  · intro ch g a hk
    have hmax : max d.maxCounter g.counter = d.maxCounter :=
      Nat.max_eq_left (hinv _ hk)
    simp only [insert, hmax, hk, if_true, ite_true]
  · intro g hk
    have hmax : max d.maxCounter g.counter = d.maxCounter :=
      Nat.max_eq_left (hinv _ hk)
    simp only [delete, hmax, hk, if_true, ite_true]

/-- Witness for C4: on the replica obtained by inserting `'a'` and deleting
it again, both duplicate operations are exact no-ops. -/
theorem C4_witness :
    (∀ k ∈ ((((CRDTDocument.new.insert (some ['a']) ⟨1, 1⟩ none).1).delete
        ⟨1, 1⟩).1).appliedOps,
      k.counter ≤ ((((CRDTDocument.new.insert (some ['a']) ⟨1, 1⟩ none).1).delete
        ⟨1, 1⟩).1).maxCounter) ∧
    ((((CRDTDocument.new.insert (some ['a']) ⟨1, 1⟩ none).1).delete
        ⟨1, 1⟩).1).insert (some ['a']) ⟨1, 1⟩ none =
      (((((CRDTDocument.new.insert (some ['a']) ⟨1, 1⟩ none).1).delete
        ⟨1, 1⟩).1), some []) ∧
    ((((CRDTDocument.new.insert (some ['a']) ⟨1, 1⟩ none).1).delete
        ⟨1, 1⟩).1).delete ⟨1, 1⟩ =
      (((((CRDTDocument.new.insert (some ['a']) ⟨1, 1⟩ none).1).delete
        ⟨1, 1⟩).1), some []) :=
  ⟨by decide,
    (C4_idempotence _ (by decide)).1 _ _ _ (by decide),
    (C4_idempotence _ (by decide)).2 _ (by decide)⟩


/-! ## Claim C5: unknown ids fail, duplicates are ignored -/

/-- C5: `applyEvents` fails on a non-duplicate Delete whose id does not occur
among the entries and on a non-duplicate Insert whose non-null `afterGid`
does not occur among the entries, while duplicate operations (key already in
the applied set) are ignored without error even in these cases. -/
theorem C5_unknown_gid_fails :
    (∀ (d : CRDTDocument) (g : GlobalId) (ch : Option (List Char))
        (ag : Option GlobalId),
        (⟨.del, g.siteId, g.counter⟩ : OpKey) ∉ d.appliedOps →
        (∀ e ∈ d.entries, e.gid ≠ g) →
        (applyEvents d [⟨"delete", g, ch, ag⟩]).2 = none) ∧
    (∀ (d : CRDTDocument) (g a : GlobalId) (ch : Option (List Char)),
        (⟨.ins, g.siteId, g.counter⟩ : OpKey) ∉ d.appliedOps →
        (∀ e ∈ d.entries, e.gid ≠ a) →
        (applyEvents d [⟨"insert", g, ch, some a⟩]).2 = none) ∧
    (∀ (d : CRDTDocument) (ev : CRDTEvent),
        ev.type = "insert" →
        (⟨.ins, ev.gid.siteId, ev.gid.counter⟩ : OpKey) ∈ d.appliedOps →
        (applyEvents d [ev]).2 = some []) ∧
    (∀ (d : CRDTDocument) (ev : CRDTEvent),
        ev.type = "delete" →
        (⟨.del, ev.gid.siteId, ev.gid.counter⟩ : OpKey) ∈ d.appliedOps →
        (applyEvents d [ev]).2 = some []) := by
  refine ⟨?_, ?_, ?_, ?_⟩
  · intro d g ch ag hdup hg
    have hfg := findGid_not_found
      { d with maxCounter := max d.maxCounter g.counter } g hg
    simp [applyEvents, applyEventsGo, applyEvent, delete, hdup, hfg]
  · intro d g a ch hdup ha
    have hfg := findGid_not_found
      { d with maxCounter := max d.maxCounter g.counter } a ha
    rcases ch with _ | ⟨_ | ⟨c, _ | ⟨c2, l⟩⟩⟩ <;>
      simp [applyEvents, applyEventsGo, applyEvent, insert, hdup, hfg]
  · intro d ev ht hdup
    simp [applyEvents, applyEventsGo, applyEvent, insert, ht, hdup,
      compactPlainUpdates]
  · intro d ev ht hdup
    simp [applyEvents, applyEventsGo, applyEvent, delete, ht, hdup,
      compactPlainUpdates]

/-- Witness for C5 on a replica holding the single character `'a'`:
deleting an unknown id fails, inserting after an unknown id fails, and the
duplicated insert / delete are ignored. -/
theorem C5_witness :
    ((⟨.del, 9, 9⟩ : OpKey) ∉
        ((CRDTDocument.new.insert (some ['a']) ⟨1, 1⟩ none).1).appliedOps ∧
      (((CRDTDocument.new.insert (some ['a']) ⟨1, 1⟩ none).1).applyEvents
          [⟨"delete", ⟨9, 9⟩, none, none⟩]).2 = none) ∧
    ((((CRDTDocument.new.insert (some ['a']) ⟨1, 1⟩ none).1).applyEvents
          [⟨"insert", ⟨2, 2⟩, some ['b'], some ⟨9, 9⟩⟩]).2 = none) ∧
    ((((CRDTDocument.new.insert (some ['a']) ⟨1, 1⟩ none).1).applyEvents
          [⟨"insert", ⟨1, 1⟩, some ['a'], none⟩]).2 = some []) ∧
    ((((CRDTDocument.new.insert (some ['a']) ⟨1, 1⟩ none).1).delete
          ⟨1, 1⟩).1.applyEvents [⟨"delete", ⟨1, 1⟩, none, none⟩]).2 = some [] :=
  ⟨⟨by decide,
      C5_unknown_gid_fails.1 _ _ _ _ (by decide) (by decide)⟩,
    C5_unknown_gid_fails.2.1 _ _ _ _ (by decide) (by decide),
    C5_unknown_gid_fails.2.2.1 _ _ (by decide) (by decide),
    C5_unknown_gid_fails.2.2.2 _ _ (by decide) (by decide)⟩

/-! ## Claim C10: replica-emitted plain updates are well formed -/

/-- C10: every plain update emitted by `insert`, `delete` or `applyEvents`
satisfies `from ≤ to`, so the `PlainUpdate` constructor's "Invalid range"
branch is unreachable for replica-emitted updates (inserts emit
`(n, n, char)`, deletes emit `(n, n + 1, "")`, and merging adjacent updates
preserves `from ≤ to`). -/
theorem C10_emitted_updates_valid :
    (∀ (d : CRDTDocument) (ch : Option (List Char)) (g : GlobalId)
        (a : Option GlobalId),
        ∀ u ∈ (((insert d ch g a).2).getD []), u.rangeValid) ∧
    (∀ (d : CRDTDocument) (g : GlobalId),
        ∀ u ∈ (((delete d g).2).getD []), u.rangeValid) ∧
    (∀ (d : CRDTDocument) (evs : List CRDTEvent),
        ∀ u ∈ (((applyEvents d evs).2).getD []), u.rangeValid) := by
  refine ⟨?_, ?_, ?_⟩
  · intro d ch g a u hu
    rcases h : (insert d ch g a).2 with _ | us
    · rw [h] at hu
      cases hu
    · rw [h] at hu
      rcases insert_snd_shape d ch g a us h with rfl | ⟨n, c, rfl⟩
      · cases hu
      · simp at hu
        subst hu
        exact Nat.le_refl _
  · intro d g u hu
    rcases h : (delete d g).2 with _ | us
    · rw [h] at hu
      cases hu
    · rw [h] at hu
      rcases delete_snd_shape d g us h with rfl | ⟨n, rfl⟩
      · cases hu
      · simp at hu
        subst hu
        exact Nat.le_succ _
  · intro d evs u hu
    rw [applyEvents] at hu
    rcases h : applyEventsGo d evs with ⟨d1, _ | ups⟩ <;> simp only [h] at hu
    · simp at hu
    · refine compactPlainUpdates_valid ups ?_ u (by simpa using hu)
      intro x hx
      have := applyEventsGo_updates_valid evs d x
      rw [h] at this
      exact this hx

/-- Witness for C10: the updates emitted by a concrete insert, delete and
two-event batch all have `from ≤ to`. -/
theorem C10_witness :
    (∀ u ∈ (((CRDTDocument.new.insert (some ['a']) ⟨1, 1⟩ none).2).getD []),
      u.rangeValid) ∧
    (∀ u ∈ ((((CRDTDocument.new.insert (some ['a']) ⟨1, 1⟩ none).1).delete
        ⟨1, 1⟩).2.getD []), u.rangeValid) ∧
    (∀ u ∈ ((CRDTDocument.new.applyEvents
        [⟨"insert", ⟨1, 1⟩, some ['a'], none⟩,
         ⟨"insert", ⟨2, 1⟩, some ['b'], some ⟨1, 1⟩⟩]).2.getD []),
      u.rangeValid) :=
  ⟨C10_emitted_updates_valid.1 _ _ _ _,
    C10_emitted_updates_valid.2.1 _ _,
    C10_emitted_updates_valid.2.2 _ _⟩

/-! ## Claim C8: `maxCounter` dominance -/

/-- C8: after every call to `insert` or `delete` — duplicates and throwing
calls included — `maxCounter` is at least the counter passed in and never
decreases; consequently, on a replica whose seen ids are bounded by
`maxCounter` (as in every reachable state), every id that `applyPlainUpdate`
allocates has a counter strictly greater than the counter of every
previously seen id. -/
theorem C8_maxCounter_dominance :
    (∀ (d : CRDTDocument) (ch : Option (List Char)) (g : GlobalId)
        (a : Option GlobalId),
        d.maxCounter ≤ ((insert d ch g a).1).maxCounter ∧
        g.counter ≤ ((insert d ch g a).1).maxCounter) ∧
    (∀ (d : CRDTDocument) (g : GlobalId),
        d.maxCounter ≤ ((delete d g).1).maxCounter ∧
        g.counter ≤ ((delete d g).1).maxCounter) ∧
    (∀ (d : CRDTDocument) (f t : Nat) (v : List Char) (s : Nat),
        (∀ g' ∈ seenGids d, g'.counter ≤ d.maxCounter) →
        ∀ e ∈ (((applyPlainUpdate d f t v s).2).getD []),
          e.type = "insert" →
          ∀ g' ∈ seenGids d, g'.counter < e.gid.counter) := by
  refine ⟨?_, ?_, ?_⟩
  · intro d ch g a
    rw [insert_fst_maxCounter]
    omega
  · intro d g
    rw [delete_fst_maxCounter]
    omega
  · intro d f t v s hseen e he htype g' hg'
    rw [applyPlainUpdate] at he
    rcases hpos : getPosition d f with ⟨d0, _ | position⟩ <;>
      simp only [hpos] at he
    · simp at he
    · have hd0 : d0.maxCounter = d.maxCounter := by
        have := getPosition_fst_maxCounter d f
        rw [hpos] at this
        exact this
      rcases hdl : delLoop d0 position (t - f) [] (d0.entries.length - position)
        with ⟨d1, rem, _ | acc⟩ <;> simp only [hdl] at he
      · simp at he
      · split at he
        · simp at he
        · have hmono : d0.maxCounter ≤ d1.maxCounter := by
            have := delLoop_fst_maxCounter_mono (d0.entries.length - position)
              d0 position (t - f) []
            rw [hdl] at this
            exact this
          have hins := insLoop_events v d1 ((position : Int) - 1) s acc e he
          rcases hins with hacc | ⟨_, hlt⟩
          · have := delLoop_events (d0.entries.length - position) d0 position
              (t - f) [] e
            rw [hdl] at this
            rcases this hacc with h | h
            · cases h
            · rw [htype] at h
              exact absurd h (by decide)
          · have := hseen g' hg'
            omega

/-- Witness for C8: concrete monotonicity instances, and the id allocated by
an `applyPlainUpdate` on a replica holding `'a'` dominates both seen ids. -/
theorem C8_witness :
    (CRDTDocument.new.maxCounter ≤
        ((CRDTDocument.new.insert (some ['a']) ⟨5, 1⟩ none).1).maxCounter ∧
      (5 : Nat) ≤ ((CRDTDocument.new.insert (some ['a']) ⟨5, 1⟩ none).1).maxCounter) ∧
    (∀ g' ∈ seenGids (CRDTDocument.new.insert (some ['a']) ⟨5, 1⟩ none).1,
        g'.counter ≤ ((CRDTDocument.new.insert (some ['a']) ⟨5, 1⟩ none).1).maxCounter) ∧
    (∀ e ∈ ((((CRDTDocument.new.insert (some ['a']) ⟨5, 1⟩ none).1).applyPlainUpdate
        1 1 ['b'] 2).2.getD []),
      e.type = "insert" →
      ∀ g' ∈ seenGids (CRDTDocument.new.insert (some ['a']) ⟨5, 1⟩ none).1,
        g'.counter < e.gid.counter) :=
  ⟨C8_maxCounter_dominance.1 CRDTDocument.new (some ['a']) ⟨5, 1⟩ none,
    by decide,
    C8_maxCounter_dominance.2.2 _ 1 1 ['b'] 2 (by decide)⟩


/-! ## Counterexamples to the claims C1 and C6 as literally stated -/

/-- Counterexample to C1 as stated.  First: the two orderings of the
two-element operation set `{Insert{(1,1),'a',null}, Insert{(1,1),'b',null}}`
(two distinct Inserts sharing one GlobalId) both apply without error on a
fresh replica but yield texts `"a"` and `"b"` — the duplicate-key check keeps
whichever arrives first.  Second: for the set
`{Insert{(1,1),'a',null}, Delete{(2,2)}}` (distinct ids) the two orderings
both throw, and the replicas are left with texts `"a"` and `""`. -/
theorem C1_convergence_counterexample :
    (List.Perm
        [(⟨"insert", ⟨1, 1⟩, some ['a'], none⟩ : CRDTEvent),
          ⟨"insert", ⟨1, 1⟩, some ['b'], none⟩]
        [⟨"insert", ⟨1, 1⟩, some ['b'], none⟩,
          ⟨"insert", ⟨1, 1⟩, some ['a'], none⟩] ∧
      ((CRDTDocument.new.applyEvents
          [⟨"insert", ⟨1, 1⟩, some ['a'], none⟩,
            ⟨"insert", ⟨1, 1⟩, some ['b'], none⟩]).2).isSome = true ∧
      ((CRDTDocument.new.applyEvents
          [⟨"insert", ⟨1, 1⟩, some ['b'], none⟩,
            ⟨"insert", ⟨1, 1⟩, some ['a'], none⟩]).2).isSome = true ∧
      (CRDTDocument.new.applyEvents
          [⟨"insert", ⟨1, 1⟩, some ['a'], none⟩,
            ⟨"insert", ⟨1, 1⟩, some ['b'], none⟩]).1.getText ≠
        (CRDTDocument.new.applyEvents
          [⟨"insert", ⟨1, 1⟩, some ['b'], none⟩,
            ⟨"insert", ⟨1, 1⟩, some ['a'], none⟩]).1.getText) ∧
    (List.Perm
        [(⟨"insert", ⟨1, 1⟩, some ['a'], none⟩ : CRDTEvent),
          ⟨"delete", ⟨2, 2⟩, none, none⟩]
        [⟨"delete", ⟨2, 2⟩, none, none⟩,
          ⟨"insert", ⟨1, 1⟩, some ['a'], none⟩] ∧
      (CRDTDocument.new.applyEvents
          [⟨"insert", ⟨1, 1⟩, some ['a'], none⟩,
            ⟨"delete", ⟨2, 2⟩, none, none⟩]).1.getText ≠
        (CRDTDocument.new.applyEvents
          [⟨"delete", ⟨2, 2⟩, none, none⟩,
            ⟨"insert", ⟨1, 1⟩, some ['a'], none⟩]).1.getText) := by
  decide

/-- Counterexample to C6 as stated: on a replica with visible text `"abc"`,
the local edit `applyPlainUpdate(3, 1, "", 0)` has `from > to` yet does NOT
fail — `removedChars` is negative, both guarded loops are skipped, and the
call returns an empty batch. -/
theorem C6_invalid_range_counterexample :
    3 > 1 ∧
    (((CRDTDocument.new.applyPlainUpdate 0 0 ['a', 'b', 'c'] 0).1).getText
        = ['a', 'b', 'c']) ∧
    ((((CRDTDocument.new.applyPlainUpdate 0 0 ['a', 'b', 'c'] 0).1).applyPlainUpdate
        3 1 [] 0).2 = some []) := by
  decide


end CRDTDocument

/-! ## Claim C7: update compaction -/

/-- The editor-side meaning of a plain update `(from, to, value)`: replace
the slice `[from, to)` of the text by `value` (spec §3: "a positional text
change (from, to, value) consumed by the editor view"). -/
def applyUpd (s : List Char) (u : PlainUpdate) : List Char :=
  s.take u.fromPos ++ u.value ++ s.drop u.toPos

/-- Apply a list of plain updates in order. -/
def applyUpds (s : List Char) (us : List PlainUpdate) : List Char :=
  us.foldl applyUpd s

/-- Head-recursive reformulation of `compactPlainUpdates`, convenient for
induction; `foldl_compactStep_eq_compactAux` proves it equal to the source's
fold. -/
def compactAux : List PlainUpdate → List PlainUpdate
  | [] => []
  | [u] => [u]
  | u :: v :: rest =>
    if u.newTo = v.fromPos then compactAux (mergeUpd u v :: rest)
    else u :: compactAux (v :: rest)
termination_by us => us.length

theorem compactStep_append (A B : List PlainUpdate) (hB : B ≠ [])
    (v : PlainUpdate) : compactStep (A ++ B) v = A ++ compactStep B v := by
  rw [compactStep, compactStep, List.getLast?_append_of_ne_nil A hB]
  rcases hl : B.getLast? with _ | lastItem <;> simp only [hl]
  · exact absurd (List.getLast?_eq_none_iff.mp hl) hB
  · split
    · rw [List.dropLast_append_of_ne_nil A hB, List.append_assoc]
    · rw [List.append_assoc]

theorem foldl_compactStep_nonempty (rest : List PlainUpdate) :
    ∀ B : List PlainUpdate, B ≠ [] → rest.foldl compactStep B ≠ [] := by
  induction rest with
  | nil => intro B hB; exact hB
  | cons v vs ih =>
    intro B hB
    rw [List.foldl_cons]
    refine ih _ ?_
    rw [compactStep]
    rcases hl : B.getLast? with _ | lastItem <;> simp only [hl]
    · simp
    · split <;> simp

theorem foldl_compactStep_append (rest : List PlainUpdate) :
    ∀ A B : List PlainUpdate, B ≠ [] →
      rest.foldl compactStep (A ++ B) = A ++ rest.foldl compactStep B := by
  induction rest with
  | nil => intro A B hB; rfl
  | cons v vs ih =>
    intro A B hB
    rw [List.foldl_cons, List.foldl_cons, compactStep_append A B hB v]
    refine ih A _ ?_
    rw [compactStep]
    rcases hl : B.getLast? with _ | lastItem <;> simp only [hl]
    · simp
    · split <;> simp

theorem foldl_compactStep_eq_compactAux (us : List PlainUpdate) :
    ∀ u : PlainUpdate, us.foldl compactStep [u] = compactAux (u :: us) := by
  induction us with
  | nil => intro u; rw [compactAux]; rfl
  | cons v vs ih =>
    intro u
    rw [List.foldl_cons, compactStep]
    simp only [List.getLast?_singleton]
    rw [compactAux]
    split
    · simp only [List.dropLast_single, List.nil_append]
      exact ih (mergeUpd u v)
    · show (vs.foldl compactStep ([u] ++ [v])) = u :: compactAux (v :: vs)
      rw [foldl_compactStep_append vs [u] [v] (by simp), ih v]
      rfl

theorem compactPlainUpdates_eq_compactAux (us : List PlainUpdate) :
    compactPlainUpdates us = compactAux us := by
  rcases us with _ | ⟨u, rest⟩
  · rw [compactAux]; rfl
  · rw [compactPlainUpdates, List.foldl_cons]
    show rest.foldl compactStep [u] = _
    exact foldl_compactStep_eq_compactAux rest u

theorem applyUpd_merge (s : List Char) (u v : PlainUpdate)
    (hu : u.rangeValid) (hv : v.rangeValid) (hadj : v.fromPos = u.newTo) :
    applyUpd (applyUpd s u) v = applyUpd s (mergeUpd u v) := by
  rcases u with ⟨f1, t1, v1⟩
  rcases v with ⟨f2, t2, v2⟩
  unfold PlainUpdate.rangeValid at hu hv
  unfold PlainUpdate.newTo at hadj
  dsimp only at hu hv hadj
  subst hadj
  unfold applyUpd mergeUpd
  dsimp only
  rw [List.take_append_eq_append_take, List.take_append_eq_append_take,
    List.drop_append_eq_append_drop, List.drop_append_eq_append_drop,
    List.take_take, List.drop_drop]
  have hlt : (List.take f1 s).length = min f1 s.length := List.length_take _ _
  have hlab : (List.take f1 s ++ v1).length = min f1 s.length + v1.length := by
    rw [List.length_append, hlt]
  have h1 : (f1 + v1.length) ⊓ f1 = f1 := by omega
  have h2 : f1 + v1.length - (List.take f1 s).length = v1.length + (f1 - min f1 s.length) := by
    rw [hlt]; omega
  rw [h1, h2]
  have p1 : List.take (v1.length + (f1 - f1 ⊓ s.length)) v1 = v1 :=
    List.take_of_length_le (by omega)
  have p3 : List.drop t2 (List.take f1 s) = [] :=
    List.drop_eq_nil_of_le (by rw [hlt]; omega)
  have p4 : List.drop (t2 - (List.take f1 s).length) v1 = [] :=
    List.drop_eq_nil_of_le (by rw [hlt]; omega)
  rw [p1, p3, p4]
  by_cases hsf : f1 ≤ s.length
  · have p2 : f1 + v1.length - (List.take f1 s ++ v1).length = 0 := by
      rw [hlab]; omega
    have p5 : t1 + (t2 - (List.take f1 s ++ v1).length) =
        f1 + t1 - f1 + t2 - (f1 + v1.length) := by
      rw [hlab]; omega
    rw [p2, p5, List.take_zero]
    simp
  · have hd : List.drop t1 s = [] := List.drop_eq_nil_of_le (by omega)
    have p5a : List.drop (t1 + (t2 - (List.take f1 s ++ v1).length)) s = [] :=
      List.drop_eq_nil_of_le (by omega)
    have p5b : List.drop (f1 + t1 - f1 + t2 - (f1 + v1.length)) s = [] :=
      List.drop_eq_nil_of_le (by omega)
    rw [hd, p5a, p5b, List.take_nil]
    simp

theorem compactAux_valid (us : List PlainUpdate) :
    (∀ u ∈ us, u.rangeValid) → ∀ u ∈ compactAux us, u.rangeValid := by
  induction us using compactAux.induct with
  | case1 => intro _ u hu; rw [compactAux] at hu; cases hu
  | case2 u => intro h x hx; rw [compactAux] at hx; exact h x hx
  | case3 u v rest hm ih =>
    intro h x hx
    rw [compactAux, if_pos hm] at hx
    refine ih ?_ x hx
    intro y hy
    rcases List.mem_cons.mp hy with hy | hy
    · subst hy
      exact CRDTDocument.mergeUpd_valid (h u (by simp)) (h v (by simp))
    · exact h y (by simp [hy])
  | case4 u v rest hm ih =>
    intro h x hx
    rw [compactAux, if_neg hm] at hx
    rcases List.mem_cons.mp hx with hx | hx
    · subst hx
      exact h x (by simp)
    · exact ih (fun y hy => h y (by simp [List.mem_cons] at hy ⊢; tauto)) x hx

theorem applyUpds_compactAux (us : List PlainUpdate) :
    (∀ u ∈ us, u.rangeValid) →
      ∀ s : List Char, applyUpds s (compactAux us) = applyUpds s us := by
  induction us using compactAux.induct with
  | case1 => intro _ s; rw [compactAux]
  | case2 u => intro _ s; rw [compactAux]
  | case3 u v rest hm ih =>
    intro h s
    rw [compactAux, if_pos hm]
    rw [ih (by
      intro y hy
      rcases List.mem_cons.mp hy with hy | hy
      · subst hy
        exact CRDTDocument.mergeUpd_valid (h u (by simp)) (h v (by simp))
      · exact h y (by simp [hy])) s]
    show applyUpds (applyUpd s (mergeUpd u v)) rest =
      applyUpds (applyUpd (applyUpd s u) v) rest
    rw [applyUpd_merge s u v (h u (by simp)) (h v (by simp)) hm.symm]
  | case4 u v rest hm ih =>
    intro h s
    rw [compactAux, if_neg hm]
    show applyUpds (applyUpd s u) (compactAux (v :: rest)) =
      applyUpds (applyUpd s u) (v :: rest)
    exact ih (fun y hy => h y (by simp [List.mem_cons] at hy ⊢; tauto))
      (applyUpd s u)

theorem compactAux_head_fromPos (us : List PlainUpdate) :
    ∀ w ∈ (compactAux us).head?, ∀ u ∈ us.head?, w.fromPos = u.fromPos := by
  induction us using compactAux.induct with
  | case1 => intro w hw; rw [compactAux] at hw; cases hw
  | case2 u =>
    intro w hw x hx
    rw [compactAux] at hw
    simp at hw hx
    subst hw; subst hx; rfl
  | case3 u v rest hm ih =>
    intro w hw x hx
    rw [compactAux, if_pos hm] at hw
    simp at hx
    have := ih w hw (mergeUpd u v) (by simp)
    rw [← hx, this]
    rfl
  | case4 u v rest hm ih =>
    intro w hw x hx
    rw [compactAux, if_neg hm] at hw
    simp at hw hx
    subst hw; subst hx; rfl

theorem compactAux_chain (us : List PlainUpdate) :
    List.Chain' (fun a b => a.newTo ≠ b.fromPos) (compactAux us) := by
  induction us using compactAux.induct with
  | case1 => rw [compactAux]; exact List.chain'_nil
  | case2 u => rw [compactAux]; exact List.chain'_singleton _
  | case3 u v rest hm ih => rw [compactAux, if_pos hm]; exact ih
  | case4 u v rest hm ih =>
    rw [compactAux, if_neg hm]
    rw [List.chain'_cons']
    refine ⟨?_, ih⟩
    intro y hy
    have := compactAux_head_fromPos (v :: rest) y hy v (by simp)
    rw [this]
    exact hm

/-- C7: the updates returned by `applyEvents` are
`compactPlainUpdates` of the raw per-operation updates; compaction merges
every pair of consecutive textually adjacent updates (no adjacent pair
remains in its output), and applying the compacted list to any text gives
the same text as applying the uncompacted list. -/
theorem C7_update_compaction :
    (∀ (d : CRDTDocument) (evs : List CRDTEvent),
        ((d.applyEvents evs).2) =
          ((d.applyEventsGo evs).2).map compactPlainUpdates) ∧
    (∀ us : List PlainUpdate, (∀ u ∈ us, u.rangeValid) →
        (∀ s : List Char,
          applyUpds s (compactPlainUpdates us) = applyUpds s us) ∧
        List.Chain' (fun a b => a.newTo ≠ b.fromPos)
          (compactPlainUpdates us)) := by
  constructor
  · intro d evs
    rw [CRDTDocument.applyEvents]
    rcases h : d.applyEventsGo evs with ⟨d1, _ | ups⟩ <;> simp [h]
  · intro us hvalid
    rw [compactPlainUpdates_eq_compactAux]
    exact ⟨applyUpds_compactAux us hvalid, compactAux_chain us⟩

/-- Witness for C7: compacting the adjacent raw updates
`(0,0,"ab")`, `(2,2,"cd")` merges them into one update whose application to
`"xy"` agrees with applying the originals in order. -/
theorem C7_witness :
    (∀ u ∈ [(⟨0, 0, ['a', 'b']⟩ : PlainUpdate), ⟨2, 2, ['c', 'd']⟩],
        u.rangeValid) ∧
    applyUpds ['x', 'y']
        (compactPlainUpdates [⟨0, 0, ['a', 'b']⟩, ⟨2, 2, ['c', 'd']⟩]) =
      applyUpds ['x', 'y'] [⟨0, 0, ['a', 'b']⟩, ⟨2, 2, ['c', 'd']⟩] ∧
    List.Chain' (fun a b => a.newTo ≠ b.fromPos)
      (compactPlainUpdates [⟨0, 0, ['a', 'b']⟩, ⟨2, 2, ['c', 'd']⟩]) :=
  ⟨by decide,
    (C7_update_compaction.2 _ (by decide)).1 ['x', 'y'],
    (C7_update_compaction.2 _ (by decide)).2⟩

/-! ## Abstract entries-level semantics

The caches and scan hints of `CRDTDocument` never influence which entries a
replica holds (only which plain updates it emits), so convergence is proved
against a projection of the state to its entry list.  `simApplyEvent` below
proves that on well-formed states the concrete `applyEvent` refines this
abstract semantics. -/

/-- The ids of an entry list, in order. -/
def gids (l : List CharEntry) : List GlobalId := l.map (·.gid)

/-- Abstract insertion when the insertion point has been reached: skip the
(consecutive) entries with greater ids, place the new entry before the first
entry with a smaller id. -/
def insBody (e : CharEntry) : List CharEntry → List CharEntry
  | [] => [e]
  | x :: xs =>
    if GlobalId.lt e.gid x.gid then x :: insBody e xs else e :: x :: xs

/-- Abstract insertion after the entry with id `a`; `none` when `a` is
absent. -/
def insAfter (a : GlobalId) (e : CharEntry) :
    List CharEntry → Option (List CharEntry)
  | [] => none
  | x :: xs =>
    if x.gid = a then some (x :: insBody e xs)
    else (insAfter a e xs).map (x :: ·)

/-- Abstract deletion: tombstone every entry with the given id. -/
def markDel (g : GlobalId) (l : List CharEntry) : List CharEntry :=
  l.map (fun x => if x.gid = g then { x with visible := false } else x)

/-- The abstract effect of one `CRDTEvent` on the entry list: duplicate
inserts (id already present) are ignored, deletes of present ids are
idempotent tombstones, unknown references fail. -/
def applyEventE (l : List CharEntry) (ev : CRDTEvent) :
    Option (List CharEntry) :=
  if ev.type = "insert" then
    if ev.gid ∈ gids l then some l
    else
      match ev.char with
      | some [c] =>
        match ev.afterGid with
        | none => some (insBody ⟨c, ev.gid, true⟩ l)
        | some a => insAfter a ⟨c, ev.gid, true⟩ l
      | _ => none
  else if ev.type = "delete" then
    if ev.gid ∈ gids l then some (markDel ev.gid l) else none
  else
    none

/-- Run a batch of events on the abstract state. -/
def runE (l : List CharEntry) : List CRDTEvent → Option (List CharEntry)
  | [] => some l
  | ev :: rest =>
    match applyEventE l ev with
    | some l1 => runE l1 rest
    | none => none

theorem mem_insBody (e x : CharEntry) (l : List CharEntry) :
    x ∈ insBody e l ↔ x = e ∨ x ∈ l := by
  induction l with
  | nil => simp [insBody]
  | cons y ys ih =>
    rw [insBody]
    split
    · simp only [List.mem_cons, ih]
      tauto
    · simp only [List.mem_cons]
      try tauto

theorem gids_mem_insBody (g : GlobalId) (e : CharEntry) (l : List CharEntry) :
    g ∈ gids (insBody e l) ↔ g = e.gid ∨ g ∈ gids l := by
  unfold gids
  simp only [List.mem_map]
  constructor
  · rintro ⟨x, hx, rfl⟩
    rcases (mem_insBody e x l).mp hx with rfl | hx
    · exact Or.inl rfl
    · exact Or.inr ⟨x, hx, rfl⟩
  · rintro (rfl | ⟨x, hx, rfl⟩)
    · exact ⟨e, (mem_insBody e e l).mpr (Or.inl rfl), rfl⟩
    · exact ⟨x, (mem_insBody e x l).mpr (Or.inr hx), rfl⟩

@[simp] theorem gids_nil : gids [] = [] := rfl

@[simp] theorem gids_cons (x : CharEntry) (xs : List CharEntry) :
    gids (x :: xs) = x.gid :: gids xs := rfl

theorem insAfter_none_iff (a : GlobalId) (e : CharEntry) (l : List CharEntry) :
    insAfter a e l = none ↔ a ∉ gids l := by
  induction l with
  | nil => simp [insAfter]
  | cons x xs ih =>
    rw [insAfter]
    by_cases hxa : x.gid = a
    · rw [if_pos hxa]
      simp [hxa]
    · rw [if_neg hxa]
      rw [Option.map_eq_none', ih]
      simp
      intro h
      exact fun hc => hxa hc.symm

theorem insAfter_mem (a : GlobalId) (e : CharEntry) (l t : List CharEntry)
    (h : insAfter a e l = some t) (x : CharEntry) :
    x ∈ t ↔ x = e ∨ x ∈ l := by
  induction l generalizing t with
  | nil => cases h
  | cons y ys ih =>
    rw [insAfter] at h
    by_cases hya : y.gid = a
    · rw [if_pos hya] at h
      cases h
      simp [mem_insBody]
      tauto
    · rw [if_neg hya] at h
      rcases ht : insAfter a e ys with _ | t' <;> rw [ht] at h
      · cases h
      · cases h
        simp [ih t' ht]
        tauto

theorem gids_mem_insAfter (g a : GlobalId) (e : CharEntry) (l t : List CharEntry)
    (h : insAfter a e l = some t) :
    g ∈ gids t ↔ g = e.gid ∨ g ∈ gids l := by
  unfold gids
  simp only [List.mem_map]
  constructor
  · rintro ⟨x, hx, rfl⟩
    rcases (insAfter_mem a e l t h x).mp hx with rfl | hx
    · exact Or.inl rfl
    · exact Or.inr ⟨x, hx, rfl⟩
  · rintro (rfl | ⟨x, hx, rfl⟩)
    · exact ⟨e, (insAfter_mem a e l t h e).mpr (Or.inl rfl), rfl⟩
    · exact ⟨x, (insAfter_mem a e l t h x).mpr (Or.inr hx), rfl⟩

@[simp] theorem gids_markDel (g : GlobalId) (l : List CharEntry) :
    gids (markDel g l) = gids l := by
  unfold gids markDel
  rw [List.map_map]
  refine List.map_congr_left ?_
  intro x _
  by_cases hx : x.gid = g <;> simp [hx]

theorem GlobalId.lt_trans' {a b c : GlobalId} (h1 : GlobalId.lt a b)
    (h2 : GlobalId.lt b c) : GlobalId.lt a c := by
  unfold GlobalId.lt at *
  omega

theorem GlobalId.lt_of_not_lt_of_ne {a b : GlobalId} (h1 : ¬ GlobalId.lt a b)
    (h2 : a ≠ b) : GlobalId.lt b a := by
  rcases GlobalId.lt_trichotomy a b with h | h | h
  · exact absurd h h1
  · exact absurd h h2
  · exact h

theorem insBody_cons_lt {e x : CharEntry} {xs : List CharEntry}
    (h : GlobalId.lt e.gid x.gid) : insBody e (x :: xs) = x :: insBody e xs := by
  rw [insBody, if_pos h]

theorem insBody_cons_ge {e x : CharEntry} {xs : List CharEntry}
    (h : ¬ GlobalId.lt e.gid x.gid) : insBody e (x :: xs) = e :: x :: xs := by
  rw [insBody, if_neg h]

theorem insBody_comm (e1 e2 : CharEntry) (l : List CharEntry)
    (h12 : e1.gid ≠ e2.gid) (hf1 : e1.gid ∉ gids l) (hf2 : e2.gid ∉ gids l) :
    insBody e2 (insBody e1 l) = insBody e1 (insBody e2 l) := by
  induction l with
  | nil =>
    show insBody e2 [e1] = insBody e1 [e2]
    rcases GlobalId.lt_trichotomy e1.gid e2.gid with h | h | h
    · rw [insBody_cons_ge (GlobalId.lt_asymm h), insBody_cons_lt h]
      rfl
    · exact absurd h h12
    · rw [insBody_cons_lt h, insBody_cons_ge (GlobalId.lt_asymm h)]
      rfl
  | cons x xs ih =>
    simp only [gids_cons, List.mem_cons, not_or] at hf1 hf2
    have ihx := ih hf1.2 hf2.2
    by_cases c1 : GlobalId.lt e1.gid x.gid <;>
      by_cases c2 : GlobalId.lt e2.gid x.gid
    · rw [insBody_cons_lt c1, insBody_cons_lt c2, insBody_cons_lt c2,
        insBody_cons_lt c1, ihx]
    · have hx2 : GlobalId.lt x.gid e2.gid :=
        GlobalId.lt_of_not_lt_of_ne c2 hf2.1
      have h12' : GlobalId.lt e1.gid e2.gid := GlobalId.lt_trans' c1 hx2
      rw [insBody_cons_lt c1, insBody_cons_ge c2, insBody_cons_ge c2,
        insBody_cons_lt h12', insBody_cons_lt c1]
    · have hx1 : GlobalId.lt x.gid e1.gid :=
        GlobalId.lt_of_not_lt_of_ne c1 hf1.1
      have h21 : GlobalId.lt e2.gid e1.gid := GlobalId.lt_trans' c2 hx1
      rw [insBody_cons_ge c1, insBody_cons_lt c2, insBody_cons_lt h21,
        insBody_cons_lt c2, insBody_cons_ge c1]
    · rcases GlobalId.lt_trichotomy e1.gid e2.gid with h | h | h
      · rw [insBody_cons_ge c1, insBody_cons_ge c2,
          insBody_cons_ge (GlobalId.lt_asymm h), insBody_cons_lt h,
          insBody_cons_ge c1]
      · exact absurd h h12
      · rw [insBody_cons_ge c1, insBody_cons_ge c2, insBody_cons_lt h,
          insBody_cons_ge (GlobalId.lt_asymm h), insBody_cons_ge c2]

theorem insAfter_cons_eq {a : GlobalId} {e x : CharEntry} {xs : List CharEntry}
    (h : x.gid = a) : insAfter a e (x :: xs) = some (x :: insBody e xs) := by
  rw [insAfter, if_pos h]

theorem insAfter_cons_ne {a : GlobalId} {e x : CharEntry} {xs : List CharEntry}
    (h : ¬ x.gid = a) :
    insAfter a e (x :: xs) = (insAfter a e xs).map (x :: ·) := by
  rw [insAfter, if_neg h]

theorem insAfter_some_mem (a : GlobalId) (e : CharEntry) (l t : List CharEntry)
    (h : insAfter a e l = some t) : a ∈ gids l := by
  by_contra hmem
  rw [(insAfter_none_iff a e l).mpr hmem] at h
  cases h

theorem insAfter_insBody_comm (a : GlobalId) (e1 e2 : CharEntry) :
    ∀ l t : List CharEntry,
      e1.gid ≠ e2.gid → e1.gid ∉ gids l → e2.gid ∉ gids l →
      insAfter a e1 l = some t →
      insAfter a e1 (insBody e2 l) = some (insBody e2 t) := by
  intro l
  induction l with
  | nil => intro t _ _ _ h; cases h
  | cons x xs ih =>
    intro t h12 hf1 hf2 h
    simp only [gids_cons, List.mem_cons, not_or] at hf1 hf2
    by_cases hxa : x.gid = a
    · rw [insAfter_cons_eq hxa] at h
      cases h
      by_cases c2 : GlobalId.lt e2.gid x.gid
      · rw [insBody_cons_lt c2, insAfter_cons_eq hxa, insBody_cons_lt c2,
          insBody_comm e1 e2 xs h12 hf1.2 hf2.2]
      · rw [insBody_cons_ge c2,
          insAfter_cons_ne (show e2.gid ≠ a from hxa ▸ hf2.1),
          insAfter_cons_eq hxa, insBody_cons_ge c2]
        rfl
    · rw [insAfter_cons_ne hxa] at h
      rcases ht' : insAfter a e1 xs with _ | t' <;> rw [ht'] at h
      · cases h
      · simp only [Option.map_some'] at h
        cases h
        have ha_xs : a ∈ gids xs := insAfter_some_mem a e1 xs t' ht'
        by_cases c2 : GlobalId.lt e2.gid x.gid
        · rw [insBody_cons_lt c2, insAfter_cons_ne hxa,
            ih t' h12 hf1.2 hf2.2 ht', insBody_cons_lt c2]
          rfl
        · rw [insBody_cons_ge c2,
            insAfter_cons_ne (show e2.gid ≠ a from fun hc => hf2.2 (hc ▸ ha_xs)),
            insAfter_cons_ne hxa, ht', insBody_cons_ge c2]
          rfl

theorem insAfter_comm (a1 a2 : GlobalId) (e1 e2 : CharEntry) :
    ∀ l t1 t2 : List CharEntry,
      e1.gid ≠ e2.gid → e1.gid ∉ gids l → e2.gid ∉ gids l →
      insAfter a1 e1 l = some t1 → insAfter a2 e2 l = some t2 →
      ∃ m, insAfter a2 e2 t1 = some m ∧ insAfter a1 e1 t2 = some m := by
  intro l
  induction l with
  | nil => intro t1 t2 _ _ _ h1; cases h1
  | cons x xs ih =>
    intro t1 t2 h12 hf1 hf2 h1 h2
    simp only [gids_cons, List.mem_cons, not_or] at hf1 hf2
    by_cases hx1 : x.gid = a1 <;> by_cases hx2 : x.gid = a2
    · rw [insAfter_cons_eq hx1] at h1
      rw [insAfter_cons_eq hx2] at h2
      cases h1
      cases h2
      refine ⟨x :: insBody e2 (insBody e1 xs),
        by rw [insAfter_cons_eq hx2], ?_⟩
      rw [insAfter_cons_eq hx1, insBody_comm e1 e2 xs h12 hf1.2 hf2.2]
    · rw [insAfter_cons_eq hx1] at h1
      rw [insAfter_cons_ne hx2] at h2
      cases h1
      rcases ht2 : insAfter a2 e2 xs with _ | t2' <;> rw [ht2] at h2
      · cases h2
      · simp only [Option.map_some'] at h2
        cases h2
        refine ⟨x :: insBody e1 t2', ?_, ?_⟩
        · rw [insAfter_cons_ne hx2,
            insAfter_insBody_comm a2 e2 e1 xs t2' (Ne.symm h12) hf2.2 hf1.2 ht2]
          rfl
        · rw [insAfter_cons_eq hx1]
    · rw [insAfter_cons_ne hx1] at h1
      rw [insAfter_cons_eq hx2] at h2
      cases h2
      rcases ht1 : insAfter a1 e1 xs with _ | t1' <;> rw [ht1] at h1
      · cases h1
      · simp only [Option.map_some'] at h1
        cases h1
        refine ⟨x :: insBody e2 t1', ?_, ?_⟩
        · rw [insAfter_cons_eq hx2]
        · rw [insAfter_cons_ne hx1,
            insAfter_insBody_comm a1 e1 e2 xs t1' h12 hf1.2 hf2.2 ht1]
          rfl
    · rw [insAfter_cons_ne hx1] at h1
      rw [insAfter_cons_ne hx2] at h2
      rcases ht1 : insAfter a1 e1 xs with _ | t1' <;> rw [ht1] at h1
      · cases h1
      · rcases ht2 : insAfter a2 e2 xs with _ | t2' <;> rw [ht2] at h2
        · cases h2
        · simp only [Option.map_some'] at h1 h2
          cases h1
          cases h2
          rcases ih t1' t2' h12 hf1.2 hf2.2 ht1 ht2 with ⟨m', hm1, hm2⟩
          refine ⟨x :: m', ?_, ?_⟩
          · rw [insAfter_cons_ne hx2, hm1]
            rfl
          · rw [insAfter_cons_ne hx1, hm2]
            rfl

theorem markDel_gid (g : GlobalId) (x : CharEntry) :
    (if x.gid = g then { x with visible := false } else x).gid = x.gid := by
  split <;> rfl

theorem markDel_cons (g : GlobalId) (x : CharEntry) (xs : List CharEntry) :
    markDel g (x :: xs) =
      (if x.gid = g then { x with visible := false } else x) :: markDel g xs :=
  rfl

theorem markDel_insBody (g : GlobalId) (e : CharEntry) (l : List CharEntry)
    (h : e.gid ≠ g) : markDel g (insBody e l) = insBody e (markDel g l) := by
  induction l with
  | nil =>
    show markDel g [e] = [e]
    rw [markDel_cons, if_neg h]
    rfl
  | cons x xs ih =>
    by_cases c : GlobalId.lt e.gid x.gid
    · rw [insBody_cons_lt c, markDel_cons, markDel_cons, ih]
      rw [insBody_cons_lt (by rw [markDel_gid]; exact c)]
    · rw [insBody_cons_ge c, markDel_cons, markDel_cons, if_neg h]
      rw [insBody_cons_ge (by rw [markDel_gid]; exact c)]

theorem markDel_insAfter (g a : GlobalId) (e : CharEntry) :
    ∀ l t : List CharEntry, e.gid ≠ g → insAfter a e l = some t →
      insAfter a e (markDel g l) = some (markDel g t) := by
  intro l
  induction l with
  | nil => intro t _ h; cases h
  | cons x xs ih =>
    intro t he h
    by_cases hxa : x.gid = a
    · rw [insAfter_cons_eq hxa] at h
      cases h
      rw [markDel_cons, insAfter_cons_eq (by rw [markDel_gid]; exact hxa),
        markDel_cons, markDel_insBody g e xs he]
    · rw [insAfter_cons_ne hxa] at h
      rcases ht : insAfter a e xs with _ | t' <;> rw [ht] at h
      · cases h
      · simp only [Option.map_some'] at h
        cases h
        rw [markDel_cons, insAfter_cons_ne (by rw [markDel_gid]; exact hxa),
          ih t' he ht, markDel_cons]
        rfl

theorem markDel_comm (g1 g2 : GlobalId) (l : List CharEntry) :
    markDel g1 (markDel g2 l) = markDel g2 (markDel g1 l) := by
  induction l with
  | nil => rfl
  | cons x xs ih =>
    rw [markDel_cons, markDel_cons, markDel_cons, markDel_cons, ih]
    congr 1
    by_cases h1 : x.gid = g1 <;> by_cases h2 : x.gid = g2 <;> simp_all

theorem markDel_idem (g : GlobalId) (l : List CharEntry) :
    markDel g (markDel g l) = markDel g l := by
  induction l with
  | nil => rfl
  | cons x xs ih =>
    rw [markDel_cons, markDel_cons, ih]
    congr 1
    by_cases h : x.gid = g <;> simp_all

theorem markDel_eq_self_iff (g : GlobalId) (l : List CharEntry) :
    markDel g l = l ↔ ∀ e ∈ l, e.gid = g → e.visible = false := by
  induction l with
  | nil => simp [markDel]
  | cons x xs ih =>
    rw [markDel_cons]
    constructor
    · intro h
      have hx : (if x.gid = g then { x with visible := false } else x) = x :=
        (List.cons.injEq _ _ _ _ ▸ h).1
      have hxs : markDel g xs = xs := (List.cons.injEq _ _ _ _ ▸ h).2
      intro e he hg
      rcases List.mem_cons.mp he with rfl | he
      · rw [if_pos hg] at hx
        rw [← hx]
      · exact ih.mp hxs e he hg
    · intro h
      have hx : (if x.gid = g then { x with visible := false } else x) = x := by
        by_cases hg : x.gid = g
        · rw [if_pos hg]
          have := h x (List.mem_cons_self _ _) hg
          cases x
          simp_all
        · rw [if_neg hg]
      rw [hx, ih.mpr (fun e he hg => h e (List.mem_cons_of_mem _ he) hg)]

theorem insBody_length (e : CharEntry) (l : List CharEntry) :
    (insBody e l).length = l.length + 1 := by
  induction l with
  | nil => rfl
  | cons x xs ih =>
    rw [insBody]
    split
    · simp [ih]
    · simp

theorem insAfter_length (a : GlobalId) (e : CharEntry) :
    ∀ l t : List CharEntry, insAfter a e l = some t →
      t.length = l.length + 1 := by
  intro l
  induction l with
  | nil => intro t h; cases h
  | cons x xs ih =>
    intro t h
    by_cases hxa : x.gid = a
    · rw [insAfter_cons_eq hxa] at h
      cases h
      simp [insBody_length]
    · rw [insAfter_cons_ne hxa] at h
      rcases ht : insAfter a e xs with _ | t' <;> rw [ht] at h
      · cases h
      · simp only [Option.map_some'] at h
        cases h
        simp [ih t' ht]

theorem applyEventE_ins_dup {l : List CharEntry} {ev : CRDTEvent}
    (ht : ev.type = "insert") (hd : ev.gid ∈ gids l) :
    applyEventE l ev = some l := by
  rw [applyEventE, if_pos ht, if_pos hd]

theorem applyEventE_del_eq {l : List CharEntry} {ev : CRDTEvent}
    (ht : ev.type = "delete") (hd : ev.gid ∈ gids l) :
    applyEventE l ev = some (markDel ev.gid l) := by
  rw [applyEventE, if_neg (by rw [ht]; decide), if_pos ht, if_pos hd]

theorem applyEventE_type {l l' : List CharEntry} {ev : CRDTEvent}
    (h : applyEventE l ev = some l') :
    ev.type = "insert" ∨ ev.type = "delete" := by
  by_cases h1 : ev.type = "insert"
  · exact Or.inl h1
  · by_cases h2 : ev.type = "delete"
    · exact Or.inr h2
    · rw [applyEventE, if_neg h1, if_neg h2] at h
      cases h

theorem applyEventE_ins_inv {l l' : List CharEntry} {ev : CRDTEvent}
    (ht : ev.type = "insert") (h : applyEventE l ev = some l') :
    (ev.gid ∈ gids l ∧ l' = l) ∨
      (ev.gid ∉ gids l ∧ ∃ c, ev.char = some [c] ∧
        ((ev.afterGid = none ∧ l' = insBody ⟨c, ev.gid, true⟩ l) ∨
          (∃ a, ev.afterGid = some a ∧
            insAfter a ⟨c, ev.gid, true⟩ l = some l'))) := by
  rw [applyEventE, if_pos ht] at h
  by_cases hd : ev.gid ∈ gids l
  · rw [if_pos hd] at h
    cases h
    exact Or.inl ⟨hd, rfl⟩
  · rw [if_neg hd] at h
    refine Or.inr ⟨hd, ?_⟩
    rcases hc : ev.char with _ | ⟨_ | ⟨c, _ | ⟨c2, cl⟩⟩⟩ <;> rw [hc] at h <;>
      try cases h
    refine ⟨c, rfl, ?_⟩
    rcases ha : ev.afterGid with _ | a <;> rw [ha] at h
    · cases h
      exact Or.inl ⟨rfl, rfl⟩
    · exact Or.inr ⟨a, rfl, h⟩

theorem applyEventE_del_inv {l l' : List CharEntry} {ev : CRDTEvent}
    (ht : ev.type = "delete") (h : applyEventE l ev = some l') :
    ev.gid ∈ gids l ∧ l' = markDel ev.gid l := by
  rw [applyEventE, if_neg (by rw [ht]; decide), if_pos ht] at h
  by_cases hd : ev.gid ∈ gids l
  · rw [if_pos hd] at h
    cases h
    exact ⟨hd, rfl⟩
  · rw [if_neg hd] at h
    cases h

theorem applyEventE_gids_mono {l l' : List CharEntry} {ev : CRDTEvent}
    (h : applyEventE l ev = some l') : ∀ g ∈ gids l, g ∈ gids l' := by
  intro g hg
  rcases applyEventE_type h with ht | ht
  · rcases applyEventE_ins_inv ht h with ⟨_, rfl⟩ | ⟨_, c, _, hrest⟩
    · exact hg
    · rcases hrest with ⟨_, rfl⟩ | ⟨a, _, hins⟩
      · exact (gids_mem_insBody g _ l).mpr (Or.inr hg)
      · exact (gids_mem_insAfter g a _ l l' hins).mpr (Or.inr hg)
  · rcases applyEventE_del_inv ht h with ⟨_, rfl⟩
    simpa using hg

theorem applyEventE_isSome_transfer {l m : List CharEntry} {ev : CRDTEvent}
    (h : (applyEventE l ev).isSome) (hsub : ∀ g ∈ gids l, g ∈ gids m) :
    (applyEventE m ev).isSome := by
  rcases Option.isSome_iff_exists.mp h with ⟨l', hl'⟩
  rcases applyEventE_type hl' with ht | ht
  · by_cases hd : ev.gid ∈ gids m
    · rw [applyEventE_ins_dup ht hd]
      rfl
    · rcases applyEventE_ins_inv ht hl' with ⟨hdl, _⟩ | ⟨_, c, hc, hrest⟩
      · exact absurd (hsub _ hdl) hd
      · rw [applyEventE, if_pos ht, if_neg hd, hc]
        rcases hrest with ⟨ha, _⟩ | ⟨a, ha, hins⟩
        · rw [ha]
          rfl
        · rw [ha]
          dsimp only
          have : a ∈ gids m := hsub a (insAfter_some_mem a _ l l' hins)
          rcases ho : insAfter a ⟨c, ev.gid, true⟩ m with _ | t
          · exact absurd ((insAfter_none_iff _ _ _).mp ho) (by simpa using this)
          · rfl
  · rcases applyEventE_del_inv ht hl' with ⟨hdl, _⟩
    rw [applyEventE_del_eq ht (hsub _ hdl)]
    rfl

theorem applyEventE_ins_fresh_none {l : List CharEntry} {ev : CRDTEvent}
    {c : Char} (ht : ev.type = "insert") (hd : ev.gid ∉ gids l)
    (hc : ev.char = some [c]) (ha : ev.afterGid = none) :
    applyEventE l ev = some (insBody ⟨c, ev.gid, true⟩ l) := by
  rw [applyEventE, if_pos ht, if_neg hd, hc, ha]

theorem applyEventE_ins_fresh_some {l : List CharEntry} {ev : CRDTEvent}
    {c : Char} {a : GlobalId} (ht : ev.type = "insert") (hd : ev.gid ∉ gids l)
    (hc : ev.char = some [c]) (ha : ev.afterGid = some a) :
    applyEventE l ev = insAfter a ⟨c, ev.gid, true⟩ l := by
  rw [applyEventE, if_pos ht, if_neg hd, hc, ha]

theorem comm_ins_del (l : List CharEntry) (x y : CRDTEvent)
    (tx : x.type = "insert") (ty : y.type = "delete")
    {lx ly : List CharEntry}
    (hx : applyEventE l x = some lx) (hy : applyEventE l y = some ly) :
    ∃ m, applyEventE lx y = some m ∧ applyEventE ly x = some m := by
  obtain ⟨hyg, rfl⟩ := applyEventE_del_inv ty hy
  rcases applyEventE_ins_inv tx hx with ⟨hd, rfl⟩ | ⟨hd, c, hc, hrest⟩
  · exact ⟨markDel y.gid lx, applyEventE_del_eq ty hyg,
      applyEventE_ins_dup tx (by simpa using hd)⟩
  · have hxy : x.gid ≠ y.gid := fun hc' => hd (hc' ▸ hyg)
    have hygx : y.gid ∈ gids lx := applyEventE_gids_mono hx y.gid hyg
    refine ⟨markDel y.gid lx, applyEventE_del_eq ty hygx, ?_⟩
    have hdm : x.gid ∉ gids (markDel y.gid l) := by simpa using hd
    rcases hrest with ⟨ha, rfl⟩ | ⟨a, ha, hins⟩
    · rw [applyEventE_ins_fresh_none tx hdm hc ha,
        ← markDel_insBody y.gid ⟨c, x.gid, true⟩ l hxy]
    · rw [applyEventE_ins_fresh_some tx hdm hc ha]
      exact markDel_insAfter y.gid a ⟨c, x.gid, true⟩ l lx hxy hins

theorem comm_ins_ins_fresh (l : List CharEntry) (x y : CRDTEvent) (c1 c2 : Char)
    (tx : x.type = "insert") (ty : y.type = "insert")
    (hc1 : x.char = some [c1]) (hc2 : y.char = some [c2])
    (hdx : x.gid ∉ gids l) (hdy : y.gid ∉ gids l) (hgid : x.gid ≠ y.gid)
    {lx ly : List CharEntry}
    (hx : applyEventE l x = some lx) (hy : applyEventE l y = some ly) :
    ∃ m, applyEventE lx y = some m ∧ applyEventE ly x = some m := by
  rcases applyEventE_ins_inv tx hx with ⟨hd, _⟩ | ⟨_, c1', hc1', hrest1⟩
  · exact absurd hd hdx
  · rcases applyEventE_ins_inv ty hy with ⟨hd, _⟩ | ⟨_, c2', hc2', hrest2⟩
    · exact absurd hd hdy
    · rw [hc1] at hc1'
      rw [hc2] at hc2'
      cases hc1'
      cases hc2'
      have hdyx : ∀ t, (∀ g, g ∈ gids t ↔ g = x.gid ∨ g ∈ gids l) →
          y.gid ∉ gids t := by
        intro t hmem hyt
        rcases (hmem y.gid).mp hyt with h | h
        · exact hgid h.symm
        · exact hdy h
      rcases hrest1 with ⟨ha1, hlx⟩ | ⟨a1, ha1, hins1⟩ <;>
        rcases hrest2 with ⟨ha2, hly⟩ | ⟨a2, ha2, hins2⟩
      · subst hlx
        subst hly
        have hy' : y.gid ∉ gids (insBody ⟨c1, x.gid, true⟩ l) :=
          hdyx _ (fun g => gids_mem_insBody g _ l)
        have hx' : x.gid ∉ gids (insBody ⟨c2, y.gid, true⟩ l) := by
          intro hmem
          rcases (gids_mem_insBody _ _ l).mp hmem with h | h
          · exact hgid h
          · exact hdx h
        refine ⟨insBody ⟨c2, y.gid, true⟩ (insBody ⟨c1, x.gid, true⟩ l),
          applyEventE_ins_fresh_none ty hy' hc2 ha2, ?_⟩
        rw [applyEventE_ins_fresh_none tx hx' hc1 ha1,
          insBody_comm ⟨c1, x.gid, true⟩ ⟨c2, y.gid, true⟩ l hgid hdx hdy]
      · subst hlx
        have hy' : y.gid ∉ gids (insBody ⟨c1, x.gid, true⟩ l) :=
          hdyx _ (fun g => gids_mem_insBody g _ l)
        have hx' : x.gid ∉ gids ly := by
          intro hmem
          rcases (gids_mem_insAfter _ a2 _ l ly hins2).mp hmem with h | h
          · exact hgid h
          · exact hdx h
        refine ⟨insBody ⟨c1, x.gid, true⟩ ly, ?_, ?_⟩
        · rw [applyEventE_ins_fresh_some ty hy' hc2 ha2]
          exact insAfter_insBody_comm a2 ⟨c2, y.gid, true⟩ ⟨c1, x.gid, true⟩ l
            ly (Ne.symm hgid) hdy hdx hins2
        · rw [applyEventE_ins_fresh_none tx hx' hc1 ha1]
      · subst hly
        have hy' : y.gid ∉ gids lx := by
          intro hmem
          rcases (gids_mem_insAfter _ a1 _ l lx hins1).mp hmem with h | h
          · exact hgid h.symm
          · exact hdy h
        have hx' : x.gid ∉ gids (insBody ⟨c2, y.gid, true⟩ l) := by
          intro hmem
          rcases (gids_mem_insBody _ _ l).mp hmem with h | h
          · exact hgid h
          · exact hdx h
        refine ⟨insBody ⟨c2, y.gid, true⟩ lx, ?_, ?_⟩
        · rw [applyEventE_ins_fresh_none ty hy' hc2 ha2]
        · rw [applyEventE_ins_fresh_some tx hx' hc1 ha1]
          exact insAfter_insBody_comm a1 ⟨c1, x.gid, true⟩ ⟨c2, y.gid, true⟩ l
            lx hgid hdx hdy hins1
      · have hy' : y.gid ∉ gids lx := by
          intro hmem
          rcases (gids_mem_insAfter _ a1 _ l lx hins1).mp hmem with h | h
          · exact hgid h.symm
          · exact hdy h
        have hx' : x.gid ∉ gids ly := by
          intro hmem
          rcases (gids_mem_insAfter _ a2 _ l ly hins2).mp hmem with h | h
          · exact hgid h
          · exact hdx h
        rcases insAfter_comm a1 a2 ⟨c1, x.gid, true⟩ ⟨c2, y.gid, true⟩ l lx ly
          hgid hdx hdy hins1 hins2 with ⟨m, hm1, hm2⟩
        refine ⟨m, ?_, ?_⟩
        · rw [applyEventE_ins_fresh_some ty hy' hc2 ha2]
          exact hm1
        · rw [applyEventE_ins_fresh_some tx hx' hc1 ha1]
          exact hm2

theorem applyEventE_comm (l : List CharEntry) (x y : CRDTEvent)
    (huniq : x.type = "insert" → y.type = "insert" → x.gid = y.gid → x = y)
    {lx ly : List CharEntry}
    (hx : applyEventE l x = some lx) (hy : applyEventE l y = some ly) :
    ∃ m, applyEventE lx y = some m ∧ applyEventE ly x = some m := by
  rcases applyEventE_type hx with tx | tx <;>
    rcases applyEventE_type hy with ty | ty
  · rcases applyEventE_ins_inv tx hx with ⟨hdx, rfl⟩ | ⟨hdx, c1, hc1, hrest1⟩
    · exact ⟨ly, hy, applyEventE_ins_dup tx (applyEventE_gids_mono hy _ hdx)⟩
    · rcases applyEventE_ins_inv ty hy with ⟨hdy, rfl⟩ | ⟨hdy, c2, hc2, hrest2⟩
      · exact ⟨lx, applyEventE_ins_dup ty (applyEventE_gids_mono hx _ hdy), hx⟩
      · by_cases hgid : x.gid = y.gid
        · have hxyeq : x = y := huniq tx ty hgid
          subst hxyeq
          rw [hx] at hy
          cases hy
          have hmem : x.gid ∈ gids lx := by
            rcases hrest1 with ⟨_, rfl⟩ | ⟨a, _, hins⟩
            · exact (gids_mem_insBody _ _ l).mpr (Or.inl rfl)
            · exact (gids_mem_insAfter _ a _ l lx hins).mpr (Or.inl rfl)
          exact ⟨lx, applyEventE_ins_dup tx hmem, applyEventE_ins_dup tx hmem⟩
        · exact comm_ins_ins_fresh l x y c1 c2 tx ty hc1 hc2 hdx hdy hgid hx hy
  · exact comm_ins_del l x y tx ty hx hy
  · rcases comm_ins_del l y x ty tx hy hx with ⟨m, h1, h2⟩
    exact ⟨m, h2, h1⟩
  · obtain ⟨hgx, rfl⟩ := applyEventE_del_inv tx hx
    obtain ⟨hgy, rfl⟩ := applyEventE_del_inv ty hy
    refine ⟨markDel y.gid (markDel x.gid l),
      applyEventE_del_eq ty (by simpa using hgy), ?_⟩
    rw [applyEventE_del_eq tx (by simpa using hgx), markDel_comm]

theorem runE_cons_some {l l1 : List CharEntry} {ev : CRDTEvent}
    (h : applyEventE l ev = some l1) (rest : List CRDTEvent) :
    runE l (ev :: rest) = runE l1 rest := by
  rw [runE, h]

theorem runE_gids_mono (L : List CRDTEvent) :
    ∀ l r : List CharEntry, runE l L = some r → ∀ g ∈ gids l, g ∈ gids r := by
  induction L with
  | nil =>
    intro l r h
    cases h
    exact fun g hg => hg
  | cons ev rest ih =>
    intro l r h g hg
    rw [runE] at h
    rcases hev : applyEventE l ev with _ | l1 <;> rw [hev] at h
    · cases h
    · exact ih l1 r h g (applyEventE_gids_mono hev g hg)

theorem runE_pull (A : List CRDTEvent) :
    ∀ (B : List CRDTEvent) (x : CRDTEvent) (l r : List CharEntry),
      (applyEventE l x).isSome →
      (∀ w ∈ A, x.type = "insert" → w.type = "insert" →
        x.gid = w.gid → x = w) →
      runE l (A ++ x :: B) = some r →
      ∃ lx, applyEventE l x = some lx ∧ runE lx (A ++ B) = some r := by
  induction A with
  | nil =>
    intro B x l r hsome _ hrun
    rcases Option.isSome_iff_exists.mp hsome with ⟨lx, hlx⟩
    rw [List.nil_append, runE, hlx] at hrun
    exact ⟨lx, hlx, by rw [List.nil_append]; exact hrun⟩
  | cons w A' ih =>
    intro B x l r hsome hpair hrun
    rw [List.cons_append, runE] at hrun
    rcases hw : applyEventE l w with _ | lw <;> rw [hw] at hrun
    · cases hrun
    · have hsomew : (applyEventE lw x).isSome :=
        applyEventE_isSome_transfer hsome (applyEventE_gids_mono hw)
      obtain ⟨l2, hl2, hrun2⟩ := ih B x lw r hsomew
        (fun v hv => hpair v (List.mem_cons_of_mem _ hv)) hrun
      rcases Option.isSome_iff_exists.mp hsome with ⟨lx, hlx⟩
      have hpw : w.type = "insert" → x.type = "insert" →
          w.gid = x.gid → w = x := fun h1 h2 h3 =>
        (hpair w (List.mem_cons_self _ _) h2 h1 h3.symm).symm
      rcases applyEventE_comm l w x hpw hw hlx with ⟨m, hm1, hm2⟩
      rw [hm1] at hl2
      cases hl2
      refine ⟨lx, hlx, ?_⟩
      rw [List.cons_append, runE, hm2]
      exact hrun2

theorem runE_perm (n : Nat) :
    ∀ (L1 L2 : List CRDTEvent) (l r1 r2 : List CharEntry),
      L1.length = n → L1.Nodup → L2.Nodup →
      (∀ e, e ∈ L1 ↔ e ∈ L2) →
      (∀ x ∈ L1, ∀ y ∈ L1, x.type = "insert" → y.type = "insert" →
        x.gid = y.gid → x = y) →
      runE l L1 = some r1 → runE l L2 = some r2 → r1 = r2 := by
  induction n with
  | zero =>
    intro L1 L2 l r1 r2 hlen _ _ hmem _ h1 h2
    rcases List.length_eq_zero.mp hlen with rfl
    have : L2 = [] := List.eq_nil_iff_forall_not_mem.mpr
      (fun e he => List.not_mem_nil e ((hmem e).mpr he))
    subst this
    rw [runE] at h1 h2
    cases h1
    cases h2
    rfl
  | succ n ih =>
    intro L1 L2 l r1 r2 hlen hn1 hn2 hmem huniq h1 h2
    rcases L1 with _ | ⟨x, T1⟩
    · cases hlen
    · rw [runE] at h1
      rcases hx : applyEventE l x with _ | lx <;> rw [hx] at h1
      · cases h1
      · have hxL2 : x ∈ L2 := (hmem x).mp (List.mem_cons_self _ _)
        obtain ⟨A, B, rfl⟩ := List.append_of_mem hxL2
        have hnodmid := List.nodup_middle.mp hn2
        have hxAB : x ∉ A ++ B := by
          intro hc
          exact (List.nodup_cons.mp hnodmid).1 hc
        obtain ⟨lx', hlx', hrun2⟩ := runE_pull A B x l r2
          (by rw [hx]; rfl)
          (fun w hw => huniq x (List.mem_cons_self _ _) w
            ((hmem w).mpr (by simp [hw])))
          h2
        rw [hx] at hlx'
        cases hlx'
        have hxT1 : x ∉ T1 := (List.nodup_cons.mp hn1).1
        refine ih T1 (A ++ B) lx r1 r2 (by simpa using hlen)
          (hn1.of_cons) ((List.nodup_cons.mp hnodmid).2) ?_
          (fun u hu v hv => huniq u (List.mem_cons_of_mem _ hu) v
            (List.mem_cons_of_mem _ hv))
          h1 hrun2
        intro e
        constructor
        · intro he
          have := (hmem e).mp (List.mem_cons_of_mem _ he)
          rcases List.mem_append.mp this with h | h
          · exact List.mem_append.mpr (Or.inl h)
          · rcases List.mem_cons.mp h with rfl | h
            · exact absurd he hxT1
            · exact List.mem_append.mpr (Or.inr h)
        · intro he
          have : e ∈ A ++ x :: B := by
            rcases List.mem_append.mp he with h | h
            · exact List.mem_append.mpr (Or.inl h)
            · exact List.mem_append.mpr (Or.inr (List.mem_cons_of_mem _ h))
          rcases List.mem_cons.mp ((hmem e).mpr this) with rfl | h
          · exact absurd he hxAB
          · exact h

/-- An event whose re-application is a no-op: an insert whose id is present,
or a delete all of whose targets are already tombstoned. -/
def Applied (ev : CRDTEvent) (l : List CharEntry) : Prop :=
  applyEventE l ev = some l

theorem applied_of_apply {l l' : List CharEntry} {ev : CRDTEvent}
    (h : applyEventE l ev = some l') : Applied ev l' := by
  rcases applyEventE_type h with ht | ht
  · rcases applyEventE_ins_inv ht h with ⟨hd, rfl⟩ | ⟨hd, c, hc, hrest⟩
    · exact applyEventE_ins_dup ht hd
    · have hmem : ev.gid ∈ gids l' := by
        rcases hrest with ⟨_, rfl⟩ | ⟨a, _, hins⟩
        · exact (gids_mem_insBody _ _ l).mpr (Or.inl rfl)
        · exact (gids_mem_insAfter _ a _ l l' hins).mpr (Or.inl rfl)
      exact applyEventE_ins_dup ht hmem
  · obtain ⟨hd, rfl⟩ := applyEventE_del_inv ht h
    rw [Applied, applyEventE_del_eq ht (by simpa using hd), markDel_idem]

theorem applied_ins_mem {l : List CharEntry} {ev : CRDTEvent}
    (ht : ev.type = "insert") (h : Applied ev l) : ev.gid ∈ gids l := by
  rcases applyEventE_ins_inv ht h with ⟨hd, _⟩ | ⟨hd, c, hc, hrest⟩
  · exact hd
  · exfalso
    rcases hrest with ⟨_, hl⟩ | ⟨a, _, hins⟩
    · have := congrArg List.length hl
      rw [insBody_length] at this
      omega
    · have := insAfter_length a _ l l hins
      omega

theorem applied_del_inv {l : List CharEntry} {ev : CRDTEvent}
    (ht : ev.type = "delete") (h : Applied ev l) :
    ev.gid ∈ gids l ∧ markDel ev.gid l = l := by
  obtain ⟨hd, hl⟩ := applyEventE_del_inv ht h
  exact ⟨hd, hl.symm⟩

theorem applied_persist {l l' : List CharEntry} {x y : CRDTEvent}
    (ha : Applied x l) (h : applyEventE l y = some l') : Applied x l' := by
  rcases applyEventE_type ha with tx | tx
  · exact applyEventE_ins_dup tx
      (applyEventE_gids_mono h _ (applied_ins_mem tx ha))
  · obtain ⟨hmem, hfix⟩ := applied_del_inv tx ha
    have hmem' : x.gid ∈ gids l' := applyEventE_gids_mono h _ hmem
    rw [Applied, applyEventE_del_eq tx hmem']
    congr 1
    rcases applyEventE_type h with ty | ty
    · rcases applyEventE_ins_inv ty h with ⟨hd, rfl⟩ | ⟨hd, c, hc, hrest⟩
      · exact hfix
      · have hne : (⟨c, y.gid, true⟩ : CharEntry).gid ≠ x.gid := by
          intro hc'
          have : y.gid = x.gid := hc'
          exact hd (this ▸ hmem)
        rcases hrest with ⟨_, rfl⟩ | ⟨a, _, hins⟩
        · rw [markDel_insBody _ _ _ hne, hfix]
        · have := markDel_insAfter x.gid a ⟨c, y.gid, true⟩ l l' hne hins
          rw [hfix, hins] at this
          exact (Option.some.injEq _ _ ▸ this).symm
    · obtain ⟨hd, rfl⟩ := applyEventE_del_inv ty h
      rw [markDel_comm, hfix]

theorem runE_skip (x : CRDTEvent) (xs : List CRDTEvent) :
    ∀ l : List CharEntry, Applied x l →
      runE l xs = runE l (xs.filter (fun y => decide (y ≠ x))) := by
  induction xs with
  | nil => intro l _; rfl
  | cons y ys ih =>
    intro l ha
    by_cases hyx : y = x
    · subst hyx
      rw [List.filter_cons_of_neg (by simp), runE, ha]
      exact ih l ha
    · rw [List.filter_cons_of_pos (by simp [hyx]), runE, runE]
      rcases hy : applyEventE l y with _ | l1 <;> simp only [hy]
      exact ih l1 (applied_persist ha hy)

/-- Keep only the first occurrence of every event. -/
def firstDedup : List CRDTEvent → List CRDTEvent
  | [] => []
  | x :: xs => x :: firstDedup (xs.filter (fun y => decide (y ≠ x)))
termination_by l => l.length
decreasing_by
  simp only [List.length_cons]
  exact Nat.lt_succ_of_le (List.length_filter_le _ _)

theorem firstDedup_mem (L : List CRDTEvent) :
    ∀ e, e ∈ firstDedup L ↔ e ∈ L := by
  induction L using firstDedup.induct with
  | case1 => intro e; rw [firstDedup]
  | case2 x xs ih =>
    intro e
    rw [firstDedup]
    constructor
    · intro he
      rcases List.mem_cons.mp he with rfl | he
      · exact List.mem_cons_self _ _
      · exact List.mem_cons_of_mem _
          (List.mem_filter.mp ((ih e).mp he)).1
    · intro he
      rcases List.mem_cons.mp he with rfl | he
      · exact List.mem_cons_self _ _
      · by_cases hex : e = x
        · subst hex
          exact List.mem_cons_self _ _
        · exact List.mem_cons_of_mem _
            ((ih e).mpr (List.mem_filter.mpr ⟨he, by simp [hex]⟩))

theorem firstDedup_nodup (L : List CRDTEvent) : (firstDedup L).Nodup := by
  induction L using firstDedup.induct with
  | case1 => rw [firstDedup]; exact List.nodup_nil
  | case2 x xs ih =>
    rw [firstDedup]
    refine List.nodup_cons.mpr ⟨?_, ih⟩
    intro hc
    have := (List.mem_filter.mp
      ((firstDedup_mem _ x).mp hc)).2
    simp at this

theorem runE_firstDedup (L : List CRDTEvent) :
    ∀ (l r : List CharEntry), runE l L = some r →
      runE l (firstDedup L) = some r := by
  induction L using firstDedup.induct with
  | case1 => intro l r h; rw [firstDedup]; exact h
  | case2 x xs ih =>
    intro l r h
    rw [runE] at h
    rcases hx : applyEventE l x with _ | l1 <;> rw [hx] at h
    · cases h
    · rw [firstDedup, runE, hx]
      refine ih l1 r ?_
      rw [← runE_skip x xs l1 (applied_of_apply hx)]
      exact h

/-! ## Refinement: the concrete replica simulates the abstract semantics -/

theorem skipWAux_shift (x : CharEntry) (xs : List CharEntry) (g : GlobalId) :
    ∀ fuel q, CRDTDocument.skipWAux (x :: xs) g fuel (q + 1) =
      CRDTDocument.skipWAux xs g fuel q + 1 := by
  intro fuel
  induction fuel with
  | zero => intro q; rfl
  | succ fuel ih =>
    intro q
    rw [CRDTDocument.skipWAux, CRDTDocument.skipWAux]
    rw [show (x :: xs)[q + 1]? = xs[q]? from List.getElem?_cons_succ]
    rcases xs[q]? with _ | e
    · rfl
    · dsimp only
      split
      · exact ih (q + 1)
      · rfl

theorem skipW_cons_zero (x : CharEntry) (xs : List CharEntry) (g : GlobalId) :
    CRDTDocument.skipW (x :: xs) g 0 =
      if GlobalId.lt g x.gid then CRDTDocument.skipW xs g 0 + 1 else 0 := by
  rw [CRDTDocument.skipW, CRDTDocument.skipW]
  show CRDTDocument.skipWAux (x :: xs) g (xs.length + 1) 0 = _
  rw [CRDTDocument.skipWAux, List.getElem?_cons_zero]
  dsimp only
  by_cases hc : GlobalId.lt g x.gid
  · rw [if_pos ((GlobalId.compare_pos_iff x.gid g).mpr hc), if_pos hc,
      skipWAux_shift, Nat.sub_zero]
  · rw [if_neg (fun h => hc ((GlobalId.compare_pos_iff x.gid g).mp h)),
      if_neg hc]

theorem skipW_cons_succ (x : CharEntry) (xs : List CharEntry) (g : GlobalId)
    (p : Nat) :
    CRDTDocument.skipW (x :: xs) g (p + 1) = CRDTDocument.skipW xs g p + 1 := by
  rw [CRDTDocument.skipW, CRDTDocument.skipW]
  show CRDTDocument.skipWAux (x :: xs) g (xs.length + 1 - (p + 1)) (p + 1) = _
  rw [Nat.succ_sub_succ]
  exact skipWAux_shift x xs g (xs.length - p) p

theorem insertAt_succ (x e : CharEntry) (xs : List CharEntry) (n : Nat) :
    CRDTDocument.insertAt (x :: xs) (n + 1) e =
      x :: CRDTDocument.insertAt xs n e := rfl

theorem insertAt_skipW_eq_insBody (g : GlobalId) (c : Char) :
    ∀ l : List CharEntry,
      CRDTDocument.insertAt l (CRDTDocument.skipW l g 0) ⟨c, g, true⟩ =
        insBody ⟨c, g, true⟩ l := by
  intro l
  induction l with
  | nil => rfl
  | cons x xs ih =>
    rw [skipW_cons_zero]
    by_cases hc : GlobalId.lt g x.gid
    · rw [if_pos hc, insertAt_succ, ih, insBody_cons_lt hc]
    · rw [if_neg hc, insBody_cons_ge hc]
      rfl

theorem insertAt_skipW_eq_insAfter (g a : GlobalId) (c : Char) :
    ∀ (l : List CharEntry) (p : Nat) (ea : CharEntry),
      (gids l).Nodup → l[p]? = some ea → ea.gid = a →
      insAfter a ⟨c, g, true⟩ l =
        some (CRDTDocument.insertAt l (CRDTDocument.skipW l g (p + 1))
          ⟨c, g, true⟩) := by
  intro l
  induction l with
  | nil => intro p ea _ h; cases h
  | cons x xs ih =>
    intro p ea hnodup hget hgid
    rcases p with _ | p
    · rw [List.getElem?_cons_zero] at hget
      cases hget
      rw [insAfter_cons_eq hgid, skipW_cons_succ, insertAt_succ,
        insertAt_skipW_eq_insBody]
    · rw [List.getElem?_cons_succ] at hget
      have hmem : a ∈ gids xs := by
        rw [← hgid]
        exact List.mem_map.mpr ⟨ea, List.getElem?_mem hget, rfl⟩
      have hxa : ¬ x.gid = a := by
        intro hc
        exact (List.nodup_cons.mp (by simpa using hnodup)).1 (hc ▸ hmem)
      rw [insAfter_cons_ne hxa,
        ih p ea (List.nodup_cons.mp (by simpa using hnodup)).2 hget hgid,
        skipW_cons_succ, insertAt_succ]
      rfl

theorem markDel_not_mem (g : GlobalId) (l : List CharEntry)
    (h : g ∉ gids l) : markDel g l = l := by
  induction l with
  | nil => rfl
  | cons x xs ih =>
    simp only [gids_cons, List.mem_cons, not_or] at h
    rw [markDel_cons, if_neg (fun hc => h.1 hc.symm), ih h.2]

theorem setInvisible_eq_markDel (g : GlobalId) :
    ∀ (l : List CharEntry) (p : Nat) (ea : CharEntry),
      (gids l).Nodup → l[p]? = some ea → ea.gid = g →
      CRDTDocument.setInvisible l p = markDel g l := by
  intro l
  induction l with
  | nil => intro p ea _ h; cases h
  | cons x xs ih =>
    intro p ea hnodup hget hgid
    rcases p with _ | p
    · rw [List.getElem?_cons_zero] at hget
      cases hget
      rw [CRDTDocument.setInvisible, markDel_cons, if_pos hgid,
        markDel_not_mem g xs
          (fun hc => (List.nodup_cons.mp (by simpa using hnodup)).1
            (hgid ▸ hc))]
    · rw [List.getElem?_cons_succ] at hget
      have hmem : g ∈ gids xs := by
        rw [← hgid]
        exact List.mem_map.mpr ⟨ea, List.getElem?_mem hget, rfl⟩
      have hxg : ¬ x.gid = g := by
        intro hc
        exact (List.nodup_cons.mp (by simpa using hnodup)).1 (hc ▸ hmem)
      rw [CRDTDocument.setInvisible, markDel_cons, if_neg hxg,
        ih p ea (List.nodup_cons.mp (by simpa using hnodup)).2 hget hgid]

/-- The invariant tying the applied-operation set to the entry list, true of
every reachable replica: entry ids are pairwise distinct, an insert key is
recorded exactly for the present ids, a delete key exactly for the
tombstoned ids, and the `lastEditedPosition` hint is in range. -/
def SyncCore (l : List CharEntry) (keys : List OpKey) (lep : Int) : Prop :=
  (gids l).Nodup ∧
  (∀ k ∈ keys, k.kind = OpKind.ins →
    (⟨k.counter, k.siteId⟩ : GlobalId) ∈ gids l) ∧
  (∀ e ∈ l, (⟨OpKind.ins, e.gid.siteId, e.gid.counter⟩ : OpKey) ∈ keys) ∧
  (∀ k ∈ keys, k.kind = OpKind.del →
    ∃ e ∈ l, e.gid = (⟨k.counter, k.siteId⟩ : GlobalId) ∧ e.visible = false) ∧
  (∀ e ∈ l, e.visible = false →
    (⟨OpKind.del, e.gid.siteId, e.gid.counter⟩ : OpKey) ∈ keys) ∧
  lep < (l.length : Int)

/-- `SyncCore` for the fields of a replica. -/
def Sync (d : CRDTDocument) : Prop :=
  SyncCore d.entries d.appliedOps d.lastEditedPosition

instance (l : List CharEntry) (keys : List OpKey) (lep : Int) :
    Decidable (SyncCore l keys lep) := by
  unfold SyncCore
  infer_instance

instance (d : CRDTDocument) : Decidable (Sync d) := by
  unfold Sync
  infer_instance

theorem gid_eta (g : GlobalId) : (⟨g.counter, g.siteId⟩ : GlobalId) = g := rfl

theorem Sync.insKey_iff {d : CRDTDocument} (hs : Sync d) (g : GlobalId) :
    (⟨OpKind.ins, g.siteId, g.counter⟩ : OpKey) ∈ d.appliedOps ↔
      g ∈ gids d.entries := by
  constructor
  · intro hk
    have := hs.2.1 _ hk rfl
    simpa using this
  · intro hg
    rcases List.mem_map.mp hg with ⟨e, he, rfl⟩
    exact hs.2.2.1 e he

theorem insBody_gids_nodup (e : CharEntry) (l : List CharEntry)
    (hf : e.gid ∉ gids l) (hn : (gids l).Nodup) :
    (gids (insBody e l)).Nodup := by
  induction l with
  | nil => simp [insBody]
  | cons x xs ih =>
    simp only [gids_cons, List.mem_cons, not_or] at hf
    rw [gids_cons] at hn
    have hx := List.nodup_cons.mp hn
    by_cases hc : GlobalId.lt e.gid x.gid
    · rw [insBody_cons_lt hc, gids_cons]
      refine List.nodup_cons.mpr ⟨?_, ih hf.2 hx.2⟩
      intro hmem
      rcases (gids_mem_insBody _ _ _).mp hmem with h | h
      · exact hf.1 h.symm
      · exact hx.1 h
    · rw [insBody_cons_ge hc, gids_cons, gids_cons]
      refine List.nodup_cons.mpr ⟨?_, hn⟩
      simp only [List.mem_cons, not_or]
      exact ⟨hf.1, hf.2⟩

theorem insAfter_gids_nodup (a : GlobalId) (e : CharEntry) :
    ∀ l t : List CharEntry, insAfter a e l = some t →
      e.gid ∉ gids l → (gids l).Nodup → (gids t).Nodup := by
  intro l
  induction l with
  | nil => intro t h; cases h
  | cons x xs ih =>
    intro t h hf hn
    simp only [gids_cons, List.mem_cons, not_or] at hf
    rw [gids_cons] at hn
    have hx := List.nodup_cons.mp hn
    by_cases hxa : x.gid = a
    · rw [insAfter_cons_eq hxa] at h
      cases h
      rw [gids_cons]
      refine List.nodup_cons.mpr ⟨?_, insBody_gids_nodup e xs hf.2 hx.2⟩
      intro hmem
      rcases (gids_mem_insBody _ _ _).mp hmem with h | h
      · exact hf.1 h.symm
      · exact hx.1 h
    · rw [insAfter_cons_ne hxa] at h
      rcases ht : insAfter a e xs with _ | t' <;> rw [ht] at h
      · cases h
      · simp only [Option.map_some'] at h
        cases h
        rw [gids_cons]
        refine List.nodup_cons.mpr ⟨?_, ih t' ht hf.2 hx.2⟩
        intro hmem
        rcases (gids_mem_insAfter _ a e xs t' ht).mp hmem with h | h
        · exact hf.1 h.symm
        · exact hx.1 h

theorem syncCore_ins (l : List CharEntry) (keys : List OpKey) (lep lep' : Int)
    (hs : SyncCore l keys lep) (c : Char) (g : GlobalId)
    (l' : List CharEntry)
    (hfresh : g ∉ gids l)
    (hmem : ∀ x : CharEntry, x ∈ l' ↔ x = ⟨c, g, true⟩ ∨ x ∈ l)
    (hnodup : (gids l').Nodup)
    (hlep : lep' < (l'.length : Int)) :
    SyncCore l' ((⟨OpKind.ins, g.siteId, g.counter⟩ : OpKey) :: keys) lep' := by
  obtain ⟨hn, hik, hei, hdk, hed, _⟩ := hs
  refine ⟨hnodup, ?_, ?_, ?_, ?_, hlep⟩
  · intro k hk hkind
    rcases List.mem_cons.mp hk with rfl | hk
    · exact List.mem_map.mpr ⟨⟨c, g, true⟩, (hmem _).mpr (Or.inl rfl), rfl⟩
    · rcases List.mem_map.mp (hik k hk hkind) with ⟨e, he, hegid⟩
      exact List.mem_map.mpr ⟨e, (hmem e).mpr (Or.inr he), hegid⟩
  · intro e he
    rcases (hmem e).mp he with rfl | he
    · exact List.mem_cons_self _ _
    · exact List.mem_cons_of_mem _ (hei e he)
  · intro k hk hkind
    rcases List.mem_cons.mp hk with rfl | hk
    · cases hkind
    · rcases hdk k hk hkind with ⟨e, he, hegid, hvis⟩
      exact ⟨e, (hmem e).mpr (Or.inr he), hegid, hvis⟩
  · intro e he hvis
    rcases (hmem e).mp he with rfl | he
    · cases hvis
    · exact List.mem_cons_of_mem _ (hed e he hvis)

theorem syncCore_del (l : List CharEntry) (keys : List OpKey) (lep lep' : Int)
    (hs : SyncCore l keys lep) (g : GlobalId) (ea : CharEntry)
    (hea : ea ∈ l) (heag : ea.gid = g)
    (hlep : lep' < (l.length : Int)) :
    SyncCore (markDel g l)
      ((⟨OpKind.del, g.siteId, g.counter⟩ : OpKey) :: keys) lep' := by
  obtain ⟨hn, hik, hei, hdk, hed, _⟩ := hs
  have hgid : ∀ x : CharEntry,
      (if x.gid = g then { x with visible := false } else x).gid = x.gid :=
    markDel_gid g
  refine ⟨by simpa using hn, ?_, ?_, ?_, ?_,
    by simpa [markDel, List.length_map] using hlep⟩
  · intro k hk hkind
    rcases List.mem_cons.mp hk with rfl | hk
    · cases hkind
    · rw [gids_markDel]
      exact hik k hk hkind
  · intro e he
    rcases List.mem_map.mp he with ⟨x, hx, rfl⟩
    rw [hgid]
    exact List.mem_cons_of_mem _ (hei x hx)
  · intro k hk hkind
    rcases List.mem_cons.mp hk with rfl | hk
    · refine ⟨if ea.gid = g then { ea with visible := false } else ea,
        List.mem_map.mpr ⟨ea, hea, rfl⟩, ?_⟩
      rw [if_pos heag]
      exact ⟨heag, rfl⟩
    · rcases hdk k hk hkind with ⟨e, he, hegid, hvis⟩
      refine ⟨if e.gid = g then { e with visible := false } else e,
        List.mem_map.mpr ⟨e, he, rfl⟩, ?_⟩
      constructor
      · rw [hgid]
        exact hegid
      · split <;> simp [hvis]
  · intro e he hvis
    rcases List.mem_map.mp he with ⟨x, hx, rfl⟩
    rw [hgid]
    by_cases hxg : x.gid = g
    · rw [hxg]
      exact List.mem_cons_self _ _
    · rw [if_neg hxg] at hvis
      exact List.mem_cons_of_mem _ (hed x hx hvis)

namespace CRDTDocument

theorem scanGidAux_found (l : List CharEntry) (g : GlobalId) :
    ∀ (fuel i j : Nat) (e : CharEntry), i ≤ j → j < i + fuel →
      l[j]? = some e → e.gid = g → (scanGidAux l g fuel i).isSome := by
  intro fuel
  induction fuel with
  | zero =>
    intro i j e h1 h2
    omega
  | succ fuel ih =>
    intro i j e hij hlt hget hgid
    rw [scanGidAux]
    rcases hi : l[i]? with _ | x
    · exfalso
      have hjlen : j < l.length := by
        rcases List.getElem?_eq_some.mp hget with ⟨h, _⟩
        exact h
      have hilen : l.length ≤ i := List.getElem?_eq_none_iff.mp hi
      omega
    · dsimp only
      by_cases hx : x.gid = g
      · rw [if_pos hx]
        rfl
      · rw [if_neg hx]
        have hij' : i + 1 ≤ j := by
          rcases Nat.lt_or_ge i j with h | h
          · omega
          · exfalso
            have : i = j := by omega
            subst this
            rw [hget] at hi
            cases hi
            exact hx hgid
        exact ih (i + 1) j e hij' (by omega) hget hgid

theorem scanGid_found (l : List CharEntry) (g : GlobalId) (i stop j : Nat)
    (e : CharEntry) (h1 : i ≤ j) (h2 : j < stop) (hget : l[j]? = some e)
    (hgid : e.gid = g) : (scanGid l g i stop).isSome := by
  rw [scanGid]
  exact scanGidAux_found l g (stop - i) i j e h1 (by omega) hget hgid

theorem findGid_complete (d : CRDTDocument) (g : GlobalId)
    (hg : g ∈ gids d.entries) :
    ∃ (j : Nat) (e : CharEntry),
      findGid d g = ({ d with lastEditedPosition := (j : Int) }, some j) ∧
      d.entries[j]? = some e ∧ e.gid = g := by
  obtain ⟨e0, he0, hgid0⟩ : ∃ e0 ∈ d.entries, e0.gid = g := by
    rcases List.mem_map.mp hg with ⟨e0, he0, h⟩
    exact ⟨e0, he0, h⟩
  obtain ⟨j0, hj0len, hj0⟩ := List.getElem_of_mem he0
  have hj0get : d.entries[j0]? = some e0 := by
    rw [List.getElem?_eq_getElem hj0len, hj0]
  have hsnd : ∃ j : Nat, (findGid d g).2 = some j := by
    rw [findGid]
    rcases h1 : scanGid d.entries g (max (d.lastEditedPosition - 1) 0).toNat
        d.entries.length with _ | i
    · rcases h2 : scanGid d.entries g 0
          (max (d.lastEditedPosition - 1) 0).toNat with _ | i
      · exfalso
        by_cases hc : (max (d.lastEditedPosition - 1) 0).toNat ≤ j0
        · have := scanGid_found d.entries g _ d.entries.length j0 e0 hc
            hj0len hj0get hgid0
          rw [h1] at this
          cases this
        · have := scanGid_found d.entries g 0
            (max (d.lastEditedPosition - 1) 0).toNat j0 e0 (Nat.zero_le _)
            (by omega) hj0get hgid0
          rw [h2] at this
          cases this
      · exact ⟨i, rfl⟩
    · exact ⟨i, rfl⟩
  obtain ⟨j, hj⟩ := hsnd
  have heq : findGid d g = ((findGid d g).1, some j) := by
    rw [← hj]
  obtain ⟨⟨e, he, hge⟩, hd'⟩ := findGid_sound d g (findGid d g).1 j heq
  exact ⟨j, e, by rw [heq, hd'], he, hge⟩

end CRDTDocument

namespace CRDTDocument

/-- The non-cache fields of the state after the splice phase of `insert`. -/
theorem insertCore_fields (d1 : CRDTDocument) (c : Char) (g : GlobalId)
    (q : Nat) :
    ((insertCore d1 c g q).1).entries =
      insertAt d1.entries (skipW d1.entries g q) (⟨c, g, true⟩ : CharEntry) ∧
    ((insertCore d1 c g q).1).appliedOps =
      (⟨.ins, g.siteId, g.counter⟩ : OpKey) :: d1.appliedOps ∧
    ((insertCore d1 c g q).1).maxCounter = d1.maxCounter ∧
    ((insertCore d1 c g q).1).lastEditedPosition = d1.lastEditedPosition ∧
    (insertCore d1 c g q).2.isSome := by
  rw [insertCore]
  refine ⟨?_, ?_, ?_, ?_, ?_⟩ <;>
    first
      | (rw [(getPrefixLength_fst _ _).1]; split <;> rfl)
      | (rw [(getPrefixLength_fst _ _).2.1]; split <;> rfl)
      | (rw [(getPrefixLength_fst _ _).2.2.1]; split <;> rfl)
      | (rw [(getPrefixLength_fst _ _).2.2.2]; split <;> rfl)
      | rfl

end CRDTDocument

namespace CRDTDocument

/-- The non-cache fields of the state after the success path of
`insertCore`. -/
theorem insertCore_eq_fields (d1 : CRDTDocument) (c : Char) (g : GlobalId)
    (q : Nat) (d' : CRDTDocument) (out : List PlainUpdate)
    (h : insertCore d1 c g q = (d', some out)) :
    d'.entries =
      insertAt d1.entries (skipW d1.entries g q) (⟨c, g, true⟩ : CharEntry) ∧
    d'.appliedOps = (⟨.ins, g.siteId, g.counter⟩ : OpKey) :: d1.appliedOps ∧
    d'.lastEditedPosition = d1.lastEditedPosition := by
  have hd' : d' = (insertCore d1 c g q).1 := by rw [h]
  obtain ⟨h1, h2, _, h4, _⟩ := insertCore_fields d1 c g q
  subst hd'
  exact ⟨h1, h2, h4⟩

/-- A successful concrete `insert` is a successful abstract insertion, and
the invariant survives. -/
theorem sim_insert (d : CRDTDocument) (ev : CRDTEvent)
    (ht : ev.type = "insert") (hs : Sync d) (d' : CRDTDocument)
    (out : List PlainUpdate)
    (h : insert d ev.char ev.gid ev.afterGid = (d', some out)) :
    applyEventE d.entries ev = some d'.entries ∧ Sync d' := by
  by_cases hdup : (⟨.ins, ev.gid.siteId, ev.gid.counter⟩ : OpKey) ∈ d.appliedOps
  · simp only [insert, hdup, if_true, ite_true] at h
    have hd' : d' = { d with maxCounter := max d.maxCounter ev.gid.counter } :=
      (congrArg Prod.fst h).symm
    have hmem : ev.gid ∈ gids d.entries := (hs.insKey_iff ev.gid).mp hdup
    subst hd'
    exact ⟨by rw [applyEventE, if_pos ht, if_pos hmem], hs⟩
  · have hfresh : ev.gid ∉ gids d.entries :=
      fun hm => hdup ((hs.insKey_iff ev.gid).mpr hm)
    rcases hch : ev.char with _ | ⟨_ | ⟨c, _ | ⟨c2, cs⟩⟩⟩
    · simp only [insert, hdup, if_false, ite_false, hch] at h
      exact absurd (congrArg Prod.snd h) (by simp)
    · simp only [insert, hdup, if_false, ite_false, hch] at h
      exact absurd (congrArg Prod.snd h) (by simp)
    · rcases hag : ev.afterGid with _ | a
      · simp only [insert, hdup, if_false, ite_false, hch, hag] at h
        obtain ⟨hent, hops, hlep⟩ := insertCore_eq_fields _ _ _ _ _ _ h
        have hb := insertAt_skipW_eq_insBody ev.gid c d.entries
        constructor
        · rw [applyEventE, if_pos ht, if_neg hfresh]
          simp only [hch, hag]
          rw [hent]
          exact congrArg some hb.symm
        · show SyncCore _ _ _
          rw [hent, hops, hlep]
          have hgoal : SyncCore (insBody (⟨c, ev.gid, true⟩ : CharEntry) d.entries)
              ((⟨.ins, ev.gid.siteId, ev.gid.counter⟩ : OpKey) :: d.appliedOps)
              d.lastEditedPosition := by
            refine syncCore_ins d.entries d.appliedOps d.lastEditedPosition
              d.lastEditedPosition hs c ev.gid _ hfresh
              (fun x => mem_insBody _ x d.entries) ?_ ?_
            · exact insBody_gids_nodup _ _ hfresh hs.1
            · rw [insBody_length]
              have := hs.2.2.2.2.2
              omega
          rw [hb]
          exact hgoal
      · by_cases ha : a ∈ gids d.entries
        · obtain ⟨j, e, hfg, hget, hgid⟩ := findGid_complete
            { d with maxCounter := max d.maxCounter ev.gid.counter } a ha
          simp only [insert, hdup, if_false, ite_false, hch, hag, hfg] at h
          obtain ⟨hent, hops, hlep⟩ := insertCore_eq_fields _ _ _ _ _ _ h
          have hj : j < d.entries.length := by
            have hb := List.getElem?_eq_some.mp
              (show d.entries[j]? = some e from hget)
            exact hb.1
          have hb : insAfter a (⟨c, ev.gid, true⟩ : CharEntry) d.entries =
              some (insertAt d.entries (skipW d.entries ev.gid (j + 1))
                (⟨c, ev.gid, true⟩ : CharEntry)) :=
            insertAt_skipW_eq_insAfter ev.gid a c d.entries j e hs.1 hget hgid
          constructor
          · rw [applyEventE, if_pos ht, if_neg hfresh]
            simp only [hch, hag]
            rw [hent, hb]
          · show SyncCore _ _ _
            rw [hent, hops, hlep]
            refine syncCore_ins d.entries d.appliedOps d.lastEditedPosition
              _ hs c ev.gid _ hfresh
              (fun x => insAfter_mem a _ d.entries _ hb x) ?_ ?_
            · exact insAfter_gids_nodup a _ d.entries _ hb hfresh hs.1
            · rw [insAfter_length a _ d.entries _ hb]
              show (j : Int) < _
              exact_mod_cast Nat.lt_succ_of_lt hj
        · have hnf : findGid { d with maxCounter := max d.maxCounter ev.gid.counter } a =
              ({ d with maxCounter := max d.maxCounter ev.gid.counter }, none) :=
            findGid_not_found _ a
              (fun e he hc => ha (List.mem_map.mpr ⟨e, he, hc⟩))
          simp only [insert, hdup, if_false, ite_false, hch, hag, hnf] at h
          exact absurd (congrArg Prod.snd h) (by simp)
    · simp only [insert, hdup, if_false, ite_false, hch] at h
      exact absurd (congrArg Prod.snd h) (by simp)

end CRDTDocument

namespace CRDTDocument

/-- A successful concrete `delete` is a successful abstract tombstoning, and
the invariant survives. -/
theorem sim_delete (d : CRDTDocument) (ev : CRDTEvent)
    (ht : ev.type = "delete") (hs : Sync d) (d' : CRDTDocument)
    (out : List PlainUpdate)
    (h : delete d ev.gid = (d', some out)) :
    applyEventE d.entries ev = some d'.entries ∧ Sync d' := by
  have htne : ¬ ev.type = "insert" := by simp [ht]
  by_cases hdup : (⟨.del, ev.gid.siteId, ev.gid.counter⟩ : OpKey) ∈ d.appliedOps
  · simp only [delete, hdup, if_true, ite_true] at h
    have hd' : d' = { d with maxCounter := max d.maxCounter ev.gid.counter } :=
      (congrArg Prod.fst h).symm
    subst hd'
    obtain ⟨e, he, hegid0, hviz⟩ := hs.2.2.2.1 _ hdup rfl
    have hegid : e.gid = ev.gid := hegid0
    have hmem : ev.gid ∈ gids d.entries := List.mem_map.mpr ⟨e, he, hegid⟩
    have hfix : markDel ev.gid d.entries = d.entries :=
      (markDel_eq_self_iff _ _).mpr (fun e' he' hg' => by
        have he'e : e' = e :=
          List.inj_on_of_nodup_map hs.1 he' he (by rw [hg', hegid])
        rw [he'e, hviz])
    refine ⟨?_, hs⟩
    rw [applyEventE, if_neg htne, if_pos ht, if_pos hmem, hfix]
  · by_cases hg : ev.gid ∈ gids d.entries
    · obtain ⟨pos, e, hfg, hget, hgid⟩ := findGid_complete
        { d with maxCounter := max d.maxCounter ev.gid.counter } ev.gid hg
      simp only [delete, hdup, if_false, ite_false, hfg] at h
      have hj : pos < d.entries.length := by
        have hb := List.getElem?_eq_some.mp
          (show d.entries[pos]? = some e from hget)
        exact hb.1
      have hset : setInvisible d.entries pos = markDel ev.gid d.entries :=
        setInvisible_eq_markDel ev.gid d.entries pos e hs.1 hget hgid
      have hsync : SyncCore (setInvisible d.entries pos)
          ((⟨.del, ev.gid.siteId, ev.gid.counter⟩ : OpKey) :: d.appliedOps)
          (pos : Int) := by
        rw [hset]
        exact syncCore_del d.entries d.appliedOps d.lastEditedPosition
          (pos : Int) hs ev.gid e (List.getElem?_mem hget) hgid
          (by exact_mod_cast hj)
      split at h <;>
        (rw [Prod.mk.injEq] at h
         obtain ⟨hd', -⟩ := h
         subst hd'
         constructor
         · rw [applyEventE, if_neg htne, if_pos ht, if_pos hg, ← hset,
             (getPrefixLength_fst _ _).1]
         · show SyncCore _ _ _
           rw [(getPrefixLength_fst _ _).1, (getPrefixLength_fst _ _).2.1,
             (getPrefixLength_fst _ _).2.2.2]
           exact hsync)
    · have hnf : findGid { d with maxCounter := max d.maxCounter ev.gid.counter } ev.gid =
          ({ d with maxCounter := max d.maxCounter ev.gid.counter }, none) :=
        findGid_not_found _ ev.gid
          (fun e he hc => hg (List.mem_map.mpr ⟨e, he, hc⟩))
      simp only [delete, hdup, if_false, ite_false, hnf] at h
      exact absurd (congrArg Prod.snd h) (by simp)

end CRDTDocument

namespace CRDTDocument

/-- A successful concrete event application is a successful abstract step
with the same entries, and the invariant survives. -/
theorem sim_applyEvent (d : CRDTDocument) (ev : CRDTEvent) (hs : Sync d)
    (d' : CRDTDocument) (out : List PlainUpdate)
    (h : applyEvent d ev = (d', some out)) :
    applyEventE d.entries ev = some d'.entries ∧ Sync d' := by
  rw [applyEvent] at h
  by_cases ht : ev.type = "insert"
  · rw [if_pos ht] at h
    exact sim_insert d ev ht hs d' out h
  · rw [if_neg ht] at h
    by_cases ht2 : ev.type = "delete"
    · rw [if_pos ht2] at h
      exact sim_delete d ev ht2 hs d' out h
    · rw [if_neg ht2] at h
      exact absurd (congrArg Prod.snd h) (by simp)

/-- A successful concrete batch application is a successful abstract run
with the same entries, and the invariant survives. -/
theorem sim_applyEventsGo (L : List CRDTEvent) :
    ∀ (d : CRDTDocument), Sync d →
      ∀ (d' : CRDTDocument) (out : List PlainUpdate),
        applyEventsGo d L = (d', some out) →
        runE d.entries L = some d'.entries ∧ Sync d' := by
  induction L with
  | nil =>
    intro d hs d' out h
    rw [applyEventsGo, Prod.mk.injEq] at h
    obtain ⟨hd', -⟩ := h
    subst hd'
    exact ⟨rfl, hs⟩
  | cons ev rest ih =>
    intro d hs d' out h
    rw [applyEventsGo] at h
    rcases h1 : applyEvent d ev with ⟨d1, _ | out1⟩ <;> simp only [h1] at h
    · exact absurd (congrArg Prod.snd h) (by simp)
    · rcases h2 : applyEventsGo d1 rest with ⟨d2, _ | outs⟩ <;>
        simp only [h2] at h
      · exact absurd (congrArg Prod.snd h) (by simp)
      · rw [Prod.mk.injEq] at h
        obtain ⟨hd', -⟩ := h
        subst hd'
        obtain ⟨habs, hs1⟩ := sim_applyEvent d ev hs d1 out1 h1
        obtain ⟨hrun, hs2⟩ := ih d1 hs1 d2 outs h2
        exact ⟨by rw [runE, habs]; exact hrun, hs2⟩

/-- The fresh replica satisfies the invariant. -/
theorem sync_new : Sync new := by
  refine ⟨List.nodup_nil, ?_, ?_, ?_, ?_, by decide⟩ <;>
    (intro x hx
     exact absurd hx (List.not_mem_nil x))

end CRDTDocument

/-- C1 (amended): convergence holds for batches in which distinct Insert
events never reuse a GlobalId — which is true of every operation stream the
protocol produces.  If two fresh replicas apply, via `applyEvents`, two
batches containing the same set of events (in any order, any number of
times) and neither application throws, the resulting visible texts are
equal.  (Unrestricted convergence, as literally claimed, is refuted by
`C1_convergence_counterexample`: two Insert events sharing a GlobalId are
order-dependent.) -/
theorem C1_convergence_amended (L1 L2 : List CRDTEvent)
    (h12 : ∀ e ∈ L1, e ∈ L2) (h21 : ∀ e ∈ L2, e ∈ L1)
    (huniq : ∀ x ∈ L1, ∀ y ∈ L1, x.type = "insert" → y.type = "insert" →
      x.gid = y.gid → x = y)
    (d1 d2 : CRDTDocument) (u1 u2 : List PlainUpdate)
    (h1 : CRDTDocument.new.applyEvents L1 = (d1, some u1))
    (h2 : CRDTDocument.new.applyEvents L2 = (d2, some u2)) :
    d1.getText = d2.getText := by
  have hgo : ∀ (L : List CRDTEvent) (d : CRDTDocument) (u : List PlainUpdate),
      CRDTDocument.new.applyEvents L = (d, some u) →
      runE [] L = some d.entries := by
    intro L d u h
    rw [CRDTDocument.applyEvents] at h
    rcases hg : CRDTDocument.new.applyEventsGo L with ⟨d', _ | us⟩ <;>
      simp only [hg] at h
    · exact absurd (congrArg Prod.snd h) (by simp)
    · rw [Prod.mk.injEq] at h
      obtain ⟨hd, -⟩ := h
      subst hd
      exact (CRDTDocument.sim_applyEventsGo L CRDTDocument.new
        CRDTDocument.sync_new d' us hg).1
  have hr1 : runE [] (firstDedup L1) = some d1.entries :=
    runE_firstDedup L1 [] d1.entries (hgo L1 d1 u1 h1)
  have hr2 : runE [] (firstDedup L2) = some d2.entries :=
    runE_firstDedup L2 [] d2.entries (hgo L2 d2 u2 h2)
  have hent : d1.entries = d2.entries := by
    refine runE_perm (firstDedup L1).length (firstDedup L1) (firstDedup L2)
      [] d1.entries d2.entries rfl (firstDedup_nodup L1) (firstDedup_nodup L2)
      ?_ ?_ hr1 hr2
    · intro e
      rw [firstDedup_mem, firstDedup_mem]
      exact ⟨fun h => h12 e h, fun h => h21 e h⟩
    · intro x hx y hy
      exact huniq x ((firstDedup_mem L1 x).mp hx)
        y ((firstDedup_mem L1 y).mp hy)
  rw [CRDTDocument.getText, CRDTDocument.getText, hent]

theorem C1_amended_witness :
    ((CRDTDocument.new.applyEvents
        [⟨"insert", ⟨1, 1⟩, some ['a'], none⟩,
         ⟨"insert", ⟨1, 2⟩, some ['b'], none⟩]).1).getText =
      ((CRDTDocument.new.applyEvents
        [⟨"insert", ⟨1, 2⟩, some ['b'], none⟩,
         ⟨"insert", ⟨1, 1⟩, some ['a'], none⟩]).1).getText :=
  C1_convergence_amended
    [⟨"insert", ⟨1, 1⟩, some ['a'], none⟩,
     ⟨"insert", ⟨1, 2⟩, some ['b'], none⟩]
    [⟨"insert", ⟨1, 2⟩, some ['b'], none⟩,
     ⟨"insert", ⟨1, 1⟩, some ['a'], none⟩]
    (by decide) (by decide) (by decide) _ _
    [⟨0, 0, ['a']⟩, ⟨0, 0, ['b']⟩] [⟨0, 0, ['b', 'a']⟩]
    (by decide) (by decide)

/-- The target of a successful `insAfter` splits the list at the first entry
carrying the reference id, and the new entry is body-inserted into the
suffix. -/
theorem insAfter_split (a : GlobalId) (e : CharEntry) :
    ∀ l t : List CharEntry, insAfter a e l = some t →
      ∃ P ae S, l = P ++ ae :: S ∧ ae.gid = a ∧ (∀ p ∈ P, p.gid ≠ a) ∧
        t = P ++ ae :: insBody e S := by
  intro l
  induction l with
  | nil => intro t h; cases h
  | cons x xs ih =>
    intro t h
    by_cases hxa : x.gid = a
    · rw [insAfter_cons_eq hxa] at h
      cases h
      exact ⟨[], x, xs, rfl, hxa, by simp, rfl⟩
    · rw [insAfter_cons_ne hxa] at h
      rcases ht : insAfter a e xs with _ | t' <;> rw [ht] at h
      · cases h
      · simp only [Option.map_some'] at h
        cases h
        obtain ⟨P, ae, S, hl, hae, hP, ht'⟩ := ih t' ht
        refine ⟨x :: P, ae, S, by rw [hl]; rfl, hae, ?_, by rw [ht']; rfl⟩
        intro p hp
        rcases List.mem_cons.mp hp with rfl | hp
        · exact hxa
        · exact hP p hp

/-- `insAfter` through a prefix free of the reference id. -/
theorem insAfter_first (a : GlobalId) (e : CharEntry) :
    ∀ (P : List CharEntry) (ae : CharEntry) (S : List CharEntry),
      (∀ p ∈ P, p.gid ≠ a) → ae.gid = a →
      insAfter a e (P ++ ae :: S) = some (P ++ ae :: insBody e S) := by
  intro P
  induction P with
  | nil =>
    intro ae S _ hae
    rw [List.nil_append, insAfter_cons_eq hae, List.nil_append]
  | cons x P ih =>
    intro ae S hP hae
    rw [List.cons_append, insAfter_cons_ne (hP x (List.mem_cons_self _ _)),
      ih ae S (fun p hp => hP p (List.mem_cons_of_mem _ hp)) hae,
      Option.map_some', List.cons_append]

/-- Whatever the order of two body insertions, the entry with the greater id
lands strictly earlier in the list. -/
theorem insBody_insBody_order (e1 e2 : CharEntry)
    (h : GlobalId.lt e2.gid e1.gid) :
    ∀ S : List CharEntry,
      (∃ A B C, insBody e2 (insBody e1 S) = A ++ e1 :: B ++ e2 :: C) ∧
      (∃ A B C, insBody e1 (insBody e2 S) = A ++ e1 :: B ++ e2 :: C) := by
  intro S
  induction S with
  | nil =>
    constructor
    · refine ⟨[], [], [], ?_⟩
      rw [show insBody e1 [] = [e1] from rfl, insBody_cons_lt h]
      rfl
    · refine ⟨[], [], [], ?_⟩
      rw [show insBody e2 [] = [e2] from rfl,
        insBody_cons_ge (GlobalId.lt_asymm h)]
      rfl
  | cons x xs ih =>
    constructor
    · by_cases hc : GlobalId.lt e1.gid x.gid
      · rw [insBody_cons_lt hc, insBody_cons_lt (GlobalId.lt_trans' h hc)]
        obtain ⟨A, B, C, hABC⟩ := ih.1
        exact ⟨x :: A, B, C, by rw [hABC]; rfl⟩
      · rw [insBody_cons_ge hc, insBody_cons_lt h]
        obtain ⟨s, t, hst⟩ := List.append_of_mem
          ((mem_insBody e2 e2 (x :: xs)).mpr (Or.inl rfl))
        exact ⟨[], s, t, by rw [hst]; rfl⟩
    · by_cases hc : GlobalId.lt e2.gid x.gid
      · rw [insBody_cons_lt hc]
        by_cases hc1 : GlobalId.lt e1.gid x.gid
        · rw [insBody_cons_lt hc1]
          obtain ⟨A, B, C, hABC⟩ := ih.2
          exact ⟨x :: A, B, C, by rw [hABC]; rfl⟩
        · rw [insBody_cons_ge hc1]
          obtain ⟨s, t, hst⟩ := List.append_of_mem
            ((mem_insBody e2 e2 xs).mpr (Or.inl rfl))
          exact ⟨[], x :: s, t, by rw [hst]; rfl⟩
      · rw [insBody_cons_ge hc, insBody_cons_ge (GlobalId.lt_asymm h)]
        exact ⟨[], [], x :: xs, rfl⟩

namespace CRDTDocument

/-- A successful fresh single-character `insert` after a present id is
exactly an abstract `insAfter`, and the invariant survives. -/
theorem insert_succ_insAfter (d : CRDTDocument) (c : Char) (g a : GlobalId)
    (hs : Sync d) (hfresh : g ∉ gids d.entries)
    (d' : CRDTDocument) (out : List PlainUpdate)
    (h : insert d (some [c]) g (some a) = (d', some out)) :
    insAfter a (⟨c, g, true⟩ : CharEntry) d.entries = some d'.entries ∧
      Sync d' := by
  obtain ⟨happ, hsync⟩ :=
    sim_insert d ⟨"insert", g, some [c], some a⟩ rfl hs d' out h
  refine ⟨?_, hsync⟩
  rw [applyEventE] at happ
  rw [if_pos (show (⟨"insert", g, some [c], some a⟩ : CRDTEvent).type =
    "insert" from rfl)] at happ
  rw [if_neg (show ¬ (⟨"insert", g, some [c], some a⟩ : CRDTEvent).gid ∈
    gids d.entries from hfresh)] at happ
  exact happ

/-- C2: the concrete concurrent-insert scenario from the spec produces
"acb"; in general, when two fresh inserts share the same `afterGid`, the one
whose GlobalId is lexicographically greater ends up strictly earlier in the
entry sequence, whichever of the two arrives second. -/
theorem C2_tie_break :
    (((CRDTDocument.new.applyEvents
        [⟨"insert", ⟨1, 1⟩, some ['a'], none⟩,
         ⟨"insert", ⟨2, 3⟩, some ['c'], some ⟨1, 1⟩⟩,
         ⟨"insert", ⟨2, 2⟩, some ['b'], some ⟨1, 1⟩⟩]).1).getText
      = ['a', 'c', 'b']) ∧
    (∀ (d : CRDTDocument) (a g1 g2 : GlobalId) (c1 c2 : Char)
        (dx d2 : CRDTDocument) (ox oy : List PlainUpdate),
      Sync d → GlobalId.lt g2 g1 →
      g1 ∉ gids d.entries → g2 ∉ gids d.entries →
      insert d (some [c1]) g1 (some a) = (dx, some ox) →
      insert dx (some [c2]) g2 (some a) = (d2, some oy) →
      ∃ A B C, d2.entries =
        A ++ (⟨c1, g1, true⟩ : CharEntry) ::
          (B ++ (⟨c2, g2, true⟩ : CharEntry) :: C)) := by
  refine ⟨by decide, ?_⟩
  intro d a g1 g2 c1 c2 dx d2 ox oy hs hlt hf1 hf2 hx hy
  obtain ⟨hins1, hsx⟩ := insert_succ_insAfter d c1 g1 a hs hf1 dx ox hx
  have hgidsx : ∀ g : GlobalId, g ∈ gids dx.entries ↔ g = g1 ∨ g ∈ gids d.entries :=
    fun g => gids_mem_insAfter g a _ d.entries dx.entries hins1
  have hne : g2 ≠ g1 := fun heq => GlobalId.lt_irrefl g1 (heq ▸ hlt)
  have hf2' : g2 ∉ gids dx.entries := fun hm => by
    rcases (hgidsx g2).mp hm with heq | hm'
    · exact hne heq
    · exact hf2 hm'
  obtain ⟨hins2, _⟩ := insert_succ_insAfter dx c2 g2 a hsx hf2' d2 oy hy
  obtain ⟨P, ae, S, hl, hae, hP, ht⟩ :=
    insAfter_split a (⟨c1, g1, true⟩ : CharEntry) d.entries dx.entries hins1
  rw [ht, insAfter_first a _ P ae _ hP hae] at hins2
  obtain ⟨A, B, C, horder⟩ :=
    (insBody_insBody_order (⟨c1, g1, true⟩ : CharEntry)
      (⟨c2, g2, true⟩ : CharEntry) hlt S).1
  refine ⟨P ++ ae :: A, B, C, ?_⟩
  have hd2 : d2.entries = P ++ ae :: insBody (⟨c2, g2, true⟩ : CharEntry)
      (insBody (⟨c1, g1, true⟩ : CharEntry) S) :=
    (Option.some.injEq _ _ ▸ hins2).symm
  rw [hd2, horder]
  simp [List.append_assoc]

theorem C2_witness :
    ∃ A B C,
      ((CRDTDocument.insert
          (CRDTDocument.insert
            (CRDTDocument.new.applyEvents
              [⟨"insert", ⟨1, 1⟩, some ['a'], none⟩]).1
            (some ['c']) ⟨2, 3⟩ (some ⟨1, 1⟩)).1
          (some ['b']) ⟨2, 2⟩ (some ⟨1, 1⟩)).1).entries =
        A ++ (⟨'c', ⟨2, 3⟩, true⟩ : CharEntry) ::
          (B ++ (⟨'b', ⟨2, 2⟩, true⟩ : CharEntry) :: C) :=
  C2_tie_break.2
    (CRDTDocument.new.applyEvents [⟨"insert", ⟨1, 1⟩, some ['a'], none⟩]).1
    ⟨1, 1⟩ ⟨2, 3⟩ ⟨2, 2⟩ 'c' 'b'
    (CRDTDocument.insert
      (CRDTDocument.new.applyEvents
        [⟨"insert", ⟨1, 1⟩, some ['a'], none⟩]).1
      (some ['c']) ⟨2, 3⟩ (some ⟨1, 1⟩)).1
    (CRDTDocument.insert
      (CRDTDocument.insert
        (CRDTDocument.new.applyEvents
          [⟨"insert", ⟨1, 1⟩, some ['a'], none⟩]).1
        (some ['c']) ⟨2, 3⟩ (some ⟨1, 1⟩)).1
      (some ['b']) ⟨2, 2⟩ (some ⟨1, 1⟩)).1
    [⟨1, 1, ['c']⟩] [⟨2, 2, ['b']⟩]
    (by decide) (by decide) (by decide) (by decide) (by decide) (by decide)

end CRDTDocument

namespace CRDTDocument

/-- Two replicas that agree on everything but the position/length caches.
The caches only ever affect the numeric values inside emitted plain
updates, never the entries, the applied set, or success. -/
def Rel (A B : CRDTDocument) : Prop :=
  A.entries = B.entries ∧ A.appliedOps = B.appliedOps ∧
    A.maxCounter = B.maxCounter ∧
    A.lastEditedPosition = B.lastEditedPosition

theorem rel_findGid (A B : CRDTDocument) (h : Rel A B) (g : GlobalId) :
    (findGid A g).2 = (findGid B g).2 ∧
      Rel (findGid A g).1 (findGid B g).1 := by
  obtain ⟨he, ho, hm, hl⟩ := h
  rw [findGid, findGid, he, hl]
  rcases h1 : scanGid B.entries g (max (B.lastEditedPosition - 1) 0).toNat
      B.entries.length with _ | i <;> simp only [h1]
  · rcases h2 : scanGid B.entries g 0
        (max (B.lastEditedPosition - 1) 0).toNat with _ | i <;>
      simp only [h2]
    · exact ⟨trivial, he, ho, hm, hl⟩
    · exact ⟨trivial, rfl, ho, hm, rfl⟩
  · exact ⟨trivial, rfl, ho, hm, rfl⟩

theorem rel_insertCore (A B : CRDTDocument) (h : Rel A B) (c : Char)
    (g : GlobalId) (q : Nat) :
    Rel (insertCore A c g q).1 (insertCore B c g q).1 ∧
      (insertCore A c g q).2.isSome ∧ (insertCore B c g q).2.isSome := by
  obtain ⟨he, ho, hm, hl⟩ := h
  obtain ⟨ha1, ha2, ha3, ha4, ha5⟩ := insertCore_fields A c g q
  obtain ⟨hb1, hb2, hb3, hb4, hb5⟩ := insertCore_fields B c g q
  refine ⟨⟨?_, ?_, ?_, ?_⟩, ha5, hb5⟩
  · rw [ha1, hb1, he]
  · rw [ha2, hb2, ho]
  · rw [ha3, hb3, hm]
  · rw [ha4, hb4, hl]

/-- The non-cache fields of the state after a successful non-duplicate
`delete`. -/
theorem delete_fst_fields (d : CRDTDocument) (g : GlobalId)
    (hdup : (⟨.del, g.siteId, g.counter⟩ : OpKey) ∉ d.appliedOps)
    (d1 : CRDTDocument) (pos : Nat)
    (hf : findGid { d with maxCounter := max d.maxCounter g.counter } g =
      (d1, some pos)) :
    ((delete d g).1).entries = setInvisible d1.entries pos ∧
    ((delete d g).1).appliedOps =
      (⟨.del, g.siteId, g.counter⟩ : OpKey) :: d1.appliedOps ∧
    ((delete d g).1).maxCounter = d1.maxCounter ∧
    ((delete d g).1).lastEditedPosition = d1.lastEditedPosition ∧
    ((delete d g).2).isSome := by
  simp only [delete, hdup, if_false, ite_false, hf]
  refine ⟨?_, ?_, ?_, ?_, ?_⟩ <;>
    first
      | (rw [(getPrefixLength_fst _ _).1]; split <;> rfl)
      | (rw [(getPrefixLength_fst _ _).2.1]; split <;> rfl)
      | (rw [(getPrefixLength_fst _ _).2.2.1]; split <;> rfl)
      | (rw [(getPrefixLength_fst _ _).2.2.2]; split <;> rfl)
      | rfl

theorem rel_delete (A B : CRDTDocument) (h : Rel A B) (g : GlobalId) :
    Rel (delete A g).1 (delete B g).1 ∧
      ((delete A g).2.isSome ↔ (delete B g).2.isSome) := by
  obtain ⟨he, ho, hm, hl⟩ := h
  by_cases hdup : (⟨.del, g.siteId, g.counter⟩ : OpKey) ∈ A.appliedOps
  · have hdupB : (⟨.del, g.siteId, g.counter⟩ : OpKey) ∈ B.appliedOps := by
      rw [← ho]; exact hdup
    simp only [delete, hdup, hdupB, if_true, ite_true]
    exact ⟨⟨he, ho, by rw [hm], hl⟩, by simp⟩
  · have hdupB : (⟨.del, g.siteId, g.counter⟩ : OpKey) ∉ B.appliedOps := by
      rw [← ho]; exact hdup
    have hrel0 : Rel { A with maxCounter := max A.maxCounter g.counter }
        { B with maxCounter := max B.maxCounter g.counter } :=
      ⟨he, ho, by rw [hm], hl⟩
    obtain ⟨hsnd, hrel1⟩ := rel_findGid _ _ hrel0 g
    rcases hfa : findGid { A with maxCounter := max A.maxCounter g.counter } g
        with ⟨A1, _ | pa⟩ <;>
      rcases hfb : findGid { B with maxCounter := max B.maxCounter g.counter } g
          with ⟨B1, _ | pb⟩ <;>
        rw [hfa, hfb] at hsnd hrel1 <;> dsimp only at hsnd hrel1
    · simp only [delete, hdup, hdupB, if_false, ite_false, hfa, hfb]
      exact ⟨hrel1, by simp⟩
    · cases hsnd
    · cases hsnd
    · have hpp : pa = pb := by simpa using hsnd
      subst hpp
      obtain ⟨ha1, ha2, ha3, ha4, ha5⟩ := delete_fst_fields A g hdup A1 pa hfa
      obtain ⟨hb1, hb2, hb3, hb4, hb5⟩ := delete_fst_fields B g hdupB B1 pa hfb
      refine ⟨⟨?_, ?_, ?_, ?_⟩, iff_of_true ha5 hb5⟩
      · rw [ha1, hb1, hrel1.1]
      · rw [ha2, hb2, hrel1.2.1]
      · rw [ha3, hb3, hrel1.2.2.1]
      · rw [ha4, hb4, hrel1.2.2.2]

end CRDTDocument

namespace CRDTDocument

theorem rel_insert (A B : CRDTDocument) (h : Rel A B)
    (ch : Option (List Char)) (g : GlobalId) (ag : Option GlobalId) :
    Rel (insert A ch g ag).1 (insert B ch g ag).1 ∧
      ((insert A ch g ag).2.isSome ↔ (insert B ch g ag).2.isSome) := by
  obtain ⟨he, ho, hm, hl⟩ := h
  by_cases hdup : (⟨.ins, g.siteId, g.counter⟩ : OpKey) ∈ A.appliedOps
  · have hdupB : (⟨.ins, g.siteId, g.counter⟩ : OpKey) ∈ B.appliedOps := by
      rw [← ho]; exact hdup
    simp only [insert, hdup, hdupB, if_true, ite_true]
    exact ⟨⟨he, ho, by rw [hm], hl⟩, by simp⟩
  · have hdupB : (⟨.ins, g.siteId, g.counter⟩ : OpKey) ∉ B.appliedOps := by
      rw [← ho]; exact hdup
    have hrel0 : Rel { A with maxCounter := max A.maxCounter g.counter }
        { B with maxCounter := max B.maxCounter g.counter } :=
      ⟨he, ho, by rw [hm], hl⟩
    rcases ch with _ | ⟨_ | ⟨c, _ | ⟨c2, cs⟩⟩⟩
    · simp only [insert, hdup, hdupB, if_false, ite_false]
      exact ⟨hrel0, by simp⟩
    · simp only [insert, hdup, hdupB, if_false, ite_false]
      exact ⟨hrel0, by simp⟩
    · rcases ag with _ | a
      · simp only [insert, hdup, hdupB, if_false, ite_false]
        obtain ⟨hr, hsa, hsb⟩ := rel_insertCore _ _ hrel0 c g 0
        exact ⟨hr, iff_of_true hsa hsb⟩
      · obtain ⟨hsnd, hrel1⟩ := rel_findGid _ _ hrel0 a
        rcases hfa : findGid { A with maxCounter := max A.maxCounter g.counter }
            a with ⟨A1, _ | pa⟩ <;>
          rcases hfb : findGid { B with maxCounter := max B.maxCounter g.counter }
              a with ⟨B1, _ | pb⟩ <;>
            rw [hfa, hfb] at hsnd hrel1 <;> dsimp only at hsnd hrel1
        · simp only [insert, hdup, hdupB, if_false, ite_false, hfa, hfb]
          exact ⟨hrel1, by simp⟩
        · cases hsnd
        · cases hsnd
        · have hpp : pa = pb := by simpa using hsnd
          subst hpp
          simp only [insert, hdup, hdupB, if_false, ite_false, hfa, hfb]
          obtain ⟨hr, hsa, hsb⟩ := rel_insertCore _ _ hrel1 c g (pa + 1)
          exact ⟨hr, iff_of_true hsa hsb⟩
    · simp only [insert, hdup, hdupB, if_false, ite_false]
      exact ⟨hrel0, by simp⟩

end CRDTDocument

namespace CRDTDocument

theorem applyEvent_del_ev (B : CRDTDocument) (g : GlobalId) :
    applyEvent B ⟨"delete", g, none, none⟩ = delete B g := rfl

theorem applyEvent_ins_ev (B : CRDTDocument) (g : GlobalId)
    (ch : Option (List Char)) (ag : Option GlobalId) :
    applyEvent B ⟨"insert", g, ch, ag⟩ = insert B ch g ag := rfl

theorem applyEventsGo_append (L1 L2 : List CRDTEvent) :
    ∀ (B B1 : CRDTDocument) (us1 : List PlainUpdate),
      applyEventsGo B L1 = (B1, some us1) →
      ∀ (B2 : CRDTDocument) (us2 : List PlainUpdate),
        applyEventsGo B1 L2 = (B2, some us2) →
        applyEventsGo B (L1 ++ L2) = (B2, some (us1 ++ us2)) := by
  induction L1 with
  | nil =>
    intro B B1 us1 h1 B2 us2 h2
    rw [applyEventsGo, Prod.mk.injEq, Option.some.injEq] at h1
    obtain ⟨hB, hus⟩ := h1
    subst hB
    subst hus
    rw [List.nil_append]
    simpa using h2
  | cons ev rest ih =>
    intro B B1 us1 h1 B2 us2 h2
    rw [applyEventsGo] at h1
    rcases hev : applyEvent B ev with ⟨Bx, _ | ux⟩ <;> simp only [hev] at h1
    · exact absurd (congrArg Prod.snd h1) (by simp)
    · rcases hgo : applyEventsGo Bx rest with ⟨By, _ | uy⟩ <;>
        simp only [hgo] at h1
      · exact absurd (congrArg Prod.snd h1) (by simp)
      · rw [Prod.mk.injEq, Option.some.injEq] at h1
        obtain ⟨hB, hus⟩ := h1
        subst hB
        subst hus
        rw [List.cons_append, applyEventsGo]
        simp only [hev]
        rw [ih Bx By uy hgo B2 us2 h2]
        rw [List.append_assoc]

theorem delLoop_replay : ∀ (fuel : Nat) (A : CRDTDocument) (i removed : Nat)
    (acc : List CRDTEvent) (A1 : CRDTDocument) (rem : Nat)
    (acc1 : List CRDTEvent),
    delLoop A i removed acc fuel = (A1, rem, some acc1) →
    ∀ B : CRDTDocument, Rel A B →
      ∃ (evs : List CRDTEvent) (B1 : CRDTDocument) (us : List PlainUpdate),
        acc1 = acc ++ evs ∧ applyEventsGo B evs = (B1, some us) ∧
          Rel A1 B1 := by
  intro fuel
  induction fuel with
  | zero =>
    intro A i removed acc A1 rem acc1 h B hrel
    rw [delLoop, Prod.mk.injEq, Prod.mk.injEq, Option.some.injEq] at h
    obtain ⟨hA, -, hacc⟩ := h
    subst hA
    subst hacc
    exact ⟨[], B, [], by simp, rfl, hrel⟩
  | succ fuel ih =>
    intro A i removed acc A1 rem acc1 h B hrel
    rw [delLoop] at h
    by_cases hcond : i < A.entries.length ∧ 0 < removed
    · rw [if_pos hcond] at h
      rcases hget : A.entries[i]? with _ | e <;> simp only [hget] at h
      · exact absurd (congrArg (fun p => p.2.2) h) (by simp)
      · by_cases hviz : e.visible = true
        · rw [if_pos hviz] at h
          rcases hdel : delete A e.gid with ⟨Ad, _ | du⟩ <;>
            simp only [hdel] at h
          · exact absurd (congrArg (fun p => p.2.2) h) (by simp)
          · obtain ⟨hrelDel, hiff⟩ := rel_delete A B hrel e.gid
            rw [hdel] at hrelDel hiff
            rcases hdelB : delete B e.gid with ⟨Bd, _ | usd⟩ <;>
              rw [hdelB] at hrelDel hiff
            · exact absurd (hiff.mp rfl) (by simp)
            · obtain ⟨evs, B1, us, hacc, hgo, hrel1⟩ :=
                ih Ad (i + 1) (removed - 1)
                  (acc ++ [⟨"delete", e.gid, none, none⟩]) A1 rem acc1 h
                  Bd hrelDel
              refine ⟨⟨"delete", e.gid, none, none⟩ :: evs, B1, usd ++ us,
                ?_, ?_, hrel1⟩
              · rw [hacc]
                simp
              · rw [applyEventsGo, applyEvent_del_ev]
                simp only [hdelB, hgo]
        · rw [if_neg hviz] at h
          exact ih A (i + 1) removed acc A1 rem acc1 h B hrel
    · rw [if_neg hcond, Prod.mk.injEq, Prod.mk.injEq,
        Option.some.injEq] at h
      obtain ⟨hA, -, hacc⟩ := h
      subst hA
      subst hacc
      exact ⟨[], B, [], by simp, rfl, hrel⟩

theorem insLoop_replay : ∀ (v : List Char) (A : CRDTDocument) (idx : Int)
    (siteId : Nat) (acc : List CRDTEvent) (A1 : CRDTDocument)
    (acc1 : List CRDTEvent),
    insLoop A idx siteId acc v = (A1, some acc1) →
    ∀ B : CRDTDocument, Rel A B →
      ∃ (evs : List CRDTEvent) (B1 : CRDTDocument) (us : List PlainUpdate),
        acc1 = acc ++ evs ∧ applyEventsGo B evs = (B1, some us) ∧
          Rel A1 B1 := by
  intro v
  induction v with
  | nil =>
    intro A idx siteId acc A1 acc1 h B hrel
    rw [insLoop, Prod.mk.injEq, Option.some.injEq] at h
    obtain ⟨hA, hacc⟩ := h
    subst hA
    subst hacc
    exact ⟨[], B, [], by simp, rfl, hrel⟩
  | cons c rest ih =>
    intro A idx siteId acc A1 acc1 h B hrel
    rw [insLoop] at h
    by_cases hag : (entryGidAt A idx).2 = true
    · rw [if_pos hag] at h
      rcases hins : insert A (some [c]) ⟨A.maxCounter + 1, siteId⟩
          (entryGidAt A idx).1 with ⟨Ax, _ | ⟨_ | ⟨u, ux⟩⟩⟩ <;>
        simp only [hins] at h
      · exact absurd (congrArg Prod.snd h) (by simp)
      · exact absurd (congrArg Prod.snd h) (by simp)
      · obtain ⟨hrelIns, hiff⟩ :=
          rel_insert A B hrel (some [c]) ⟨A.maxCounter + 1, siteId⟩
            (entryGidAt A idx).1
        rw [hins] at hrelIns hiff
        rcases hinsB : insert B (some [c]) ⟨A.maxCounter + 1, siteId⟩
            (entryGidAt A idx).1 with ⟨Bx, _ | usi⟩ <;>
          rw [hinsB] at hrelIns hiff
        · exact absurd (hiff.mp rfl) (by simp)
        · obtain ⟨evs, B1, us, hacc, hgo, hrel1⟩ :=
            ih Ax (idx + 1) siteId
              (acc ++ [⟨"insert", ⟨A.maxCounter + 1, siteId⟩, some [c],
                (entryGidAt A idx).1⟩]) A1 acc1 h
              Bx hrelIns
          refine ⟨⟨"insert", ⟨A.maxCounter + 1, siteId⟩, some [c],
            (entryGidAt A idx).1⟩ :: evs, B1, usi ++ us, ?_, ?_, hrel1⟩
          · rw [hacc]
            simp
          · rw [applyEventsGo, applyEvent_ins_ev]
            simp only [hinsB, hgo]
    · rw [if_neg hag] at h
      exact absurd (congrArg Prod.snd h) (by simp)

end CRDTDocument

namespace CRDTDocument

theorem rel_getPosition_fst (d : CRDTDocument) (pl : Nat) :
    Rel (getPosition d pl).1 d := by
  rw [getPosition]
  split <;> split <;> exact ⟨rfl, rfl, rfl, rfl⟩

end CRDTDocument

/-- C3: every plain edit issued locally through `applyPlainUpdate` round
trips: a second replica in the same state as the editing replica was in
before the edit, fed the returned operations through `applyEvents`, ends
with the same visible text as the editing replica. -/
theorem C3_round_trip (d : CRDTDocument) (f t : Nat) (value : List Char)
    (siteId : Nat) (d' : CRDTDocument) (evs : List CRDTEvent)
    (h : d.applyPlainUpdate f t value siteId = (d', some evs)) :
    ∃ (d2 : CRDTDocument) (us : List PlainUpdate),
      d.applyEvents evs = (d2, some us) ∧ d2.getText = d'.getText := by
  rw [CRDTDocument.applyPlainUpdate] at h
  rcases hgp : CRDTDocument.getPosition d f with ⟨d0, _ | position⟩ <;>
    simp only [hgp] at h
  · exact absurd (congrArg Prod.snd h) (by simp)
  · have hrel0 : CRDTDocument.Rel d0 d := by
      have hq := CRDTDocument.rel_getPosition_fst d f
      rw [hgp] at hq
      exact hq
    rcases hdl : CRDTDocument.delLoop d0 position (t - f) []
        (d0.entries.length - position) with ⟨d1, remaining, _ | acc⟩ <;>
      simp only [hdl] at h
    · exact absurd (congrArg Prod.snd h) (by simp)
    · by_cases hrem : 0 < remaining
      · rw [if_pos hrem] at h
        exact absurd (congrArg Prod.snd h) (by simp)
      · rw [if_neg hrem] at h
        obtain ⟨evsD, B1, us1, haccD, hgo1, hrel1⟩ :=
          CRDTDocument.delLoop_replay _ d0 position (t - f) [] d1 remaining
            acc hdl d hrel0
        obtain ⟨evsI, B2, us2, haccI, hgo2, hrel2⟩ :=
          CRDTDocument.insLoop_replay value d1 ((position : Int) - 1) siteId
            acc d' evs h B1 hrel1
        rw [haccD, List.nil_append] at haccI
        have hgoAll := CRDTDocument.applyEventsGo_append evsD evsI d B1 us1
          hgo1 B2 us2 hgo2
        refine ⟨B2, compactPlainUpdates (us1 ++ us2), ?_, ?_⟩
        · rw [CRDTDocument.applyEvents, haccI]
          simp only [hgoAll]
        · rw [CRDTDocument.getText, CRDTDocument.getText, hrel2.1]

theorem C3_witness :
    ∃ (d2 : CRDTDocument) (us : List PlainUpdate),
      CRDTDocument.new.applyEvents
        [⟨"insert", ⟨1, 5⟩, some ['h'], none⟩,
         ⟨"insert", ⟨2, 5⟩, some ['i'], some ⟨1, 5⟩⟩] = (d2, some us) ∧
      d2.getText =
        ((CRDTDocument.new.applyPlainUpdate 0 0 ['h', 'i'] 5).1).getText :=
  C3_round_trip CRDTDocument.new 0 0 ['h', 'i'] 5
    (CRDTDocument.new.applyPlainUpdate 0 0 ['h', 'i'] 5).1
    [⟨"insert", ⟨1, 5⟩, some ['h'], none⟩,
     ⟨"insert", ⟨2, 5⟩, some ['i'], some ⟨1, 5⟩⟩]
    (by decide)

/-- The position cache is consistent: it points into the entry list and
records the visible length of the prefix it points at. -/
def CacheInv (d : CRDTDocument) : Prop :=
  d.cachedPosition ≤ d.entries.length ∧
    d.cachedLength = CRDTDocument.countVis (d.entries.take d.cachedPosition)

/-- Every counter recorded in the applied-operation set is bounded by
`maxCounter`. -/
def CounterInv (d : CRDTDocument) : Prop :=
  ∀ k ∈ d.appliedOps, k.counter ≤ d.maxCounter

instance (d : CRDTDocument) : Decidable (CacheInv d) := by
  unfold CacheInv
  infer_instance

instance (d : CRDTDocument) : Decidable (CounterInv d) := by
  unfold CounterInv
  infer_instance

/-- Tombstone the first `r` visible entries of a list. -/
def tombN : Nat → List CharEntry → List CharEntry
  | 0, l => l
  | _ + 1, [] => []
  | r + 1, x :: xs =>
    if x.visible then { x with visible := false } :: tombN r xs
    else x :: tombN (r + 1) xs

/-- The visible text carried by an entry list. -/
def visText (l : List CharEntry) : List Char :=
  (l.filter (·.visible)).map (·.c)

theorem getText_eq_visText (d : CRDTDocument) :
    d.getText = visText d.entries := rfl

theorem visText_append (a b : List CharEntry) :
    visText (a ++ b) = visText a ++ visText b := by
  unfold visText
  rw [List.filter_append, List.map_append]

theorem length_visText (l : List CharEntry) :
    (visText l).length = CRDTDocument.countVis l := by
  unfold visText CRDTDocument.countVis
  rw [List.length_map, List.countP_eq_length_filter]

theorem visText_cons (y : CharEntry) (ys : List CharEntry) :
    visText (y :: ys) =
      if y.visible then y.c :: visText ys else visText ys := by
  unfold visText
  by_cases h : y.visible <;> simp [h]

theorem visText_tombN : ∀ (l : List CharEntry) (r : Nat),
    visText (tombN r l) = (visText l).drop r := by
  intro l
  induction l with
  | nil =>
    intro r
    rcases r with _ | r <;> rfl
  | cons x xs ih =>
    intro r
    rcases r with _ | r
    · rfl
    · rw [tombN]
      by_cases hv : x.visible = true
      · rw [if_pos hv, visText_cons, visText_cons]
        simp only [hv, if_true, ite_true, if_false, ite_false,
          Bool.false_eq_true]
        rw [ih r, List.drop_succ_cons]
      · rw [if_neg hv, visText_cons, visText_cons]
        simp only [hv, if_false, ite_false, Bool.false_eq_true]
        exact ih (r + 1)

theorem countVis_take_add_drop (l : List CharEntry) (p : Nat) :
    CRDTDocument.countVis (l.take p) + CRDTDocument.countVis (l.drop p) =
      CRDTDocument.countVis l := by
  unfold CRDTDocument.countVis
  rw [← List.countP_append, List.take_append_drop]

theorem countVis_take_le (l : List CharEntry) (p : Nat) :
    CRDTDocument.countVis (l.take p) ≤ CRDTDocument.countVis l := by
  have := countVis_take_add_drop l p
  omega

theorem skipW_max (l : List CharEntry) (g : GlobalId)
    (h : ∀ e ∈ l, e.gid.counter < g.counter) (q : Nat) :
    CRDTDocument.skipW l g q = q := by
  rw [CRDTDocument.skipW]
  generalize l.length - q = fuel
  cases fuel with
  | zero => rfl
  | succ fuel =>
    rw [CRDTDocument.skipWAux]
    rcases hq : l[q]? with _ | e
    · rfl
    · dsimp only
      rw [if_neg]
      intro hc
      have hlt := (GlobalId.compare_pos_iff e.gid g).mp hc
      have he := h e (List.getElem?_mem hq)
      unfold GlobalId.lt at hlt
      omega

theorem insBody_max (e : CharEntry) (l : List CharEntry)
    (h : ∀ x ∈ l, x.gid.counter < e.gid.counter) :
    insBody e l = e :: l := by
  cases l with
  | nil => rfl
  | cons x xs =>
    rw [insBody_cons_ge]
    intro hc
    have hx := h x (List.mem_cons_self _ _)
    unfold GlobalId.lt at hc
    omega

theorem fresh_gid (d : CRDTDocument) (hs : Sync d) (hci : CounterInv d)
    (s : Nat) :
    (⟨d.maxCounter + 1, s⟩ : GlobalId) ∉ gids d.entries := by
  intro hm
  rcases List.mem_map.mp hm with ⟨x, hx, hxg⟩
  have hk := hs.2.2.1 x hx
  have hb := hci _ hk
  have : x.gid.counter = d.maxCounter + 1 := by rw [hxg]
  simp only [this] at hb
  omega

theorem entry_counter_le (d : CRDTDocument) (hs : Sync d)
    (hci : CounterInv d) (x : CharEntry) (hx : x ∈ d.entries) :
    x.gid.counter ≤ d.maxCounter :=
  hci _ (hs.2.2.1 x hx)

namespace CRDTDocument

theorem insert_appliedOps_sub (d : CRDTDocument) (ch : Option (List Char))
    (g : GlobalId) (ag : Option GlobalId) (k : OpKey)
    (hk : k ∈ ((insert d ch g ag).1).appliedOps) :
    k ∈ d.appliedOps ∨ k = (⟨.ins, g.siteId, g.counter⟩ : OpKey) := by
  by_cases hdup : (⟨.ins, g.siteId, g.counter⟩ : OpKey) ∈ d.appliedOps
  · simp only [insert, hdup, ite_true] at hk
    exact Or.inl hk
  · rcases ch with _ | ⟨_ | ⟨c, _ | ⟨c2, l⟩⟩⟩ <;>
      simp only [insert, hdup, ite_false] at hk
    · exact Or.inl hk
    · exact Or.inl hk
    · rcases ag with _ | a
      · rw [(insertCore_fields _ c g 0).2.1] at hk
        rcases List.mem_cons.mp hk with rfl | hk
        · exact Or.inr rfl
        · exact Or.inl hk
      · rcases hf : findGid { d with maxCounter := max d.maxCounter g.counter }
            a with ⟨d1, _ | p⟩ <;> simp only [hf] at hk
        · have hops := (findGid_fst
            { d with maxCounter := max d.maxCounter g.counter } a).2.1
          rw [hf] at hops
          rw [hops] at hk
          exact Or.inl hk
        · rw [(insertCore_fields d1 c g (p + 1)).2.1] at hk
          rcases List.mem_cons.mp hk with rfl | hk
          · exact Or.inr rfl
          · have hops := (findGid_fst
              { d with maxCounter := max d.maxCounter g.counter } a).2.1
            rw [hf] at hops
            rw [hops] at hk
            exact Or.inl hk
    · exact Or.inl hk

theorem delete_appliedOps_sub (d : CRDTDocument) (g : GlobalId) (k : OpKey)
    (hk : k ∈ ((delete d g).1).appliedOps) :
    k ∈ d.appliedOps ∨ k = (⟨.del, g.siteId, g.counter⟩ : OpKey) := by
  by_cases hdup : (⟨.del, g.siteId, g.counter⟩ : OpKey) ∈ d.appliedOps
  · simp only [delete, hdup, ite_true] at hk
    exact Or.inl hk
  · rcases hf : findGid { d with maxCounter := max d.maxCounter g.counter }
        g with ⟨d1, _ | p⟩ <;> simp only [delete, hdup, ite_false, hf] at hk
    · have hops := (findGid_fst
        { d with maxCounter := max d.maxCounter g.counter } g).2.1
      rw [hf] at hops
      rw [hops] at hk
      exact Or.inl hk
    · rw [(getPrefixLength_fst _ _).2.1] at hk
      have hops := (findGid_fst
        { d with maxCounter := max d.maxCounter g.counter } g).2.1
      rw [hf] at hops
      split at hk <;>
        (rcases List.mem_cons.mp hk with rfl | hk
         · exact Or.inr rfl
         · rw [hops] at hk
           exact Or.inl hk)

theorem insert_counterInv (d : CRDTDocument) (ch : Option (List Char))
    (g : GlobalId) (ag : Option GlobalId) (hci : CounterInv d) :
    CounterInv ((insert d ch g ag).1) := by
  intro k hk
  rw [insert_fst_maxCounter]
  rcases insert_appliedOps_sub d ch g ag k hk with h | rfl
  · exact le_trans (hci k h) (Nat.le_max_left _ _)
  · exact Nat.le_max_right _ _

theorem delete_counterInv (d : CRDTDocument) (g : GlobalId)
    (hci : CounterInv d) :
    CounterInv ((delete d g).1) := by
  intro k hk
  rw [delete_fst_maxCounter]
  rcases delete_appliedOps_sub d g k hk with h | rfl
  · exact le_trans (hci k h) (Nat.le_max_left _ _)
  · exact Nat.le_max_right _ _

end CRDTDocument

namespace CRDTDocument

theorem countVis_take_succ (l : List CharEntry) (s : Nat) (e : CharEntry)
    (hget : l[s]? = some e) :
    countVis (l.take (s + 1)) =
      countVis (l.take s) + (if e.visible then 1 else 0) := by
  obtain ⟨hlt, heq⟩ := List.getElem?_eq_some.mp hget
  rw [← List.take_concat_get' l s hlt]
  unfold countVis
  rw [List.countP_append]
  congr 1
  rw [List.countP_cons, List.countP_nil, heq]
  by_cases hv : e.visible <;> simp [hv]

theorem posScanAux_spec (l : List CharEntry) (f : Nat) :
    ∀ (fuel s lv : Nat), lv = countVis (l.take s) → s ≤ l.length →
      lv ≤ f → l.length - s ≤ fuel →
      (posScanAux l f fuel s lv).2 =
          countVis (l.take (posScanAux l f fuel s lv).1) ∧
        s ≤ (posScanAux l f fuel s lv).1 ∧
        (posScanAux l f fuel s lv).1 ≤ l.length ∧
        ((posScanAux l f fuel s lv).2 = f ∨
          ((posScanAux l f fuel s lv).1 = l.length ∧
            (posScanAux l f fuel s lv).2 < f)) := by
  intro fuel
  induction fuel with
  | zero =>
    intro s lv hlv hs hle hfuel
    rw [posScanAux]
    refine ⟨hlv, le_refl s, hs, ?_⟩
    rcases Nat.lt_or_ge lv f with h | h
    · exact Or.inr ⟨by omega, h⟩
    · exact Or.inl (by omega)
  | succ fuel ih =>
    intro s lv hlv hs hle hfuel
    rw [posScanAux]
    by_cases hcond : lv < f
    · rw [if_pos hcond]
      rcases hget : l[s]? with _ | e <;> simp only [hget]
      · have hlen : l.length ≤ s := List.getElem?_eq_none_iff.mp hget
        exact ⟨hlv, le_refl s, hs, Or.inr ⟨by omega, hcond⟩⟩
      · have hslen : s < l.length := (List.getElem?_eq_some.mp hget).1
        have hstep : (if e.visible then lv + 1 else lv) =
            countVis (l.take (s + 1)) := by
          rw [countVis_take_succ l s e hget, ← hlv]
          by_cases hv : e.visible <;> simp [hv]
        have hle' : (if e.visible then lv + 1 else lv) ≤ f := by
          split <;> omega
        obtain ⟨h1, h2, h3, h4⟩ := ih (s + 1) (if e.visible then lv + 1 else lv)
          hstep (by omega) hle' (by omega)
        exact ⟨h1, le_trans (Nat.le_succ s) h2, h3, h4⟩
    · rw [if_neg hcond]
      exact ⟨hlv, le_refl s, hs, Or.inl (by omega)⟩

theorem getPosition_spec (d : CRDTDocument) (f : Nat) (hc : CacheInv d) :
    (f ≤ countVis d.entries →
      ∃ p, getPosition d f =
          ({ d with cachedPosition := p, cachedLength := f }, some p) ∧
        countVis (d.entries.take p) = f ∧ p ≤ d.entries.length) ∧
    (countVis d.entries < f → getPosition d f = (d, none)) := by
  obtain ⟨hcp, hcl⟩ := hc
  have hstp : ∃ s lv,
      (if d.cachedLength ≤ f then (d.cachedPosition, d.cachedLength)
        else ((0 : Nat), (0 : Nat))) = (s, lv) ∧
      lv = countVis (d.entries.take s) ∧ s ≤ d.entries.length ∧ lv ≤ f := by
    by_cases hst : d.cachedLength ≤ f
    · exact ⟨d.cachedPosition, d.cachedLength, by rw [if_pos hst], hcl,
        hcp, hst⟩
    · exact ⟨0, 0, by rw [if_neg hst], by rw [List.take_zero]; rfl,
        Nat.zero_le _, Nat.zero_le _⟩
  obtain ⟨s, lv, hst, hlv, hsb, hlef⟩ := hstp
  obtain ⟨h1, h2, h3, h4⟩ := posScanAux_spec d.entries f
    (d.entries.length - s) s lv hlv hsb hlef (le_refl _)
  rcases hout : posScanAux d.entries f (d.entries.length - s) s lv
    with ⟨p, plen⟩
  rw [hout] at h1 h2 h3 h4
  dsimp only at h1 h2 h3 h4
  constructor
  · intro hf
    have hplen : plen = f := by
      rcases h4 with h | ⟨hpl, hlt⟩
      · exact h
      · rw [hpl, List.take_length] at h1
        omega
    refine ⟨p, ?_, by rw [← h1, hplen], h3⟩
    rw [getPosition]
    simp only [hst, posScan, hout]
    rw [if_neg (by simp [hplen])]
    rw [hplen]
  · intro hf
    have hplen : plen < f := by
      have := countVis_take_le d.entries p
      omega
    rw [getPosition]
    simp only [hst, posScan, hout]
    rw [if_pos (by simp; omega)]

end CRDTDocument

theorem tombN_nil : ∀ r : Nat, tombN r [] = [] := by
  rintro (_ | r) <;> rfl

theorem countVis_cons (x : CharEntry) (xs : List CharEntry) :
    CRDTDocument.countVis (x :: xs) =
      CRDTDocument.countVis xs + (if x.visible then 1 else 0) := by
  unfold CRDTDocument.countVis
  rw [List.countP_cons]

namespace CRDTDocument

theorem gid_index_unique (l : List CharEntry) (hn : (gids l).Nodup)
    (j p : Nat) (a b : CharEntry) (hj : l[j]? = some a) (hp : l[p]? = some b)
    (hab : a.gid = b.gid) : j = p := by
  obtain ⟨hjl, hja⟩ := List.getElem?_eq_some.mp hj
  have hjl' : j < (gids l).length := by
    unfold gids
    rw [List.length_map]
    exact hjl
  have h1 : (gids l)[j]? = some a.gid := by
    unfold gids
    rw [List.getElem?_map, hj]
    rfl
  have h2 : (gids l)[p]? = some b.gid := by
    unfold gids
    rw [List.getElem?_map, hp]
    rfl
  exact List.getElem?_inj hjl' hn (by rw [h1, h2, hab])

theorem setInvisible_eq (l : List CharEntry) :
    ∀ (p : Nat) (e : CharEntry), l[p]? = some e →
      setInvisible l p =
        l.take p ++ { e with visible := false } :: l.drop (p + 1) := by
  induction l with
  | nil => intro p e h; cases h
  | cons x xs ih =>
    intro p e h
    rcases p with _ | p
    · rw [List.getElem?_cons_zero] at h
      cases h
      rfl
    · rw [List.getElem?_cons_succ] at h
      rw [setInvisible, ih p e h]
      rfl

/-- Deleting the (unique, visible) entry at index `p` succeeds and
tombstones exactly that index. -/
theorem delete_at_index (d : CRDTDocument) (p : Nat) (e : CharEntry)
    (hs : Sync d) (hget : d.entries[p]? = some e) (hviz : e.visible = true) :
    ∃ (d1 : CRDTDocument) (us : List PlainUpdate),
      delete d e.gid = (d1, some us) ∧
      d1.entries = setInvisible d.entries p ∧ Sync d1 := by
  have hdup : (⟨.del, e.gid.siteId, e.gid.counter⟩ : OpKey) ∉ d.appliedOps := by
    intro hk
    obtain ⟨e', he', hg', hv'⟩ := hs.2.2.2.1 _ hk rfl
    have hg'' : e'.gid = e.gid := hg'
    have hee : e' = e := List.inj_on_of_nodup_map hs.1 he'
      (List.getElem?_mem hget) hg''
    rw [hee, hviz] at hv'
    cases hv'
  obtain ⟨j, e', hfg, hget', hgid'⟩ := findGid_complete
    { d with maxCounter := max d.maxCounter e.gid.counter } e.gid
    (List.mem_map.mpr ⟨e, List.getElem?_mem hget, rfl⟩)
  have hj : j = p := gid_index_unique d.entries hs.1 j p e' e hget' hget hgid'
  subst hj
  obtain ⟨h1, h2, h3, h4, h5⟩ := delete_fst_fields d e.gid hdup _ j hfg
  obtain ⟨us, hus⟩ := Option.isSome_iff_exists.mp h5
  have hd : delete d e.gid = ((delete d e.gid).1, some us) := by
    rw [← hus]
  refine ⟨(delete d e.gid).1, us, hd, h1, ?_⟩
  exact (sim_delete d ⟨"delete", e.gid, none, none⟩ rfl hs
    (delete d e.gid).1 us hd).2

end CRDTDocument

namespace CRDTDocument

/-- The delete loop of `applyPlainUpdate`: starting at index `p` it
tombstones the first `r` visible entries, never fails, and reports how many
deletions could not be performed. -/
theorem delLoop_spec : ∀ (fuel : Nat) (d : CRDTDocument) (p r : Nat)
    (acc : List CRDTEvent),
    Sync d → CounterInv d → d.entries.length - p ≤ fuel →
    ∃ (d1 : CRDTDocument) (acc1 : List CRDTEvent),
      delLoop d p r acc fuel =
        (d1, r - countVis (d.entries.drop p), some acc1) ∧
      d1.entries = d.entries.take p ++ tombN r (d.entries.drop p) ∧
      Sync d1 ∧ CounterInv d1 := by
  intro fuel
  induction fuel with
  | zero =>
    intro d p r acc hs hci hfuel
    have hp : d.entries.length ≤ p := by omega
    refine ⟨d, acc, ?_, ?_, hs, hci⟩
    · rw [delLoop, List.drop_eq_nil_of_le hp]
      rfl
    · rw [List.drop_eq_nil_of_le hp, List.take_all_of_le hp, tombN_nil,
        List.append_nil]
  | succ fuel ih =>
    intro d p r acc hs hci hfuel
    rw [delLoop]
    by_cases hcond : p < d.entries.length ∧ 0 < r
    · rw [if_pos hcond]
      rcases hget : d.entries[p]? with _ | e <;> simp only [hget]
      · exfalso
        have := List.getElem?_eq_none_iff.mp hget
        omega
      · have hdropp : d.entries.drop p = e :: d.entries.drop (p + 1) := by
          obtain ⟨hlt, heq⟩ := List.getElem?_eq_some.mp hget
          rw [List.drop_eq_getElem_cons hlt, heq]
        have htklen : (d.entries.take p).length = p :=
          List.length_take_of_le (le_of_lt hcond.1)
        by_cases hviz : e.visible = true
        · rw [if_pos hviz]
          obtain ⟨d1, us, hdel, hent, hsync1⟩ :=
            delete_at_index d p e hs hget hviz
          simp only [hdel]
          have hci1 : CounterInv d1 := by
            have hq := delete_counterInv d e.gid hci
            rw [hdel] at hq
            exact hq
          have hent1 : d1.entries = d.entries.take p ++
              { e with visible := false } :: d.entries.drop (p + 1) := by
            rw [hent, setInvisible_eq d.entries p e hget]
          have hlen1 : d1.entries.length = d.entries.length := by
            rw [hent, length_setInvisible]
          have htk1 : d1.entries.take (p + 1) = d.entries.take p ++
              [{ e with visible := false }] := by
            rw [hent1]
            have hq := @List.take_append CharEntry (d.entries.take p)
              ({ e with visible := false } :: d.entries.drop (p + 1)) 1
            rw [htklen] at hq
            rw [hq]
            rfl
          have hdr1 : d1.entries.drop (p + 1) = d.entries.drop (p + 1) := by
            rw [hent1]
            have hq := @List.drop_append CharEntry (d.entries.take p)
              ({ e with visible := false } :: d.entries.drop (p + 1)) 1
            rw [htklen] at hq
            rw [hq]
            rfl
          obtain ⟨d2, acc2, hrec, hent2, hsync2, hci2⟩ :=
            ih d1 (p + 1) (r - 1) (acc ++ [⟨"delete", e.gid, none, none⟩])
              hsync1 hci1 (by rw [hlen1]; omega)
          refine ⟨d2, acc2, ?_, ?_, hsync2, hci2⟩
          · rw [hrec, hdr1]
            have hcv : countVis (d.entries.drop p) =
                countVis (d.entries.drop (p + 1)) + 1 := by
              rw [hdropp, countVis_cons, if_pos hviz]
            rw [hcv, show r - 1 - countVis (d.entries.drop (p + 1)) =
              r - (countVis (d.entries.drop (p + 1)) + 1) from by omega]
          · rw [hent2, htk1, hdr1, hdropp]
            have hrr : r = (r - 1) + 1 := by omega
            rw [hrr, tombN, if_pos hviz, List.append_assoc]
            rw [← hrr]
            rfl
        · rw [if_neg hviz]
          obtain ⟨d2, acc2, hrec, hent2, hsync2, hci2⟩ :=
            ih d (p + 1) r acc hs hci (by omega)
          refine ⟨d2, acc2, ?_, ?_, hsync2, hci2⟩
          · rw [hrec]
            have hcv : countVis (d.entries.drop p) =
                countVis (d.entries.drop (p + 1)) := by
              rw [hdropp, countVis_cons, if_neg hviz]
              omega
            rw [hcv]
          · rw [hent2, hdropp]
            have hrr : r = (r - 1) + 1 := by omega
            rw [hrr, tombN, if_neg hviz]
            have htk : d.entries.take (p + 1) = d.entries.take p ++ [e] := by
              obtain ⟨hlt, heq⟩ := List.getElem?_eq_some.mp hget
              rw [← List.take_concat_get' d.entries p hlt, heq]
            rw [htk, List.append_assoc, ← hrr]
            rfl
    · rw [if_neg hcond]
      push_neg at hcond
      refine ⟨d, acc, ?_, ?_, hs, hci⟩
      · rcases Nat.lt_or_ge p d.entries.length with hp | hp
        · have hr : r = 0 := by omega
          subst hr
          rw [Nat.zero_sub]
        · rw [List.drop_eq_nil_of_le hp]
          rfl
      · rcases Nat.lt_or_ge p d.entries.length with hp | hp
        · have hr : r = 0 := by omega
          subst hr
          rw [tombN, List.take_append_drop]
        · rw [List.drop_eq_nil_of_le hp, List.take_all_of_le hp, tombN_nil,
            List.append_nil]

end CRDTDocument

namespace CRDTDocument

theorem insertCore_shape (d1 : CRDTDocument) (c : Char) (g : GlobalId)
    (q : Nat) :
    ∃ (d2 : CRDTDocument) (n : Nat),
      insertCore d1 c g q = (d2, some [⟨n, n, [c]⟩]) :=
  ⟨_, _, rfl⟩

/-- A non-duplicate single-character insert whose reference id is present
always succeeds and emits one single-character update. -/
theorem insert_succ (d : CRDTDocument) (c : Char) (g : GlobalId)
    (ag : Option GlobalId)
    (hdup : (⟨.ins, g.siteId, g.counter⟩ : OpKey) ∉ d.appliedOps)
    (hag : ∀ a, ag = some a → a ∈ gids d.entries) :
    ∃ (d' : CRDTDocument) (n : Nat),
      insert d (some [c]) g ag = (d', some [⟨n, n, [c]⟩]) := by
  rcases ag with _ | a
  · simp only [insert, hdup, ite_false]
    exact insertCore_shape _ c g 0
  · obtain ⟨j, e, hfg, hget, hgid⟩ := findGid_complete
      { d with maxCounter := max d.maxCounter g.counter } a (hag a rfl)
    simp only [insert, hdup, ite_false, hfg]
    exact insertCore_shape _ c g (j + 1)

/-- A successful fresh root insert is exactly an abstract `insBody`. -/
theorem insert_succ_insBody (d : CRDTDocument) (c : Char) (g : GlobalId)
    (hs : Sync d) (hfresh : g ∉ gids d.entries)
    (d' : CRDTDocument) (out : List PlainUpdate)
    (h : insert d (some [c]) g none = (d', some out)) :
    d'.entries = insBody (⟨c, g, true⟩ : CharEntry) d.entries ∧ Sync d' := by
  obtain ⟨happ, hsync⟩ :=
    sim_insert d ⟨"insert", g, some [c], none⟩ rfl hs d' out h
  rw [applyEventE] at happ
  rw [if_pos (show (⟨"insert", g, some [c], none⟩ : CRDTEvent).type =
    "insert" from rfl)] at happ
  rw [if_neg (show ¬ (⟨"insert", g, some [c], none⟩ : CRDTEvent).gid ∈
    gids d.entries from hfresh)] at happ
  have happ' : some (insBody (⟨c, g, true⟩ : CharEntry) d.entries) =
      some d'.entries := happ
  exact ⟨(Option.some_inj.mp happ').symm, hsync⟩

theorem insLoop_cons_eq (d : CRDTDocument) (idx : Int) (s : Nat)
    (acc : List CRDTEvent) (c : Char) (rest : List Char)
    (ag : Option GlobalId) (hag : entryGidAt d idx = (ag, true))
    (d' : CRDTDocument) (u : PlainUpdate) (tail : List PlainUpdate)
    (hins : insert d (some [c]) ⟨d.maxCounter + 1, s⟩ ag =
      (d', some (u :: tail))) :
    insLoop d idx s acc (c :: rest) =
      insLoop d' (idx + 1) s
        (acc ++ [⟨"insert", ⟨d.maxCounter + 1, s⟩, some [c], ag⟩]) rest := by
  rw [insLoop]
  simp only [hag, hins, eq_self_iff_true, if_true, ite_true]

end CRDTDocument

namespace CRDTDocument

/-- The insert loop of `applyPlainUpdate`: starting after entry index
`p - 1` it inserts the characters of `v` as fresh visible entries exactly at
index `p`, succeeding unconditionally on a reachable state. -/
theorem insLoop_spec : ∀ (v : List Char) (d : CRDTDocument) (p : Nat)
    (siteId : Nat) (acc : List CRDTEvent),
    Sync d → CounterInv d → p ≤ d.entries.length →
    ∃ (nw : List CharEntry) (d2 : CRDTDocument) (acc2 : List CRDTEvent),
      insLoop d ((p : Int) - 1) siteId acc v = (d2, some acc2) ∧
      d2.entries = d.entries.take p ++ nw ++ d.entries.drop p ∧
      visText nw = v := by
  intro v
  induction v with
  | nil =>
    intro d p siteId acc hs hci hp
    refine ⟨[], d, acc, rfl, ?_, rfl⟩
    rw [List.append_nil, List.take_append_drop]
  | cons c rest ih =>
    intro d p siteId acc hs hci hp
    have hfresh := fresh_gid d hs hci siteId
    have hdupk : (⟨.ins, siteId, d.maxCounter + 1⟩ : OpKey) ∉ d.appliedOps := by
      intro hk
      have hb : d.maxCounter + 1 ≤ d.maxCounter := hci _ hk
      omega
    rcases p with _ | q
    · have hag : entryGidAt d (((0 : Nat) : Int) - 1) = (none, true) := by
        rw [entryGidAt,
          if_pos (show ((((0 : Nat) : Int)) - 1 = -1) from by decide)]
      obtain ⟨d', n, hins⟩ := insert_succ d c ⟨d.maxCounter + 1, siteId⟩ none
        hdupk (fun a ha => by cases ha)
      obtain ⟨hent', hsync'⟩ := insert_succ_insBody d c
        ⟨d.maxCounter + 1, siteId⟩ hs hfresh d' _ hins
      have hentcons : d'.entries =
          (⟨c, ⟨d.maxCounter + 1, siteId⟩, true⟩ : CharEntry) :: d.entries := by
        rw [hent']
        exact insBody_max _ _ (fun x hx => by
          have := entry_counter_le d hs hci x hx
          show x.gid.counter < d.maxCounter + 1
          omega)
      have hci' : CounterInv d' := by
        have hq := insert_counterInv d (some [c]) ⟨d.maxCounter + 1, siteId⟩
          none hci
        rw [hins] at hq
        exact hq
      rw [insLoop_cons_eq d (((0 : Nat) : Int) - 1) siteId acc c rest
        none hag d' _ _ hins,
        show ((((0 : Nat) : Int)) - 1) + 1 = (((1 : Nat) : Int)) - 1 from
          by decide]
      obtain ⟨nw', d2, acc2, hloop, hent2, hvis2⟩ :=
        ih d' 1 siteId
          (acc ++ [⟨"insert", ⟨d.maxCounter + 1, siteId⟩, some [c], none⟩])
          hsync' hci' (by rw [hentcons]; simp)
      refine ⟨(⟨c, ⟨d.maxCounter + 1, siteId⟩, true⟩ : CharEntry) :: nw', d2,
        acc2, hloop, ?_, ?_⟩
      · rw [hent2, hentcons]
        simp [List.append_assoc]
      · rw [visText_cons, if_pos rfl, hvis2]
    · have hqlen : q < d.entries.length := by omega
      obtain ⟨e, hgetq⟩ : ∃ e, d.entries[q]? = some e :=
        ⟨_, List.getElem?_eq_getElem hqlen⟩
      have hag : entryGidAt d ((((q + 1) : Nat) : Int) - 1) =
          (some e.gid, true) := by
        rw [entryGidAt, if_neg (by omega), if_neg (by omega),
          show ((((q + 1) : Nat) : Int) - 1).toNat = q from by omega, hgetq]
      obtain ⟨d', n, hins⟩ := insert_succ d c ⟨d.maxCounter + 1, siteId⟩
        (some e.gid) hdupk
        (fun a ha => (Option.some_inj.mp ha) ▸
          List.mem_map.mpr ⟨e, List.getElem?_mem hgetq, rfl⟩)
      obtain ⟨hinsaft, hsync'⟩ := insert_succ_insAfter d c
        ⟨d.maxCounter + 1, siteId⟩ e.gid hs hfresh d' _ hins
      have hdropq : d.entries.drop q = e :: d.entries.drop (q + 1) := by
        obtain ⟨hlt, heq⟩ := List.getElem?_eq_some.mp hgetq
        rw [List.drop_eq_getElem_cons hlt, heq]
      have hsplit : d.entries =
          d.entries.take q ++ e :: d.entries.drop (q + 1) := by
        rw [← hdropq, List.take_append_drop]
      have hdisj : ∀ x ∈ d.entries.take q, x.gid ≠ e.gid := by
        intro x hx heq
        have hmap : gids (d.entries.take q) ++ gids (d.entries.drop q) =
            gids d.entries := by
          unfold gids
          rw [← List.map_append, List.take_append_drop]
        have hnd := hs.1
        rw [← hmap] at hnd
        exact List.disjoint_of_nodup_append hnd
          (List.mem_map.mpr ⟨x, hx, rfl⟩)
          (by rw [hdropq, gids_cons, heq]; exact List.mem_cons_self _ _)
      have hval : insAfter e.gid
          (⟨c, ⟨d.maxCounter + 1, siteId⟩, true⟩ : CharEntry) d.entries =
          some (d.entries.take q ++ e ::
            insBody (⟨c, ⟨d.maxCounter + 1, siteId⟩, true⟩ : CharEntry)
              (d.entries.drop (q + 1))) := by
        nth_rewrite 1 [hsplit]
        exact insAfter_first e.gid _ (d.entries.take q) e
          (d.entries.drop (q + 1)) hdisj rfl
      have hd'ent : d'.entries = d.entries.take q ++ e ::
          (⟨c, ⟨d.maxCounter + 1, siteId⟩, true⟩ : CharEntry) ::
            d.entries.drop (q + 1) := by
        rw [hinsaft] at hval
        have hv := Option.some_inj.mp hval
        rw [insBody_max _ _ (fun x hx => by
          have := entry_counter_le d hs hci x (List.drop_subset _ _ hx)
          show x.gid.counter < d.maxCounter + 1
          omega)] at hv
        exact hv
      have hci' : CounterInv d' := by
        have hq2 := insert_counterInv d (some [c]) ⟨d.maxCounter + 1, siteId⟩
          (some e.gid) hci
        rw [hins] at hq2
        exact hq2
      rw [insLoop_cons_eq d ((((q + 1) : Nat) : Int) - 1) siteId acc c rest
        (some e.gid) hag d' _ _ hins,
        show (((((q + 1) : Nat) : Int)) - 1) + 1 =
          ((((q + 2) : Nat) : Int)) - 1 from by push_cast; ring]
      obtain ⟨nw', d2, acc2, hloop, hent2, hvis2⟩ :=
        ih d' (q + 2) siteId
          (acc ++ [⟨"insert", ⟨d.maxCounter + 1, siteId⟩, some [c],
            some e.gid⟩])
          hsync' hci'
          (by rw [hd'ent]
              simp only [List.length_append, List.length_take,
                List.length_cons, List.length_drop]
              omega)
      refine ⟨(⟨c, ⟨d.maxCounter + 1, siteId⟩, true⟩ : CharEntry) :: nw', d2,
        acc2, hloop, ?_, ?_⟩
      · rw [hent2]
        have htkq : (d.entries.take q).length = q :=
          List.length_take_of_le (le_of_lt hqlen)
        have htk2 : d'.entries.take (q + 2) = d.entries.take q ++
            [e, (⟨c, ⟨d.maxCounter + 1, siteId⟩, true⟩ : CharEntry)] := by
          rw [hd'ent]
          have hq2 := @List.take_append CharEntry (d.entries.take q)
            (e :: (⟨c, ⟨d.maxCounter + 1, siteId⟩, true⟩ : CharEntry) ::
              d.entries.drop (q + 1)) 2
          rw [htkq] at hq2
          rw [hq2]
          rfl
        have hdr2 : d'.entries.drop (q + 2) = d.entries.drop (q + 1) := by
          rw [hd'ent]
          have hq2 := @List.drop_append CharEntry (d.entries.take q)
            (e :: (⟨c, ⟨d.maxCounter + 1, siteId⟩, true⟩ : CharEntry) ::
              d.entries.drop (q + 1)) 2
          rw [htkq] at hq2
          rw [hq2]
          rfl
        rw [htk2, hdr2]
        have htk1 : d.entries.take (q + 1) = d.entries.take q ++ [e] := by
          obtain ⟨hlt, heq⟩ := List.getElem?_eq_some.mp hgetq
          rw [← List.take_concat_get' d.entries q hlt, heq]
        rw [htk1]
        simp [List.append_assoc]
      · rw [visText_cons, if_pos rfl, hvis2]

end CRDTDocument

theorem tombN_length : ∀ (l : List CharEntry) (r : Nat),
    (tombN r l).length = l.length := by
  intro l
  induction l with
  | nil =>
    intro r
    rw [tombN_nil]
  | cons x xs ih =>
    intro r
    rcases r with _ | r
    · rfl
    · rw [tombN]
      split <;> simp [ih]

/-- C6 (amended): `applyPlainUpdate(from, to, value, siteId)` on a reachable
state fails when the requested range reaches beyond the visible text
(`max from to > getText().length`); when it succeeds it replaces exactly the
visible range `[from, max from to)` by `value` — in particular `from > to`
alone is NOT rejected: the source computes a negative `removedChars`, whose
loop guard is immediately false, so nothing is deleted.  (The literal claim
that `from > to` fails with InvalidRange is refuted by
`CRDTDocument.C6_invalid_range_counterexample`.) -/
theorem C6_amended (d : CRDTDocument) (f t : Nat) (v : List Char) (s : Nat)
    (hs : Sync d) (hc : CacheInv d) (hci : CounterInv d) :
    (max f t > d.getText.length → (d.applyPlainUpdate f t v s).2 = none) ∧
    (∀ (d' : CRDTDocument) (evs : List CRDTEvent),
      d.applyPlainUpdate f t v s = (d', some evs) →
      d'.getText = d.getText.take f ++ v ++ d.getText.drop (max f t)) := by
  have hvis : d.getText.length = CRDTDocument.countVis d.entries := by
    rw [getText_eq_visText, length_visText]
  obtain ⟨hsucc, hfail⟩ := CRDTDocument.getPosition_spec d f hc
  constructor
  · intro hmax
    rw [CRDTDocument.applyPlainUpdate]
    by_cases hf : f ≤ CRDTDocument.countVis d.entries
    · obtain ⟨p, hgp, hcnt, hple⟩ := hsucc hf
      simp only [hgp]
      obtain ⟨d1, acc1, hdl, hent1, hs1, hci1⟩ :=
        CRDTDocument.delLoop_spec
          (({ d with cachedPosition := p, cachedLength := f } :
            CRDTDocument).entries.length - p)
          { d with cachedPosition := p, cachedLength := f } p (t - f) []
          hs hci (le_refl _)
      simp only [hdl]
      have hcv : CRDTDocument.countVis
          (({ d with cachedPosition := p, cachedLength := f } :
            CRDTDocument).entries.drop p) =
          CRDTDocument.countVis d.entries - f := by
        show CRDTDocument.countVis (d.entries.drop p) = _
        have := countVis_take_add_drop d.entries p
        omega
      rw [hcv, if_pos (by omega)]
    · push_neg at hf
      rw [hfail hf]
  · intro d' evs h
    rw [CRDTDocument.applyPlainUpdate] at h
    by_cases hf : f ≤ CRDTDocument.countVis d.entries
    · obtain ⟨p, hgp, hcnt, hple⟩ := hsucc hf
      simp only [hgp] at h
      obtain ⟨d1, acc1, hdl, hent1, hs1, hci1⟩ :=
        CRDTDocument.delLoop_spec
          (({ d with cachedPosition := p, cachedLength := f } :
            CRDTDocument).entries.length - p)
          { d with cachedPosition := p, cachedLength := f } p (t - f) []
          hs hci (le_refl _)
      simp only [hdl] at h
      have hcv : CRDTDocument.countVis
          (({ d with cachedPosition := p, cachedLength := f } :
            CRDTDocument).entries.drop p) =
          CRDTDocument.countVis d.entries - f := by
        show CRDTDocument.countVis (d.entries.drop p) = _
        have := countVis_take_add_drop d.entries p
        omega
      rw [hcv] at h
      by_cases hrem : 0 < t - f - (CRDTDocument.countVis d.entries - f)
      · rw [if_pos hrem] at h
        exact absurd (congrArg Prod.snd h) (by simp)
      · rw [if_neg hrem] at h
        have hent1' : d1.entries = d.entries.take p ++
            tombN (t - f) (d.entries.drop p) := hent1
        have hlen1 : d1.entries.length = d.entries.length := by
          rw [hent1']
          rw [List.length_append, tombN_length, List.length_take_of_le hple,
            List.length_drop]
          omega
        obtain ⟨nw, d2, acc2, hloop, hent2, hvq⟩ :=
          CRDTDocument.insLoop_spec v d1 p s acc1 hs1 hci1 (by omega)
        rw [hloop] at h
        rw [Prod.mk.injEq] at h
        obtain ⟨hd', -⟩ := h
        subst hd'
        have htkl : (d.entries.take p).length = p :=
          List.length_take_of_le hple
        have htk1 : d1.entries.take p = d.entries.take p := by
          rw [hent1']
          exact List.take_left' htkl
        have hdr1 : d1.entries.drop p = tombN (t - f) (d.entries.drop p) := by
          rw [hent1']
          exact List.drop_left' htkl
        rw [getText_eq_visText, getText_eq_visText, hent2, htk1, hdr1]
        rw [visText_append, visText_append, hvq, visText_tombN]
        have hTsplit : visText d.entries =
            visText (d.entries.take p) ++ visText (d.entries.drop p) := by
          rw [← visText_append, List.take_append_drop]
        rw [hTsplit]
        have hlenA : (visText (d.entries.take p)).length = f := by
          rw [length_visText, hcnt]
        rw [List.take_left' hlenA]
        have hmaxft : max f t = (visText (d.entries.take p)).length +
            (t - f) := by
          rw [hlenA]
          omega
        rw [hmaxft, List.drop_append]
    · push_neg at hf
      rw [hfail hf] at h
      exact absurd (congrArg Prod.snd h) (by simp)

theorem C6_witness :
    ((CRDTDocument.new.applyEvents
        [⟨"insert", ⟨1, 1⟩, some ['a'], none⟩,
         ⟨"insert", ⟨2, 1⟩, some ['b'], some ⟨1, 1⟩⟩]).1.applyPlainUpdate
      0 5 [] 9).2 = none ∧
    (((CRDTDocument.new.applyEvents
        [⟨"insert", ⟨1, 1⟩, some ['a'], none⟩,
         ⟨"insert", ⟨2, 1⟩, some ['b'], some ⟨1, 1⟩⟩]).1.applyPlainUpdate
      0 1 ['z'] 9).1).getText =
      (((CRDTDocument.new.applyEvents
          [⟨"insert", ⟨1, 1⟩, some ['a'], none⟩,
           ⟨"insert", ⟨2, 1⟩, some ['b'], some ⟨1, 1⟩⟩]).1).getText).take 0 ++
        ['z'] ++
        (((CRDTDocument.new.applyEvents
            [⟨"insert", ⟨1, 1⟩, some ['a'], none⟩,
             ⟨"insert", ⟨2, 1⟩, some ['b'], some ⟨1, 1⟩⟩]).1).getText).drop
          (max 0 1) :=
  ⟨(C6_amended
      (CRDTDocument.new.applyEvents
        [⟨"insert", ⟨1, 1⟩, some ['a'], none⟩,
         ⟨"insert", ⟨2, 1⟩, some ['b'], some ⟨1, 1⟩⟩]).1
      0 5 [] 9 (by decide) (by decide) (by decide)).1 (by decide),
   (C6_amended
      (CRDTDocument.new.applyEvents
        [⟨"insert", ⟨1, 1⟩, some ['a'], none⟩,
         ⟨"insert", ⟨2, 1⟩, some ['b'], some ⟨1, 1⟩⟩]).1
      0 1 ['z'] 9 (by decide) (by decide) (by decide)).2
     ((CRDTDocument.new.applyEvents
        [⟨"insert", ⟨1, 1⟩, some ['a'], none⟩,
         ⟨"insert", ⟨2, 1⟩, some ['b'], some ⟨1, 1⟩⟩]).1.applyPlainUpdate
       0 1 ['z'] 9).1
     (((CRDTDocument.new.applyEvents
        [⟨"insert", ⟨1, 1⟩, some ['a'], none⟩,
         ⟨"insert", ⟨2, 1⟩, some ['b'], some ⟨1, 1⟩⟩]).1.applyPlainUpdate
       0 1 ['z'] 9).2.getD []) (by decide)⟩
